import Mathlib

/-!
Verification of the deterministic supervisor workflow of the EV market
intelligence repository.  The development shallowly embeds
`src/states/state.py`, `src/supervisor/builder.py` and the duplicate
variant `src/supervisor/workflow.py` into Lean.  Python strings are
modelled as `List Char`, Python values reachable from agent results as
the mutual inductive `PyVal`, exceptions as explicit error sums, and the
mutable `SupervisorState` as explicit state passing.  The wall-clock
timestamp taken by `snapshot` is treated as an external oracle supplied
through a `clock` parameter; it is never inspected by any code path.
-/

/-! ### Character classes (Python `re` semantics, ASCII whitespace) -/

/-- Python `\s` / `str.strip` whitespace, restricted to the ASCII range
(the repository only ever manipulates ASCII whitespace). -/
def isPyWs (c : Char) : Bool :=
  c = ' ' || c = '\t' || c = '\n' || c = '\r' || c = '\x0b' || c = '\x0c'

/-- The sentence-ending characters of the class `[.!?\.]` used in
`_clean_text` (the duplicated `\.` adds nothing). -/
def isSentencePunct (c : Char) : Bool :=
  c = '.' || c = '!' || c = '?'

/-- The backtick character (written via its code point). -/
def backtickChar : Char := Char.ofNat 96

/-- The characters removed by `re.sub(r"[\*\-•]+", "", text)`. -/
def isBulletChar (c : Char) : Bool :=
  c = '*' || c = '-' || c = '•'

/-! ### Python string primitives -/

/-- Python `str.strip()`: drop whitespace from both ends. -/
def pyStrip (l : List Char) : List Char :=
  ((l.dropWhile isPyWs).reverse.dropWhile isPyWs).reverse

/-- Python `sep.join(pieces)` for a one-character separator list. -/
def joinWith (sep : List Char) : List (List Char) → List Char
  | [] => []
  | [w] => w
  | w :: x :: ws => w ++ sep ++ joinWith sep (x :: ws)

/-- Python `str.rstrip(".,;")`: drop trailing characters of the set. -/
def rstripPunct (l : List Char) : List Char :=
  (l.reverse.dropWhile (fun c => c = '.' || c = ',' || c = ';')).reverse

/-! ### `re.sub(r"\s+", " ", text).strip()` — whitespace collapsing

Modelled as: split the text into its maximal non-whitespace runs and
join them with single spaces, which is exactly what substituting every
whitespace run by one space followed by `strip()` produces. -/

/-- Maximal non-whitespace runs of a string; `cur` accumulates the
current run in reverse. -/
def pyWordsAux (cur : List Char) : List Char → List (List Char)
  | [] => if cur.isEmpty then [] else [cur.reverse]
  | c :: cs =>
    if isPyWs c then
      if cur.isEmpty then pyWordsAux [] cs else cur.reverse :: pyWordsAux [] cs
    else pyWordsAux (c :: cur) cs

/-- Maximal non-whitespace runs of a string. -/
def pyWords (l : List Char) : List (List Char) :=
  pyWordsAux [] l

/-- `re.sub(r"\s+", " ", l).strip()`. -/
def collapseWs (l : List Char) : List Char :=
  joinWith [' '] (pyWords l)

/-! ### `re.sub(r"^\s*#+.*$", "", text, flags=re.MULTILINE)` — heading removal

A multiline match starts at a line start, greedily consumes whitespace
(including newlines) that leads to a `#`, and removes everything up to
(but excluding) the next newline.  The scanner below reproduces the
non-overlapping leftmost-match semantics of `re.sub`:
`lineStart pending` buffers whitespace seen since a line start (in
reverse) until it is known whether a `#` follows, `mid` copies an
ordinary line, and `dropLine` discards the matched heading line. -/

inductive HeadingMode where
  | lineStart : List Char → HeadingMode
  | mid : HeadingMode
  | dropLine : HeadingMode
  deriving DecidableEq

def subHeadingsAux : HeadingMode → List Char → List Char
  | .lineStart pending, [] => pending.reverse
  | .mid, [] => []
  | .dropLine, [] => []
  | .lineStart pending, c :: cs =>
    if c = '#' then subHeadingsAux .dropLine cs
    else if isPyWs c then subHeadingsAux (.lineStart (c :: pending)) cs
    else pending.reverse ++ c :: subHeadingsAux .mid cs
  | .mid, c :: cs =>
    if c = '\n' then c :: subHeadingsAux (.lineStart []) cs
    else c :: subHeadingsAux .mid cs
  | .dropLine, c :: cs =>
    if c = '\n' then c :: subHeadingsAux (.lineStart []) cs
    else subHeadingsAux .dropLine cs

/-- `re.sub(r"^\s*#+.*$", "", text, flags=re.MULTILINE)`. -/
def subHeadings (l : List Char) : List Char :=
  subHeadingsAux (.lineStart []) l

/-! ### `re.split(r"(?<=[.!?\.])\s+", text)` — sentence splitting

Scanner over the characters: a whitespace character whose predecessor is
sentence punctuation starts a separator, which greedily swallows the
whole whitespace run; everything else is accumulated into the current
piece.  `skipping` is true while inside a separator run, `prevPunct`
records whether the previously consumed character was `[.!?]`, and `acc`
holds the current piece in reverse. -/

def splitSentencesAux (skipping prevPunct : Bool) (acc : List Char) :
    List Char → List (List Char)
  | [] => [acc.reverse]
  | c :: cs =>
    if skipping then
      if isPyWs c then splitSentencesAux true false acc cs
      else splitSentencesAux false (isSentencePunct c) (c :: acc) cs
    else if isPyWs c && prevPunct then
      acc.reverse :: splitSentencesAux true false [] cs
    else splitSentencesAux false (isSentencePunct c) (c :: acc) cs

/-- `re.split(r"(?<=[.!?\.])\s+", text)`. -/
def splitSentences (l : List Char) : List (List Char) :=
  splitSentencesAux false false [] l

/-! ### `_clean_text` (identical in builder.py and workflow.py) -/

/-- The literal placeholder `"데이터가 충분하지 않습니다."`. -/
def insufficientData : List Char := "데이터가 충분하지 않습니다.".data

/-- `_clean_text(value, sentence_limit=limit)` from
`src/supervisor/builder.py` (the `workflow.py` copy is identical).  The
`isinstance` coercion on the first line is dropped because the model's
input is already a string. -/
def _clean_text (value : List Char) (sentence_limit : Nat) : List Char :=
  let t1 := value.filter (fun c => !(c = backtickChar))
  let t2 := subHeadings t1
  let t3 := t2.filter (fun c => !(isBulletChar c))
  let text := collapseWs t3
  if text.isEmpty then insufficientData
  else
    let sentences := splitSentences text
    let trimmed := pyStrip (joinWith [' '] (sentences.take sentence_limit))
    if trimmed.isEmpty then insufficientData else trimmed

/-! ### URL extraction regex

`re.findall(r"https?://[\w\-._~:/?#\[\]@!$&'()*+,;=%]+", text)`:
non-overlapping leftmost matches of a literal scheme followed by a
maximal nonempty run of URL characters.  `\w` is modelled on the ASCII
range (`[A-Za-z0-9_]`), which covers every string the claims exercise. -/

def isUrlChar (c : Char) : Bool :=
  ('a' ≤ c && c ≤ 'z') || ('A' ≤ c && c ≤ 'Z') || ('0' ≤ c && c ≤ '9') ||
  c = '_' || c = '-' || c = '.' || c = '~' || c = ':' || c = '/' ||
  c = '?' || c = '#' || c = '[' || c = ']' || c = '@' || c = '!' ||
  c = '$' || c = '&' || c = Char.ofNat 39 || c = '(' || c = ')' ||
  c = '*' || c = '+' || c = ',' || c = ';' || c = '=' || c = '%'

/-- Try to match `https?://` at the head of the list, returning the
matched scheme and the remainder.  `https` is preferred because the `s?`
quantifier is greedy. -/
def matchScheme (l : List Char) : Option (List Char × List Char) :=
  if "https://".data.isPrefixOf l then
    some ("https://".data, l.drop 8)
  else if "http://".data.isPrefixOf l then
    some ("http://".data, l.drop 7)
  else none

/-- One attempted match at the current position: scheme plus a nonempty
greedy run of URL characters. -/
def matchUrlAt (l : List Char) : Option (List Char × List Char) :=
  match matchScheme l with
  | none => none
  | some (scheme, rest) =>
    let run := rest.takeWhile isUrlChar
    if run.isEmpty then none
    else some (scheme ++ run, rest.dropWhile isUrlChar)

/-- `re.findall` scan: try a match at each position, and resume after
the end of a match (non-overlapping).  The fuel is the remaining string
length; every step consumes at least one character, so fuel bounded by
the length of the input never runs out. -/
def findUrlsAux : Nat → List Char → List (List Char)
  | 0, _ => []
  | _ + 1, [] => []
  | fuel + 1, c :: cs =>
    match matchUrlAt (c :: cs) with
    | some (u, rest) => u :: findUrlsAux fuel rest
    | none => findUrlsAux fuel cs

/-- All URL matches of the findall regex in a string. -/
def findUrls (l : List Char) : List (List Char) :=
  findUrlsAux l.length l

/-! ### Python values

Agent results and snapshot payloads range over strings, numbers,
booleans, `None`, sequences (lists/tuples), mappings, sets, and
LangChain message objects exposing a `content` attribute.  A mutual
inductive keeps all recursion structural. -/

mutual
inductive PyVal where
  | vstr : List Char → PyVal
  | vint : Int → PyVal
  | vbool : Bool → PyVal
  | vnone : PyVal
  | vlist : PyList → PyVal
  | vdict : PyKVs → PyVal
  | vset : PyList → PyVal
  | vmsg : PyVal → PyVal
  deriving DecidableEq
inductive PyList where
  | nil : PyList
  | cons : PyVal → PyList → PyList
  deriving DecidableEq
inductive PyKVs where
  | nil : PyKVs
  | cons : PyVal → PyVal → PyKVs → PyKVs
  deriving DecidableEq
end

def PyList.ofList : List PyVal → PyList
  | [] => .nil
  | x :: xs => .cons x (PyList.ofList xs)

def PyList.toList : PyList → List PyVal
  | .nil => []
  | .cons x xs => x :: PyList.toList xs

/-! Sizes (`nil` counts 1) used as fuel bounds for the two Python
functions whose recursion is not structural. -/

mutual
def pvSize : PyVal → Nat
  | .vstr _ => 1
  | .vint _ => 1
  | .vbool _ => 1
  | .vnone => 1
  | .vlist l => 1 + pvlSize l
  | .vdict kvs => 1 + pvkSize kvs
  | .vset l => 1 + pvlSize l
  | .vmsg c => 1 + pvSize c
def pvlSize : PyList → Nat
  | .nil => 1
  | .cons x xs => 1 + pvSize x + pvlSize xs
def pvkSize : PyKVs → Nat
  | .nil => 1
  | .cons k v tl => 1 + pvSize k + pvSize v + pvkSize tl
end

/-- Python truthiness of the modelled values. -/
def pyTruthy : PyVal → Bool
  | .vstr s => !s.isEmpty
  | .vint n => !(n = 0)
  | .vbool b => b
  | .vnone => false
  | .vlist l => !(l = .nil)
  | .vdict kvs => !(kvs = .nil)
  | .vset l => !(l = .nil)
  | .vmsg _ => true

/-- `dict.get(key)` for a string key (first matching entry). -/
def dictGet (kvs : PyKVs) (key : List Char) : Option PyVal :=
  match kvs with
  | .nil => none
  | .cons k v tl => if k = .vstr key then some v else dictGet tl key

/-- `isinstance(v, Sequence)` view: strings are sequences of their
one-character strings, lists/tuples of their elements; everything else
(including dicts and sets) is not a `Sequence`. -/
def seqElems : PyVal → Option PyList
  | .vstr s => some (PyList.ofList (s.map (fun ch => .vstr [ch])))
  | .vlist l => some l
  | _ => none

/-! ### Python ordering (`<`) as used by `sorted` inside `_serialise` -/

/-- Numeric value of a Python number (`bool` is an `int` subclass). -/
def numVal : PyVal → Option Int
  | .vint n => some n
  | .vbool b => some (if b then 1 else 0)
  | _ => none

/-- Code-point lexicographic `<` on strings. -/
def lexLt : List Char → List Char → Bool
  | [], [] => false
  | [], _ :: _ => true
  | _ :: _, [] => false
  | a :: as, b :: bs => if a < b then true else if b < a then false else lexLt as bs

/-- Python `a < b`; raises `TypeError` (modelled `.error ()`) unless both
sides are numbers or both are strings. -/
def pyLt (a b : PyVal) : Except Unit Bool :=
  match numVal a, numVal b with
  | some x, some y => .ok (decide (x < y))
  | _, _ =>
    match a, b with
    | .vstr s, .vstr t => .ok (lexLt s t)
    | _, _ => .error ()

/-- Insert into a sorted list using Python `<`, propagating `TypeError`. -/
def pyInsert (x : PyVal) : PyList → Except Unit PyList
  | .nil => .ok (.cons x .nil)
  | .cons y ys => do
    if (← pyLt x y) then
      pure (.cons x (.cons y ys))
    else
      pure (.cons y (← pyInsert x ys))

/-- Python `sorted(iterable)` (insertion sort; raises iff some performed
comparison raises, which for the claims' inputs coincides with CPython's
behaviour). -/
def pySorted : PyList → Except Unit PyList
  | .nil => .ok .nil
  | .cons x xs => do pyInsert x (← pySorted xs)

/-! ### `str()` / `repr()` of Python values

Needed for the `str(value)` fallbacks of `_serialise` and
`_summarise_agent_result`.  String escaping inside `repr` and the exact
rendering of message objects are simplified (no claim depends on them);
the structure of container rendering follows CPython. -/

mutual
def pyRepr : PyVal → List Char
  | .vstr s => Char.ofNat 39 :: s ++ [Char.ofNat 39]
  | .vint n => (toString n).data
  | .vbool b => if b then "True".data else "False".data
  | .vnone => "None".data
  | .vlist l => '[' :: reprElems l ++ [']']
  | .vdict kvs => Char.ofNat 123 :: reprKVs kvs ++ [Char.ofNat 125]
  | .vset l =>
    match l with
    | .nil => "set()".data
    | .cons x xs => Char.ofNat 123 :: reprElems (.cons x xs) ++ [Char.ofNat 125]
  | .vmsg c => "content=".data ++ pyRepr c
def reprElems : PyList → List Char
  | .nil => []
  | .cons x .nil => pyRepr x
  | .cons x (.cons y ys) => pyRepr x ++ ", ".data ++ reprElems (.cons y ys)
def reprKVs : PyKVs → List Char
  | .nil => []
  | .cons k v .nil => pyRepr k ++ ": ".data ++ pyRepr v
  | .cons k v (.cons k2 v2 tl) =>
    pyRepr k ++ ": ".data ++ pyRepr v ++ ", ".data ++ reprKVs (.cons k2 v2 tl)
end

/-- Python `str(value)`. -/
def pyStr : PyVal → List Char
  | .vstr s => s
  | v => pyRepr v

/-! ### The recursive serializer `_serialise` inside `SupervisorState.snapshot`

```python
def _serialise(value):
    if isinstance(value, (str, int, float, bool)) or value is None: return value
    if isinstance(value, dict): return {key: _serialise(val) for key, val in value.items()}
    if isinstance(value, (list, tuple)): return [_serialise(item) for item in value]
    if isinstance(value, set): return [_serialise(item) for item in sorted(value)]
    return str(value)
```

`sorted` returns a permutation rather than a subterm, so the function is
written with explicit fuel; `pvSize value + 1` strictly bounds the
recursion depth, so the fuel-exhaustion branch is unreachable from
`_serialise`. -/

mutual
def serialiseFuel : Nat → PyVal → Except Unit PyVal
  | 0, _ => .error ()
  | fuel + 1, v =>
    match v with
    | .vstr s => .ok (.vstr s)
    | .vint n => .ok (.vint n)
    | .vbool b => .ok (.vbool b)
    | .vnone => .ok .vnone
    | .vdict kvs => do pure (.vdict (← serialiseKVsFuel fuel kvs))
    | .vlist l => do pure (.vlist (← serialiseListFuel fuel l))
    | .vset l => do
      let sortedL ← pySorted l
      pure (.vlist (← serialiseListFuel fuel sortedL))
    | .vmsg c => .ok (.vstr (pyStr (.vmsg c)))

def serialiseListFuel : Nat → PyList → Except Unit PyList
  | 0, _ => .error ()
  | _ + 1, .nil => .ok .nil
  | fuel + 1, .cons x xs => do
    pure (.cons (← serialiseFuel fuel x) (← serialiseListFuel fuel xs))

def serialiseKVsFuel : Nat → PyKVs → Except Unit PyKVs
  | 0, _ => .error ()
  | _ + 1, .nil => .ok .nil
  | fuel + 1, .cons k v tl => do
    pure (.cons k (← serialiseFuel fuel v) (← serialiseKVsFuel fuel tl))
end

/-- The serializer `_serialise` of `SupervisorState.snapshot`
(`src/states/state.py`). -/
def _serialise (v : PyVal) : Except Unit PyVal :=
  serialiseFuel (pvSize v + 1) v

/-! ### `_summarise_agent_result` (identical in builder.py and workflow.py)

Recursion goes through the last element of a sequence extracted from a
mapping, which is not a subterm, so fuel is used again (`pvSize v + 1`
bounds the depth; every recursive call strictly decreases `pvSize`). -/

def summariseFuel : Nat → PyVal → List Char
  | 0, v => pyStr v
  | fuel + 1, v =>
    match v with
    | .vnone => "(no result)".data
    | .vstr s => s
    | .vdict kvs =>
      -- tail of the Mapping branch: `output` lookup, then `str(result)`
      let afterMessages : List Char :=
        match dictGet kvs "output".data with
        | some out => if out = .vnone then pyStr (.vdict kvs) else summariseFuel fuel out
        | none => pyStr (.vdict kvs)
      match dictGet kvs "messages".data with
      | some msgs =>
        if pyTruthy msgs then
          match seqElems msgs with
          | some elems =>
            match (PyList.toList elems).getLast? with
            | some lastMsg => summariseFuel fuel lastMsg
            | none => afterMessages
          | none => afterMessages
        else afterMessages
      | none => afterMessages
    | .vmsg content =>
      -- hasattr(result, "content") branch; falls through to str(result)
      -- because a message object is not a Sequence.
      match content with
      | .vstr s =>
        if !(pyStrip s).isEmpty then s
        else if s.isEmpty then pyStr (.vmsg content)
        else joinWith ['\n'] (s.map (fun ch => [ch]))
      | _ =>
        match seqElems content with
        | some elems =>
          let parts := ((PyList.toList elems).filter pyTruthy).map pyStr
          let combined := joinWith ['\n'] parts
          if combined.isEmpty then pyStr (.vmsg content) else combined
        | none => pyStr (.vmsg content)
    | .vlist l =>
      let flattened := (PyList.toList l).filter pyTruthy
      match flattened.getLast? with
      | some lastEl => summariseFuel fuel lastEl
      | none => pyStr (.vlist l)
    | .vint n => pyStr (.vint n)
    | .vbool b => pyStr (.vbool b)
    | .vset l => pyStr (.vset l)

/-- `_summarise_agent_result(result)` from `src/supervisor/builder.py`
(the `workflow.py` copy is identical). -/
def _summarise_agent_result (v : PyVal) : List Char :=
  summariseFuel (pvSize v + 1) v

/-! ### The `_visit` scanner of `_extract_references`

Strings are scanned by the URL regex (each match `rstrip`ped of
`".,;"`), mappings recurse into their values, non-string sequences into
their items; sets, numbers, `None` and objects are ignored (a Python
`set` is not a `Sequence`). -/

mutual
def visitVal : PyVal → List (List Char)
  | .vstr s => (findUrls s).map rstripPunct
  | .vdict kvs => visitKVs kvs
  | .vlist l => visitList l
  | .vint _ => []
  | .vbool _ => []
  | .vnone => []
  | .vset _ => []
  | .vmsg _ => []
def visitList : PyList → List (List Char)
  | .nil => []
  | .cons x xs => visitVal x ++ visitList xs
def visitKVs : PyKVs → List (List Char)
  | .nil => []
  | .cons _ v tl => visitVal v ++ visitKVs tl
end

/-! ### `SupervisorState` (`src/states/state.py`)

The dataclass with its defaults (`max_retries=2`, `max_steps=75`,
`stage="analysis"`).  `history` entries are the records built by
`snapshot`; the `timestamp` is an oracle string supplied by the caller
(`datetime.utcnow()` in the source, never inspected by any code path). -/

inductive Stage where
  | analysis : Stage
  | validation : Stage
  | final : Stage
  | done : Stage
  deriving DecidableEq

structure HistoryEntry where
  step : Nat
  agent : List Char
  result : PyVal
  notes : List (List Char)
  timestamp : List Char
  deriving DecidableEq

structure SupervisorState where
  task_input : List Char
  current_agent : Option (List Char)
  notes : List (List Char × List (List Char))
  decisions : List (List Char)
  retry_count : Nat
  total_steps : Nat
  max_retries : Nat
  max_steps : Nat
  final_report : Option (List Char)
  history : List HistoryEntry
  stage : Stage
  completed_analysis : List (List Char)
  completed_validation : List (List Char)
  deriving DecidableEq

/-- `SupervisorState(task_input=task)` with the dataclass defaults. -/
def initState (task_input : List Char) : SupervisorState :=
  ⟨task_input, none, [], [], 0, 0, 2, 75, none, [], .analysis, [], []⟩

/-- `self.notes.get(agent, [])` (the `notes` dict is an insertion-ordered
association list). -/
def notesGet (notes : List (List Char × List (List Char))) (agent : List Char) :
    List (List Char) :=
  match notes with
  | [] => []
  | (k, v) :: tl => if k = agent then v else notesGet tl agent

/-- `self.notes.setdefault(agent, []).append(message)`: append to the
existing entry, or add a new key at the end of the dict. -/
def notesSetdefaultAppend (notes : List (List Char × List (List Char)))
    (agent : List Char) (msg : List Char) : List (List Char × List (List Char)) :=
  match notes with
  | [] => [(agent, [msg])]
  | (k, v) :: tl =>
    if k = agent then (k, v ++ [msg]) :: tl
    else (k, v) :: notesSetdefaultAppend tl agent msg

/-- `SupervisorState.log`. -/
def SupervisorState.log (s : SupervisorState) (agent msg : List Char) :
    SupervisorState :=
  { s with notes := notesSetdefaultAppend s.notes agent msg }

inductive StepError where
  | maxSteps : StepError
  | maxRetries : StepError
  deriving DecidableEq

/-- `SupervisorState.step`: the counter is incremented and
`current_agent` set *before* the ceiling checks, so a failing call still
leaves the increments behind (mirroring the in-place mutation that
precedes the `raise`). -/
def SupervisorState.step (s : SupervisorState) (agent : List Char) :
    SupervisorState × Option StepError :=
  let s1 := { s with current_agent := some agent, total_steps := s.total_steps + 1 }
  if s1.total_steps > s1.max_steps then (s1, some .maxSteps)
  else if s1.retry_count > s1.max_retries then (s1, some .maxRetries)
  else (s1, none)

/-- `SupervisorState.record_decision`. -/
def SupervisorState.record_decision (s : SupervisorState) (d : List Char) :
    SupervisorState :=
  { s with decisions := s.decisions ++ [d] }

/-- `SupervisorState.reset_retry` (defined by the source, never called by
the deterministic workflow). -/
def SupervisorState.reset_retry (s : SupervisorState) : SupervisorState :=
  { s with retry_count := 0 }

/-- `SupervisorState.snapshot(agent=..., result=...)`: serialise the
result (which can raise a `TypeError` out of `sorted`), build the audit
record, append it to `history` and return it.  `now` stands for
`datetime.utcnow().isoformat(timespec="seconds")`. -/
def SupervisorState.snapshot (s : SupervisorState) (agent : List Char)
    (result : PyVal) (now : List Char) :
    Except Unit (SupervisorState × HistoryEntry) :=
  match _serialise result with
  | .error e => .error e
  | .ok ser =>
    let entry : HistoryEntry := ⟨s.total_steps, agent, ser, notesGet s.notes agent, now⟩
    .ok ({ s with history := s.history ++ [entry] }, entry)

/-! ### Agent invocation (`src/supervisor/builder.py`) -/

/-- The `_AGENT_FOCUS` mapping of builder.py with the
`"your designated analysis scope"` fallback of `_build_agent_message`. -/
def _AGENT_FOCUS (agent_name : List Char) : List Char :=
  if agent_name = "market".data then
    "market demand, pricing, sales mix, and regional share dynamics".data
  else if agent_name = "policy".data then
    "major policy, regulatory, and incentive signals affecting EV adoption".data
  else if agent_name = "oem".data then
    "OEM strategies, product launches, and competitive positioning".data
  else if agent_name = "supply_chain".data then
    "battery, semiconductor, and drivetrain supply chain health".data
  else if agent_name = "finance".data then
    "funding flows, profitability, valuations, and capital market sentiment".data
  else if agent_name = "cross_layer_validation".data then
    "cross-checking analysis agent conclusions for consistency".data
  else if agent_name = "report_quality_check".data then
    "overall report structure, clarity, and completeness".data
  else if agent_name = "hallucination_check".data then
    "possible unsupported claims or hallucinations".data
  else "your designated analysis scope".data

/-- `_build_agent_message` of builder.py: a single `HumanMessage`,
modelled by its content string. -/
def _build_agent_message (agent_name task_input : List Char) : List (List Char) :=
  let content :=
    task_input ++ "\n\n".data ++ _AGENT_FOCUS agent_name ++
    "에 대한 주요 사실을 한국어로 6문장 이내로 요약하세요.".data ++
    " 필수 수치와 시사점만 포함하고 중복 표현은 피하세요.".data ++
    " 필요한 경우 가정이나 리스크도 간결히 언급하십시오.".data
  let content :=
    if agent_name = "oem".data then
      content ++ " 최신 관련 뉴스의 URL을 최소 두 개 이상 포함시키고, 한국어 설명 뒤에 URL을 그대로 표기하세요.".data
    else content
  [content]

/-- An opaque agent collaborator: `await agent.ainvoke({"messages": msgs})`
either returns a result value or raises an exception of type `E`. -/
structure AgentRef (E : Type) where
  ainvoke : List (List Char) → Except E PyVal

/-- Everything the pipeline can raise: the two `RuntimeError`s of
`step`, a propagated collaborator exception, the `TypeError` that
`sorted` can raise inside `snapshot`, and the `AttributeError` of the
`workflow.py` variant's `state.add_to_history` call. -/
inductive PipelineError (E : Type) where
  | stepMaxSteps : PipelineError E
  | stepMaxRetries : PipelineError E
  | agentError : E → PipelineError E
  | serializeError : PipelineError E
  | attributeError : PipelineError E
  deriving DecidableEq

/-- The payload `{"summary": summary, "raw": result}` passed to
`snapshot` by both `_invoke_agent` variants. -/
def wrapResult (summary : List Char) (result : PyVal) : PyVal :=
  .vdict (.cons (.vstr "summary".data) (.vstr summary)
    (.cons (.vstr "raw".data) result .nil))

/-- `_invoke_agent` of builder.py.  The optional `progress_handler` only
receives the snapshot (it cannot touch the state) and is omitted.  On a
collaborator exception the retry counter is incremented and the same
exception is re-raised; on success the summary is logged, recorded and
snapshotted. -/
def _invoke_agent {E : Type} (agent_name : List Char) (agent : AgentRef E)
    (task_input : List Char) (state : SupervisorState) (now : List Char) :
    SupervisorState × Option (PipelineError E) :=
  match state.step agent_name with
  | (s1, some .maxSteps) => (s1, some .stepMaxSteps)
  | (s1, some .maxRetries) => (s1, some .stepMaxRetries)
  | (s1, none) =>
    match agent.ainvoke (_build_agent_message agent_name task_input) with
    | .error exc => ({ s1 with retry_count := s1.retry_count + 1 }, some (.agentError exc))
    | .ok result =>
      let summary := _summarise_agent_result result
      let s2 := s1.log agent_name summary
      let s3 := s2.record_decision summary
      match s3.snapshot agent_name (wrapResult summary result) now with
      | .error _ => (s3, some .serializeError)
      | .ok (s4, _entry) => (s4, none)

/-! ### Report compiler (`_compile_final_report` of builder.py) -/

/-- The closure `_latest` of `_compile_final_report`: cleaned most
recent note of an agent, or the fixed placeholder. -/
def _latest (state : SupervisorState) (agent : List Char) : List Char :=
  match (notesGet state.notes agent).getLast? with
  | none => insufficientData
  | some lastNote => _clean_text lastNote 4

/-- The closure `_indent`: keep truthy lines and prefix `"   - "`. -/
def _indent (lines : List (List Char)) : List (List Char) :=
  (lines.filter (fun l => !l.isEmpty)).map (fun l => "   - ".data ++ l)

/-- The first-occurrence de-duplication loop of `_combine_agents`
(`seen` plays the role of the Python `set`). -/
def dedupFirstAux (seen : List (List Char)) : List (List Char) → List (List Char)
  | [] => []
  | x :: xs =>
    if x ∈ seen then dedupFirstAux seen xs
    else x :: dedupFirstAux (x :: seen) xs

/-- The closure `_combine_agents`: latest cleaned notes of the agents
that have notes, first occurrences only, joined by single spaces. -/
def _combine_agents (state : SupervisorState) (agents : List (List Char)) :
    List Char :=
  let snippets :=
    (agents.filter (fun a => !(notesGet state.notes a).isEmpty)).map
      (fun a => _latest state a)
  let unique := dedupFirstAux [] snippets
  if unique.isEmpty then insufficientData else joinWith [' '] unique

/-- `entry.get("result", {}).get("raw")` of `_extract_references`.
`none` marks the states on which the source would raise
`AttributeError` because the stored result is not a mapping; every
entry the pipeline itself creates is a mapping (see `historyWF`). -/
def rawOfEntry (e : HistoryEntry) : Option PyVal :=
  match e.result with
  | .vdict kvs =>
    some (match dictGet kvs "raw".data with
          | some raw => raw
          | none => .vnone)
  | _ => none

/-- Well-formedness of a state's history: every entry stores a mapping
as its result, as every snapshot produced by the pipeline does.  On such
states the model of `_extract_references` below agrees with the source. -/
def historyWF (s : SupervisorState) : Bool :=
  s.history.all (fun e => (rawOfEntry e).isSome)

/-- The closure `_extract_references`: URL matches (with `".,;"`
stripped from their tails) collected from every note and from the
serialized `raw` payload of every history entry, de-duplicated (the
Python `set`) and sorted. -/
def _extract_references (state : SupervisorState) : List (List Char) :=
  let noteRefs :=
    state.notes.flatMap (fun kv => kv.2.flatMap (fun note => (findUrls note).map rstripPunct))
  let histRefs :=
    state.history.flatMap (fun e =>
      match rawOfEntry e with
      | some raw => visitVal raw
      | none => [])
  List.insertionSort (· ≤ ·) (noteRefs ++ histRefs).dedup

/-- The fixed "no external sources" placeholder of builder.py. -/
def noSourcesPlaceholder : List Char :=
  "참고 가능한 외부 출처가 명시되지 않았습니다. 에이전트 노트를 검토하여 추가 정보를 확보하십시오.".data

/-- The closing attribution line of builder.py. -/
def attributionLine : List Char :=
  "보고서는 EV Market Supervisor 파이프라인에 의해 자동 생성되었습니다.".data

/-- The `lines` list assembled by `_compile_final_report` of builder.py
(`analysis_order` is accepted and never read by the source body). -/
def reportLines (state : SupervisorState) (validation_order : List (List Char)) :
    List (List Char) :=
  let exec_summary : List (List Char) :=
    [ "사용자 질문 요약: ".data ++ _clean_text state.task_input 1,
      "핵심 발견 요약: ".data ++ _latest state "market".data,
      "핵심 수치/트렌드: ".data ++ _latest state "finance".data,
      "결론: 요약 내용을 바탕으로 정책·공급망 리스크를 점검하고 실행 계획을 마련하십시오.".data ]
  let market_section := _combine_agents state ["market".data, "policy".data]
  let policy_section := _latest state "policy".data
  let oem_section := _latest state "oem".data
  let supply_section := _latest state "supply_chain".data
  let finance_section := _latest state "finance".data
  let cross_section := _combine_agents state validation_order
  let references0 := _extract_references state
  let references := if references0.isEmpty then [noSourcesPlaceholder] else references0
  ["1. EXECUTIVE SUMMARY".data] ++ _indent exec_summary ++ [[]] ++
  ["2. MARKET OVERVIEW".data] ++
    _indent ["글로벌 및 지역별 동향:".data, market_section] ++ [[]] ++
  ["3. POLICY/REGULATION".data] ++ _indent [policy_section] ++ [[]] ++
  ["4. OEM ANALYSIS".data] ++ _indent [oem_section] ++ [[]] ++
  ["5. SUPPLY CHAIN ANALYSIS".data] ++ _indent [supply_section] ++ [[]] ++
  ["6. FINANCIAL OUTLOOK".data] ++ _indent [finance_section] ++ [[]] ++
  ["7. CROSS-LAYER INSIGHTS".data] ++ _indent [cross_section] ++ [[]] ++
  ["8. REFERENCES".data] ++ _indent references ++ [[]] ++
  [attributionLine]

/-- `_compile_final_report(state, analysis_order, validation_order)`:
join the lines (all of which are non-`None` strings) and strip. -/
def _compile_final_report (state : SupervisorState)
    (analysis_order validation_order : List (List Char)) : List Char :=
  let _ := analysis_order
  pyStrip (joinWith ['\n'] (reportLines state validation_order))

/-! ### The deterministic orchestrator of builder.py -/

/-- `_update_stage`. -/
def _update_stage (s : SupervisorState) (stage : Stage) : SupervisorState :=
  { s with stage := stage }

/-- Invoke a list of agents sequentially; an exception aborts the loop
and propagates together with the state mutated so far.  `clock` supplies
the timestamp oracle for each snapshot. -/
def runAgents {E : Type} (agents : List (List Char × AgentRef E))
    (task_input : List Char) (clock : Nat → List Char)
    (state : SupervisorState) : SupervisorState × Option (PipelineError E) :=
  match agents with
  | [] => (state, none)
  | (agent_name, agent) :: rest =>
    match _invoke_agent agent_name agent task_input state (clock state.total_steps) with
    | (s1, none) => runAgents rest task_input clock s1
    | (s1, some e) => (s1, some e)

/-- The `run_supervisor` closure returned by `build_supervisor_workflow`
of builder.py: analysis agents in insertion order, then validation
agents, then compile the report into `final_report`.  `state0` is the
optional caller-supplied state (a fresh `SupervisorState` otherwise);
`recursion_limit`, `supervisor_prompt`, `llm`, `supervisor_tools` and
`progress_handler` are ignored/deleted by the source. -/
def run_supervisor {E : Type} (analysis_agents validation_agents : List (List Char × AgentRef E))
    (task_input : List Char) (clock : Nat → List Char)
    (state0 : Option SupervisorState) : SupervisorState × Option (PipelineError E) :=
  let analysis_order := analysis_agents.map (fun p => p.1)
  let validation_order := validation_agents.map (fun p => p.1)
  let s :=
    match state0 with
    | some st => st
    | none => initState task_input
  let analysisRes :=
    if analysis_agents.isEmpty then (s, none)
    else runAgents analysis_agents task_input clock (_update_stage s .analysis)
  match analysisRes with
  | (s1, some e) => (s1, some e)
  | (s1, none) =>
    let validationRes :=
      if validation_agents.isEmpty then (s1, none)
      else runAgents validation_agents task_input clock (_update_stage s1 .validation)
    match validationRes with
    | (s2, some e) => (s2, some e)
    | (s2, none) =>
      let s3 := _update_stage s2 .final
      let s4 := { s3 with
        final_report := some (_compile_final_report s3 analysis_order validation_order) }
      (_update_stage s4 .done, none)

/-! ### The duplicate variant `src/supervisor/workflow.py`

Same state, same `_summarise_agent_result` and `_clean_text`; different
agent-name keys and English prompt/report text; and its `_invoke_agent`
additionally calls `state.add_to_history(snapshot)` — a method
`SupervisorState` does not define, so Python raises `AttributeError`
right after the snapshot has been recorded. -/

/-- `_AGENT_FOCUS` of workflow.py with the fallback of its
`_build_agent_message`. -/
def wfAgentFocus (agent_name : List Char) : List Char :=
  if agent_name = "finance_agent".data then
    "capital markets, funding flows, stock movements, and profitability indicators".data
  else if agent_name = "market_agent".data then
    "market demand, pricing, sales mix, and regional share dynamics".data
  else if agent_name = "policy_agent".data then
    "major policy, regulatory, and incentive signals affecting EV adoption".data
  else if agent_name = "oem_agent".data then
    "OEM strategies, product launches, and competitive positioning".data
  else if agent_name = "supply_agent".data then
    "battery, semiconductor, and drivetrain supply chain health".data
  else if agent_name = "cross_agent".data then
    "cross-checking analysis agent conclusions for consistency".data
  else if agent_name = "report_agent".data then
    "overall report structure, clarity, and completeness".data
  else if agent_name = "hallu_agent".data then
    "possible unsupported claims or hallucinations".data
  else "your designated analysis scope".data

/-- `_build_agent_message` of workflow.py. -/
def wfBuildAgentMessage (agent_name task_input : List Char) : List (List Char) :=
  let content :=
    task_input ++ "\n\n".data ++ "Focus on: ".data ++ wfAgentFocus agent_name ++
    "\n".data ++
    "Provide key facts in 6 sentences or less in Korean. Include only essential metrics and insights. ".data ++
    "Mention assumptions or risks concisely if necessary.".data
  let content :=
    if agent_name = "oem_agent".data then
      content ++ " Include at least two URLs from recent relevant news after the Korean explanation.".data
    else content
  [content]

/-- `_invoke_agent` of workflow.py: identical to the builder.py wrapper
up to and including the snapshot, then `state.add_to_history(snapshot)`
raises `AttributeError` (no such method exists on `SupervisorState`). -/
def wfInvokeAgent {E : Type} (agent_name : List Char) (agent : AgentRef E)
    (task_input : List Char) (state : SupervisorState) (now : List Char) :
    SupervisorState × Option (PipelineError E) :=
  match state.step agent_name with
  | (s1, some .maxSteps) => (s1, some .stepMaxSteps)
  | (s1, some .maxRetries) => (s1, some .stepMaxRetries)
  | (s1, none) =>
    match agent.ainvoke (wfBuildAgentMessage agent_name task_input) with
    | .error exc => ({ s1 with retry_count := s1.retry_count + 1 }, some (.agentError exc))
    | .ok result =>
      let summary := _summarise_agent_result result
      let s2 := s1.log agent_name summary
      let s3 := s2.record_decision summary
      match s3.snapshot agent_name (wrapResult summary result) now with
      | .error _ => (s3, some .serializeError)
      | .ok (s4, _entry) => (s4, some .attributeError)

/-- The `lines` list of `_compile_final_report` of workflow.py (English
labels, same structure). -/
def wfReportLines (state : SupervisorState) (validation_order : List (List Char)) :
    List (List Char) :=
  let exec_summary : List (List Char) :=
    [ "User Query: ".data ++ _clean_text state.task_input 1,
      "Key Finding: ".data ++ _latest state "market_agent".data,
      "Finance Metrics: ".data ++ _latest state "finance_agent".data,
      "Action: Review policy and supply chain risks to establish execution plan.".data ]
  let market_section := _combine_agents state ["market_agent".data, "policy_agent".data]
  let policy_section := _latest state "policy_agent".data
  let oem_section := _latest state "oem_agent".data
  let supply_section := _latest state "supply_agent".data
  let finance_section := _latest state "finance_agent".data
  let cross_section := _combine_agents state validation_order
  let references0 := _extract_references state
  let references :=
    if references0.isEmpty then
      ["No external sources cited. Review agent notes for additional information.".data]
    else references0
  ["1. EXECUTIVE SUMMARY".data] ++ _indent exec_summary ++ [[]] ++
  ["2. MARKET OVERVIEW".data] ++
    _indent ["Global and Regional Trends:".data, market_section] ++ [[]] ++
  ["3. POLICY/REGULATION".data] ++ _indent [policy_section] ++ [[]] ++
  ["4. OEM ANALYSIS".data] ++ _indent [oem_section] ++ [[]] ++
  ["5. SUPPLY CHAIN ANALYSIS".data] ++ _indent [supply_section] ++ [[]] ++
  ["6. FINANCIAL OUTLOOK".data] ++ _indent [finance_section] ++ [[]] ++
  ["7. CROSS-LAYER INSIGHTS".data] ++ _indent [cross_section] ++ [[]] ++
  ["8. REFERENCES".data] ++ _indent references ++ [[]] ++
  ["Report auto-generated by EV Market Supervisor pipeline.".data]

/-- `_compile_final_report` of workflow.py. -/
def wfCompileFinalReport (state : SupervisorState)
    (analysis_order validation_order : List (List Char)) : List Char :=
  let _ := analysis_order
  pyStrip (joinWith ['\n'] (wfReportLines state validation_order))

/-- The agent loop of workflow.py's `run_supervisor`. -/
def wfRunAgents {E : Type} (agents : List (List Char × AgentRef E))
    (task_input : List Char) (clock : Nat → List Char)
    (state : SupervisorState) : SupervisorState × Option (PipelineError E) :=
  match agents with
  | [] => (state, none)
  | (agent_name, agent) :: rest =>
    match wfInvokeAgent agent_name agent task_input state (clock state.total_steps) with
    | (s1, none) => wfRunAgents rest task_input clock s1
    | (s1, some e) => (s1, some e)

/-- The `run_supervisor` closure returned by `build_supervisor_workflow`
of workflow.py (the variant `src/test.py` imports). -/
def wfRunSupervisor {E : Type} (analysis_agents validation_agents : List (List Char × AgentRef E))
    (task_input : List Char) (clock : Nat → List Char)
    (state0 : Option SupervisorState) : SupervisorState × Option (PipelineError E) :=
  let analysis_order := analysis_agents.map (fun p => p.1)
  let validation_order := validation_agents.map (fun p => p.1)
  let s :=
    match state0 with
    | some st => st
    | none => initState task_input
  let analysisRes :=
    if analysis_agents.isEmpty then (s, none)
    else wfRunAgents analysis_agents task_input clock (_update_stage s .analysis)
  match analysisRes with
  | (s1, some e) => (s1, some e)
  | (s1, none) =>
    let validationRes :=
      if validation_agents.isEmpty then (s1, none)
      else wfRunAgents validation_agents task_input clock (_update_stage s1 .validation)
    match validationRes with
    | (s2, some e) => (s2, some e)
    | (s2, none) =>
      let s3 := _update_stage s2 .final
      let s4 := { s3 with
        final_report := some (wfCompileFinalReport s3 analysis_order validation_order) }
      (_update_stage s4 .done, none)

/-! ### Predicates used by the claim statements -/

/-- Whether an `Except` is a success. -/
def isOkE {ε α : Type} : Except ε α → Bool
  | .ok _ => true
  | .error _ => false

/-- The collaborator call `_invoke_agent` performs for a named agent. -/
def callResult {E : Type} (task : List Char) (p : List Char × AgentRef E) :
    Except E PyVal :=
  p.2.ainvoke (_build_agent_message p.1 task)

/-- The collaborator returns normally (does not raise). -/
def agentReturns {E : Type} (task : List Char) (p : List Char × AgentRef E) : Prop :=
  ∃ r, callResult task p = .ok r

/-- The collaborator returns normally and its result survives the
snapshot serializer (no `TypeError` out of `sorted`). -/
def agentBehaves {E : Type} (task : List Char) (p : List Char × AgentRef E) : Prop :=
  match callResult task p with
  | .error _ => False
  | .ok r => isOkE (_serialise (wrapResult (_summarise_agent_result r) r)) = true

/-! Structural predicates on Python values for the snapshot-serializer
claim: `isPrimitive` is the claim's notion of a JSON primitive,
`sortableElems` captures the sets `sorted` accepts (at most one element,
or all numbers, or all strings), `goodVal` the amended hypothesis, and
`composedVal` the claim's "composed only of primitives, lists and
dicts" output shape. -/

def isPrimitive : PyVal → Bool
  | .vstr _ => true
  | .vint _ => true
  | .vbool _ => true
  | .vnone => true
  | _ => false

def allNumeric : PyList → Bool
  | .nil => true
  | .cons x xs => (numVal x).isSome && allNumeric xs

def isStrPrim : PyVal → Bool
  | .vstr _ => true
  | _ => false

def allStrings : PyList → Bool
  | .nil => true
  | .cons x xs => isStrPrim x && allStrings xs

def atMostOne : PyList → Bool
  | .nil => true
  | .cons _ .nil => true
  | _ => false

/-- Set contents on which Python `sorted` cannot raise. -/
def sortableElems (l : PyList) : Bool :=
  atMostOne l || allNumeric l || allStrings l

mutual
def goodVal : PyVal → Bool
  | .vstr _ => true
  | .vint _ => true
  | .vbool _ => true
  | .vnone => true
  | .vmsg _ => true
  | .vlist l => goodList l
  | .vdict kvs => goodKVs kvs
  | .vset l => sortableElems l && goodList l
def goodList : PyList → Bool
  | .nil => true
  | .cons x xs => goodVal x && goodList xs
def goodKVs : PyKVs → Bool
  | .nil => true
  | .cons k v tl => isPrimitive k && goodVal v && goodKVs tl
end

mutual
def composedVal : PyVal → Bool
  | .vstr _ => true
  | .vint _ => true
  | .vbool _ => true
  | .vnone => true
  | .vmsg _ => false
  | .vset _ => false
  | .vlist l => composedList l
  | .vdict kvs => composedKVs kvs
def composedList : PyList → Bool
  | .nil => true
  | .cons x xs => composedVal x && composedList xs
def composedKVs : PyKVs → Bool
  | .nil => true
  | .cons k v tl => isPrimitive k && composedVal v && composedKVs tl
end

/-- Every element of a `PyList` satisfies the predicate (used to carry
`allNumeric` / `allStrings` / element-goodness through `sorted`). -/
def pvAll (P : PyVal → Bool) : PyList → Bool
  | .nil => true
  | .cons x xs => P x && pvAll P xs

/-! ### Call traces against a single state (for the counter invariants)

A trace applies `_invoke_agent` repeatedly to the same state object, as
the orchestrator does, but keeps going after a raised exception (the
caller is free to catch it and continue using the state); each call's
agent name and outcome are recorded. -/

structure TraceCall (E : Type) where
  agent_name : List Char
  agent : AgentRef E
  task_input : List Char
  now : List Char

def runTrace {E : Type} (s : SupervisorState) :
    List (TraceCall E) → SupervisorState × List (List Char × Option (PipelineError E))
  | [] => (s, [])
  | c :: cs =>
    match _invoke_agent c.agent_name c.agent c.task_input s c.now with
    | (s1, e) =>
      match runTrace s1 cs with
      | (s2, outs) => (s2, (c.agent_name, e) :: outs)

/-- The `step()` call inside an invocation completed without raising. -/
def stepSucceeded {E : Type} : Option (PipelineError E) → Bool
  | some .stepMaxSteps => false
  | some .stepMaxRetries => false
  | _ => true

/-- The invocation got past the collaborator call, hence executed
`state.log` (outcomes `none` and the snapshot serializer failure). -/
def reachedLog {E : Type} : Option (PipelineError E) → Bool
  | none => true
  | some .serializeError => true
  | _ => false

/-! ### Report lines -/

/-- Split a string at every newline, keeping empty pieces. -/
def splitLinesAux (acc : List Char) : List Char → List (List Char)
  | [] => [acc.reverse]
  | c :: cs =>
    if c = '\n' then acc.reverse :: splitLinesAux [] cs
    else splitLinesAux (c :: acc) cs

/-- The lines of a string. -/
def splitLines (l : List Char) : List (List Char) :=
  splitLinesAux [] l

/-- A line starting with one of the eight top-level section markers
`"1."` .. `"8."`. -/
def isMarkerLine (l : List Char) : Bool :=
  ["1.", "2.", "3.", "4.", "5.", "6.", "7.", "8."].any
    (fun p => p.data.isPrefixOf l)

/-- The eight fixed section header lines of builder.py's report. -/
def sectionHeaders : List (List Char) :=
  [ "1. EXECUTIVE SUMMARY".data,
    "2. MARKET OVERVIEW".data,
    "3. POLICY/REGULATION".data,
    "4. OEM ANALYSIS".data,
    "5. SUPPLY CHAIN ANALYSIS".data,
    "6. FINANCIAL OUTLOOK".data,
    "7. CROSS-LAYER INSIGHTS".data,
    "8. REFERENCES".data ]

/-! ### Concrete collaborators and states for witnesses/counterexamples -/

/-- A stub collaborator that always returns the given value. -/
def unitStub (r : PyVal) : AgentRef Unit :=
  ⟨fun _ => .ok r⟩

/-- A stub collaborator that always raises. -/
def unitFail : AgentRef Unit :=
  ⟨fun _ => .error ()⟩

/-- Timestamp oracle returning the empty string. -/
def clock0 : Nat → List Char := fun _ => []

/-- The heterogeneous set `{1, "a"}` on which `sorted` raises
`TypeError`. -/
def poisonSet : PyVal :=
  .vset (.cons (.vint 1) (.cons (.vstr "a".data) .nil))

/-- Two analysis agents whose collaborators both return normally, the
first of which returns the heterogeneous set. -/
def cexAgents : List (List Char × AgentRef Unit) :=
  [("alpha".data, unitStub poisonSet), ("beta".data, unitStub (.vstr "ok".data))]

/-- A well-behaved analysis configuration. -/
def okAgentsA : List (List Char × AgentRef Unit) :=
  [("alpha".data, unitStub (.vstr "First note.".data))]

/-- A well-behaved validation configuration. -/
def okAgentsV : List (List Char × AgentRef Unit) :=
  [("beta".data, unitStub (.vstr "Second note.".data))]

/-- Three well-behaved agents. -/
def threeAgents : List (List Char × AgentRef Unit) :=
  [ ("one".data, unitStub (.vstr "n1.".data)),
    ("two".data, unitStub (.vstr "n2.".data)),
    ("three".data, unitStub (.vstr "n3.".data)) ]

/-- A fresh state whose `max_steps` ceiling is 2. -/
def capState (task : List Char) : SupervisorState :=
  { initState task with max_steps := 2 }

/-- A fresh state whose `max_steps` ceiling is 1. -/
def oneStepState (task : List Char) : SupervisorState :=
  { initState task with max_steps := 1 }

/-- Two invocations against `oneStepState`: the first passes the step
guard and the collaborator but fails in the snapshot serializer (after
logging its note); the second fails the step guard. -/
def c6trace : List (TraceCall Unit) :=
  [ ⟨"alpha".data, unitStub poisonSet, "t".data, []⟩,
    ⟨"beta".data, unitStub (.vstr "x".data), "t".data, []⟩ ]

/-- The note of the URL-extraction scenario. -/
def urlNote : List Char :=
  "See https://example.com/a and https://example.com/b.".data

/-- A state holding `urlNote` as a market note. -/
def urlState : SupervisorState :=
  { initState "t".data with notes := [("market".data, [urlNote])] }

/-! ### Word-level view of sentence splitting

On whitespace-collapsed text every whitespace character is a single
join-space, so the sentence splitter acts on the word list: it cuts
between two consecutive words exactly when the earlier word ends in
sentence punctuation.  `groupSents` is that word-level splitter; the
lemmas below connect it to `splitSentences`. -/

/-- The word ends in `[.!?]`. -/
def endsPunct (w : List Char) : Bool :=
  match w.getLast? with
  | some c => isSentencePunct c
  | none => false

/-- Split a word list after every punctuation-ending word (except at the
very end). -/
def groupSents : List (List Char) → List (List (List Char))
  | [] => []
  | [w] => [[w]]
  | w :: x :: ws =>
    match groupSents (x :: ws) with
    | [] => [[w]]
    | g :: gs =>
      if endsPunct w then [w] :: g :: gs
      else (w :: g) :: gs

/-- A well-formed word list: every word is nonempty and free of
whitespace characters. -/
def wsWf (ws : List (List Char)) : Prop :=
  ∀ w ∈ ws, w ≠ [] ∧ ∀ c ∈ w, isPyWs c = false

/-- The notes dict has an entry for the key. -/
def notesHasKey (notes : List (List Char × List (List Char))) (agent : List Char) : Bool :=
  notes.any (fun kv => kv.1 = agent)

/-! ## Lemmas about the string primitives -/

theorem joinWith_cons (sep : List Char) (w : List Char) :
    ∀ (ws : List (List Char)), ws ≠ [] →
      joinWith sep (w :: ws) = w ++ sep ++ joinWith sep ws := by
  intro ws h
  cases ws with
  | nil => exact absurd rfl h
  | cons x t => rfl

theorem mem_joinWith : ∀ (L : List (List Char)) (sep c : Char),
    c ∈ joinWith [sep] L → c = sep ∨ ∃ w ∈ L, c ∈ w := by
  intro L
  induction L with
  | nil => intro sep c h; simp [joinWith] at h
  | cons w t ih =>
    intro sep c h
    cases t with
    | nil =>
      simp only [joinWith] at h
      exact Or.inr ⟨w, by simp, h⟩
    | cons x ws =>
      rw [joinWith] at h
      rcases List.mem_append.mp h with h1 | h2
      · rcases List.mem_append.mp h1 with h3 | h4
        · exact Or.inr ⟨w, by simp, h3⟩
        · simp at h4; exact Or.inl h4
      · rcases ih sep c h2 with h5 | ⟨v, hv, hcv⟩
        · exact Or.inl h5
        · exact Or.inr ⟨v, List.mem_cons_of_mem w hv, hcv⟩

theorem dropWhile_eq_self_of_head {p : Char → Bool} :
    ∀ {l : List Char}, (∀ a, l.head? = some a → p a = false) → l.dropWhile p = l := by
  intro l h
  cases l with
  | nil => rfl
  | cons a t =>
    have := h a rfl
    simp [List.dropWhile, this]

theorem pyStrip_eq_self {l : List Char}
    (h1 : ∀ a, l.head? = some a → isPyWs a = false)
    (h2 : ∀ b, l.getLast? = some b → isPyWs b = false) : pyStrip l = l := by
  unfold pyStrip
  rw [dropWhile_eq_self_of_head h1]
  rw [dropWhile_eq_self_of_head (by
    intro b hb
    rw [List.head?_reverse] at hb
    exact h2 b hb)]
  exact List.reverse_reverse l

theorem mem_pyStrip {c : Char} {l : List Char} (h : c ∈ pyStrip l) : c ∈ l := by
  unfold pyStrip at h
  rw [List.mem_reverse] at h
  have h3 := (List.dropWhile_sublist (l := (l.dropWhile isPyWs).reverse) (p := isPyWs)).mem h
  rw [List.mem_reverse] at h3
  exact (List.dropWhile_sublist (l := l) (p := isPyWs)).mem h3

/-! ## Lemmas about `pyWords` / `collapseWs` -/

theorem pyWordsAux_facts : ∀ (l cur : List Char), (∀ c ∈ cur, isPyWs c = false) →
    ∀ w ∈ pyWordsAux cur l, w ≠ [] ∧ ∀ c ∈ w, (c ∈ cur ∨ c ∈ l) ∧ isPyWs c = false := by
  intro l
  induction l with
  | nil =>
    intro cur hcur w hw
    cases cur with
    | nil => simp [pyWordsAux] at hw
    | cons a t =>
      simp [pyWordsAux] at hw
      subst hw
      refine ⟨by simp, ?_⟩
      intro c hc
      have hc2 : c ∈ a :: t := by
        simp only [List.reverse_cons, List.mem_append, List.mem_reverse,
          List.mem_singleton] at hc
        rcases hc with h | h
        · exact List.mem_cons_of_mem a h
        · simp [h]
      exact ⟨Or.inl hc2, hcur c hc2⟩
  | cons c cs ih =>
    intro cur hcur w hw
    by_cases hws : isPyWs c
    · cases cur with
      | nil =>
        simp [pyWordsAux, hws] at hw
        obtain ⟨hne, hchars⟩ := ih [] (by simp) w hw
        refine ⟨hne, ?_⟩
        intro d hd
        obtain ⟨hmem, hnw⟩ := hchars d hd
        rcases hmem with h | h
        · simp at h
        · exact ⟨Or.inr (List.mem_cons_of_mem c h), hnw⟩
      | cons a t =>
        simp [pyWordsAux, hws] at hw
        rcases hw with hw | hw
        · subst hw
          refine ⟨by simp, ?_⟩
          intro d hd
          have hd2 : d ∈ a :: t := by
            simp only [List.reverse_cons, List.mem_append, List.mem_reverse,
              List.mem_singleton] at hd
            rcases hd with h | h
            · exact List.mem_cons_of_mem a h
            · simp [h]
          exact ⟨Or.inl hd2, hcur d hd2⟩
        · obtain ⟨hne, hchars⟩ := ih [] (by simp) w hw
          refine ⟨hne, ?_⟩
          intro d hd
          obtain ⟨hmem, hnw⟩ := hchars d hd
          rcases hmem with h | h
          · simp at h
          · exact ⟨Or.inr (List.mem_cons_of_mem c h), hnw⟩
    · simp only [pyWordsAux, hws] at hw
      simp at hw
      obtain ⟨hne, hchars⟩ := ih (c :: cur)
        (by intro d hd; rcases List.mem_cons.mp hd with h | h
            · subst h; exact Bool.eq_false_iff.mpr hws
            · exact hcur d h) w hw
      refine ⟨hne, ?_⟩
      intro d hd
      obtain ⟨hmem, hnw⟩ := hchars d hd
      rcases hmem with h | h
      · rcases List.mem_cons.mp h with h' | h'
        · exact ⟨Or.inr (by simp [h']), hnw⟩
        · exact ⟨Or.inl h', hnw⟩
      · exact ⟨Or.inr (List.mem_cons_of_mem c h), hnw⟩

theorem pyWords_facts {l : List Char} :
    ∀ w ∈ pyWords l, w ≠ [] ∧ ∀ c ∈ w, c ∈ l ∧ isPyWs c = false := by
  intro w hw
  obtain ⟨hne, hchars⟩ := pyWordsAux_facts l [] (by simp) w hw
  refine ⟨hne, ?_⟩
  intro c hc
  obtain ⟨hmem, hnw⟩ := hchars c hc
  rcases hmem with h | h
  · simp at h
  · exact ⟨h, hnw⟩

theorem pyWords_wf (l : List Char) : wsWf (pyWords l) := by
  intro w hw
  obtain ⟨hne, hchars⟩ := pyWords_facts w hw
  exact ⟨hne, fun c hc => (hchars c hc).2⟩

theorem pyWordsAux_word_step : ∀ (w : List Char), (∀ c ∈ w, isPyWs c = false) →
    ∀ cur l, pyWordsAux cur (w ++ l) = pyWordsAux (w.reverse ++ cur) l := by
  intro w
  induction w with
  | nil => intro _ cur l; simp
  | cons a t ih =>
    intro hw cur l
    have ha : isPyWs a = false := hw a (by simp)
    show pyWordsAux cur (a :: (t ++ l)) = _
    rw [pyWordsAux, ha]
    simp only [Bool.false_eq_true, if_false]
    rw [ih (fun c hc => hw c (List.mem_cons_of_mem a hc)) (a :: cur) l]
    congr 1
    simp

theorem pyWordsAux_nil_of_ne {cur : List Char} (h : cur ≠ []) :
    pyWordsAux cur [] = [cur.reverse] := by
  cases cur with
  | nil => exact absurd rfl h
  | cons a t => rfl

theorem pyWordsAux_space {cur : List Char} (h : cur ≠ []) (l : List Char) :
    pyWordsAux cur (' ' :: l) = cur.reverse :: pyWordsAux [] l := by
  cases cur with
  | nil => exact absurd rfl h
  | cons a t => rfl

theorem pyWords_joinWith : ∀ (ws : List (List Char)), wsWf ws →
    pyWords (joinWith [' '] ws) = ws := by
  intro ws
  induction ws with
  | nil => intro _; rfl
  | cons w t ih =>
    intro hwf
    obtain ⟨hw_ne, hw_nw⟩ := hwf w (by simp)
    have hrev_ne : w.reverse ≠ [] := by simpa using hw_ne
    cases t with
    | nil =>
      show pyWordsAux [] (joinWith [' '] [w]) = [w]
      have h1 : joinWith [' '] [w] = w ++ [] := by simp [joinWith]
      rw [h1, pyWordsAux_word_step w hw_nw [] [], List.append_nil,
        pyWordsAux_nil_of_ne hrev_ne, List.reverse_reverse]
    | cons x t2 =>
      have htwf : wsWf (x :: t2) := fun v hv => hwf v (List.mem_cons_of_mem w hv)
      show pyWordsAux [] (joinWith [' '] (w :: x :: t2)) = _
      rw [joinWith]
      have h1 : w ++ [' '] ++ joinWith [' '] (x :: t2)
          = w ++ (' ' :: joinWith [' '] (x :: t2)) := by simp
      rw [h1, pyWordsAux_word_step w hw_nw [] _, List.append_nil,
        pyWordsAux_space hrev_ne, List.reverse_reverse]
      exact congrArg (w :: ·) (ih htwf)

theorem mem_collapseWs {c : Char} {l : List Char} (h : c ∈ collapseWs l) :
    c = ' ' ∨ (c ∈ l ∧ isPyWs c = false) := by
  rcases mem_joinWith (pyWords l) ' ' c h with h' | ⟨w, hw, hcw⟩
  · exact Or.inl h'
  · exact Or.inr ((pyWords_facts w hw).2 c hcw)

theorem collapseWs_joinWith {ws : List (List Char)} (h : wsWf ws) :
    collapseWs (joinWith [' '] ws) = joinWith [' '] ws := by
  unfold collapseWs
  rw [pyWords_joinWith ws h]

/-! ## Lemmas about `splitLines` -/

theorem splitLinesAux_word : ∀ (w : List Char), '\n' ∉ w →
    ∀ acc l, splitLinesAux acc (w ++ l) = splitLinesAux (w.reverse ++ acc) l := by
  intro w
  induction w with
  | nil => intro _ acc l; simp
  | cons a t ih =>
    intro hw acc l
    have ha : ¬(a = '\n') := fun h => hw (by simp [h])
    show splitLinesAux acc (a :: (t ++ l)) = _
    rw [splitLinesAux, if_neg (by simpa using ha)]
    rw [ih (fun h => hw (List.mem_cons_of_mem a h)) (a :: acc) l]
    congr 1
    simp

theorem splitLines_joinWith : ∀ (ls : List (List Char)), ls ≠ [] →
    (∀ l ∈ ls, '\n' ∉ l) → splitLines (joinWith ['\n'] ls) = ls := by
  intro ls
  induction ls with
  | nil => intro h; exact absurd rfl h
  | cons l t ih =>
    intro _ hnl
    have hl : '\n' ∉ l := hnl l (by simp)
    cases t with
    | nil =>
      show splitLinesAux [] (joinWith ['\n'] [l]) = [l]
      have h1 : joinWith ['\n'] [l] = l ++ [] := by simp [joinWith]
      rw [h1, splitLinesAux_word l hl [] [], List.append_nil]
      show [l.reverse.reverse] = [l]
      rw [List.reverse_reverse]
    | cons x t2 =>
      have htnl : ∀ v ∈ x :: t2, '\n' ∉ v := fun v hv => hnl v (List.mem_cons_of_mem l hv)
      show splitLinesAux [] (joinWith ['\n'] (l :: x :: t2)) = _
      rw [joinWith]
      have h1 : l ++ ['\n'] ++ joinWith ['\n'] (x :: t2)
          = l ++ ('\n' :: joinWith ['\n'] (x :: t2)) := by simp
      rw [h1, splitLinesAux_word l hl [] _, List.append_nil]
      rw [splitLinesAux, if_pos rfl, List.reverse_reverse]
      exact congrArg (l :: ·) (ih (by simp) htnl)

/-! ## Lemmas about `subHeadings` -/

theorem subHeadingsAux_chars : ∀ (l : List Char) (m : HeadingMode) (c : Char),
    c ∈ subHeadingsAux m l → (∃ p, m = .lineStart p ∧ c ∈ p) ∨ c ∈ l := by
  intro l
  induction l with
  | nil =>
    intro m c hc
    cases m with
    | lineStart p =>
      simp only [subHeadingsAux, List.mem_reverse] at hc
      exact Or.inl ⟨p, rfl, hc⟩
    | mid => simp [subHeadingsAux] at hc
    | dropLine => simp [subHeadingsAux] at hc
  | cons c0 cs ih =>
    intro m c hc
    cases m with
    | lineStart p =>
      rw [subHeadingsAux] at hc
      by_cases h1 : c0 = '#'
      · rw [if_pos h1] at hc
        rcases ih .dropLine c hc with ⟨p', hp', _⟩ | h
        · exact absurd hp' (by simp)
        · exact Or.inr (List.mem_cons_of_mem c0 h)
      · rw [if_neg h1] at hc
        by_cases h2 : isPyWs c0
        · rw [if_pos h2] at hc
          rcases ih (.lineStart (c0 :: p)) c hc with ⟨p', hp', hcp⟩ | h
          · have : c0 :: p = p' := by injection hp'
            subst this
            rcases List.mem_cons.mp hcp with h' | h'
            · exact Or.inr (by simp [h'])
            · exact Or.inl ⟨p, rfl, h'⟩
          · exact Or.inr (List.mem_cons_of_mem c0 h)
        · rw [if_neg h2] at hc
          rcases List.mem_append.mp hc with h | h
          · exact Or.inl ⟨p, rfl, List.mem_reverse.mp h⟩
          · rcases List.mem_cons.mp h with h' | h'
            · exact Or.inr (by simp [h'])
            · rcases ih .mid c h' with ⟨p', hp', _⟩ | hh
              · exact absurd hp' (by simp)
              · exact Or.inr (List.mem_cons_of_mem c0 hh)
    | mid =>
      rw [subHeadingsAux] at hc
      by_cases h1 : c0 = '\n'
      · rw [if_pos h1] at hc
        rcases List.mem_cons.mp hc with h' | h'
        · exact Or.inr (by simp [h'])
        · rcases ih (.lineStart []) c h' with ⟨p', hp', hcp⟩ | hh
          · have : ([] : List Char) = p' := by injection hp'
            subst this
            simp at hcp
          · exact Or.inr (List.mem_cons_of_mem c0 hh)
      · rw [if_neg h1] at hc
        rcases List.mem_cons.mp hc with h' | h'
        · exact Or.inr (by simp [h'])
        · rcases ih .mid c h' with ⟨p', hp', _⟩ | hh
          · exact absurd hp' (by simp)
          · exact Or.inr (List.mem_cons_of_mem c0 hh)
    | dropLine =>
      rw [subHeadingsAux] at hc
      by_cases h1 : c0 = '\n'
      · rw [if_pos h1] at hc
        rcases List.mem_cons.mp hc with h' | h'
        · exact Or.inr (by simp [h'])
        · rcases ih (.lineStart []) c h' with ⟨p', hp', hcp⟩ | hh
          · have : ([] : List Char) = p' := by injection hp'
            subst this
            simp at hcp
          · exact Or.inr (List.mem_cons_of_mem c0 hh)
      · rw [if_neg h1] at hc
        rcases ih .dropLine c hc with ⟨p', hp', _⟩ | hh
        · exact absurd hp' (by simp)
        · exact Or.inr (List.mem_cons_of_mem c0 hh)

theorem subHeadings_chars {l : List Char} {c : Char} (h : c ∈ subHeadings l) : c ∈ l := by
  rcases subHeadingsAux_chars l (.lineStart []) c h with ⟨p, hp, hcp⟩ | h'
  · have : ([] : List Char) = p := by injection hp
    subst this
    simp at hcp
  · exact h'

theorem subHeadingsAux_mid_id : ∀ (l : List Char), '\n' ∉ l →
    subHeadingsAux .mid l = l := by
  intro l
  induction l with
  | nil => intro _; rfl
  | cons a t ih =>
    intro h
    have ha : ¬(a = '\n') := fun h' => h (by simp [h'])
    rw [subHeadingsAux, if_neg ha, ih (fun h' => h (List.mem_cons_of_mem a h'))]

theorem subHeadings_id {l : List Char}
    (h0 : ∀ a, l.head? = some a → isPyWs a = false ∧ ¬(a = '#'))
    (hnl : '\n' ∉ l) : subHeadings l = l := by
  cases l with
  | nil => rfl
  | cons a t =>
    obtain ⟨haws, hah⟩ := h0 a rfl
    show subHeadingsAux (.lineStart []) (a :: t) = a :: t
    rw [subHeadingsAux, if_neg hah, if_neg (by simp [haws])]
    rw [subHeadingsAux_mid_id t (fun h' => hnl (List.mem_cons_of_mem a h'))]
    simp

/-! ## Lemmas about `splitSentences` -/

theorem splitSentencesAux_chars : ∀ (l : List Char) (sk pp : Bool) (acc : List Char),
    ∀ p ∈ splitSentencesAux sk pp acc l, ∀ c ∈ p, c ∈ acc ∨ c ∈ l := by
  intro l
  induction l with
  | nil =>
    intro sk pp acc p hp c hc
    simp only [splitSentencesAux, List.mem_singleton] at hp
    subst hp
    exact Or.inl (List.mem_reverse.mp hc)
  | cons c0 cs ih =>
    intro sk pp acc p hp c hc
    rw [splitSentencesAux] at hp
    by_cases hsk : sk
    · rw [if_pos hsk] at hp
      by_cases hws : isPyWs c0
      · rw [if_pos hws] at hp
        rcases ih true false acc p hp c hc with h | h
        · exact Or.inl h
        · exact Or.inr (List.mem_cons_of_mem c0 h)
      · rw [if_neg hws] at hp
        rcases ih false (isSentencePunct c0) (c0 :: acc) p hp c hc with h | h
        · rcases List.mem_cons.mp h with h' | h'
          · exact Or.inr (by simp [h'])
          · exact Or.inl h'
        · exact Or.inr (List.mem_cons_of_mem c0 h)
    · rw [if_neg hsk] at hp
      by_cases hsep : isPyWs c0 && pp
      · rw [if_pos hsep] at hp
        rcases List.mem_cons.mp hp with h | h
        · subst h
          exact Or.inl (List.mem_reverse.mp hc)
        · rcases ih true false [] p h c hc with h' | h'
          · simp at h'
          · exact Or.inr (List.mem_cons_of_mem c0 h')
      · rw [if_neg hsep] at hp
        rcases ih false (isSentencePunct c0) (c0 :: acc) p hp c hc with h | h
        · rcases List.mem_cons.mp h with h' | h'
          · exact Or.inr (by simp [h'])
          · exact Or.inl h'
        · exact Or.inr (List.mem_cons_of_mem c0 h)

theorem splitSentences_chars {l : List Char} :
    ∀ p ∈ splitSentences l, ∀ c ∈ p, c ∈ l := by
  intro p hp c hc
  rcases splitSentencesAux_chars l false false [] p hp c hc with h | h
  · simp at h
  · exact h

/-! ## Character-level facts about `_clean_text` -/

theorem mem_take_of_mem {α : Type} {l : List α} {n : Nat} {w : α}
    (h : w ∈ l.take n) : w ∈ l :=
  (List.take_sublist n l).mem h

/-- Every character of a cleaned text is either a single space or a
non-whitespace character of the input; in particular cleaned text never
contains a newline, a backtick or a bullet character. -/
theorem _clean_text_chars (value : List Char) (limit : Nat) :
    ∀ c ∈ _clean_text value limit,
      c ∈ insufficientData ∨
      (isPyWs c = false ∧ c ∈ value ∧ ¬(c = backtickChar) ∧ isBulletChar c = false) ∨
      c = ' ' := by
  intro c hc
  unfold _clean_text at hc
  by_cases h1 : (collapseWs ((subHeadings (value.filter fun c => !(c = backtickChar))).filter
      fun c => !(isBulletChar c))).isEmpty
  · rw [if_pos h1] at hc
    exact Or.inl hc
  · rw [if_neg h1] at hc
    by_cases h2 : (pyStrip (joinWith [' ']
        ((splitSentences (collapseWs ((subHeadings (value.filter fun c => !(c = backtickChar))).filter
          fun c => !(isBulletChar c)))).take limit))).isEmpty
    · rw [if_pos h2] at hc
      exact Or.inl hc
    · rw [if_neg h2] at hc
      have hc1 := mem_pyStrip hc
      rcases mem_joinWith _ ' ' c hc1 with h | ⟨p, hp, hcp⟩
      · exact Or.inr (Or.inr h)
      · have hp' := mem_take_of_mem hp
        have hctext := splitSentences_chars p hp' c hcp
        rcases mem_collapseWs hctext with h | ⟨hmem, hnw⟩
        · exact Or.inr (Or.inr h)
        · have hmem2 := List.mem_filter.mp hmem
          have hmem3 := subHeadings_chars hmem2.1
          have hmem4 := List.mem_filter.mp hmem3
          refine Or.inr (Or.inl ⟨hnw, hmem4.1, ?_, ?_⟩)
          · simpa using hmem4.2
          · simpa using hmem2.2

/-! ## Word-list facts for the idempotence analysis -/

theorem mem_of_getLast? {α : Type} : ∀ {l : List α} {b : α}, l.getLast? = some b → b ∈ l := by
  intro l
  induction l with
  | nil => intro b h; simp at h
  | cons a t ih =>
    intro b h
    cases t with
    | nil => simp at h; simp [h]
    | cons x t2 =>
      rw [List.getLast?_cons_cons] at h
      exact List.mem_cons_of_mem a (ih h)

theorem joinWith_ne_nil {ws : List (List Char)} (hne : ws ≠ [])
    (hwf : ∀ w ∈ ws, w ≠ []) : joinWith [' '] ws ≠ [] := by
  cases ws with
  | nil => exact absurd rfl hne
  | cons w t =>
    cases t with
    | nil => exact hwf w (by simp)
    | cons x t2 =>
      rw [joinWith_cons _ _ _ (by simp)]
      intro h
      rcases List.append_eq_nil.mp (List.append_eq_nil.mp h).1 with ⟨h1, _⟩
      exact hwf w (by simp) h1

theorem joinWith_head? {w : List Char} (hw : w ≠ []) (ws : List (List Char)) :
    (joinWith [' '] (w :: ws)).head? = w.head? := by
  cases ws with
  | nil => rfl
  | cons x t =>
    rw [joinWith_cons _ _ _ (by simp)]
    rw [List.append_assoc, List.head?_append_of_ne_nil _ hw]

theorem joinWith_getLast_nonws : ∀ (ws : List (List Char)), wsWf ws →
    ∀ b, (joinWith [' '] ws).getLast? = some b → isPyWs b = false := by
  intro ws
  induction ws with
  | nil => intro _ b h; simp [joinWith] at h
  | cons w t ih =>
    intro hwf b h
    cases t with
    | nil =>
      simp only [joinWith] at h
      exact ((hwf w (by simp)).2) b (mem_of_getLast? h)
    | cons x t2 =>
      have htwf : wsWf (x :: t2) := fun v hv => hwf v (List.mem_cons_of_mem w hv)
      rw [joinWith_cons _ _ _ (by simp), List.append_assoc,
        List.getLast?_append_of_ne_nil _ (by
          intro hcontra
          rcases List.append_eq_nil.mp hcontra with ⟨_, h2⟩
          exact joinWith_ne_nil (by simp) (fun v hv => (htwf v hv).1) h2)] at h
      rw [List.getLast?_append_of_ne_nil _ (joinWith_ne_nil (by simp)
        (fun v hv => (htwf v hv).1))] at h
      exact ih htwf b h

theorem joinWith_head_nonws {ws : List (List Char)} (hwf : wsWf ws) :
    ∀ a, (joinWith [' '] ws).head? = some a → isPyWs a = false := by
  intro a h
  cases ws with
  | nil => simp [joinWith] at h
  | cons w t =>
    obtain ⟨hne, hnw⟩ := hwf w (by simp)
    rw [joinWith_head? hne] at h
    exact hnw a (by
      cases w with
      | nil => exact absurd rfl hne
      | cons b rb => simp at h; simp [h])

theorem joinWith_append : ∀ (A B : List (List Char)), A ≠ [] → B ≠ [] →
    joinWith [' '] (A ++ B) = joinWith [' '] A ++ ' ' :: joinWith [' '] B := by
  intro A
  induction A with
  | nil => intro B h _; exact absurd rfl h
  | cons w t ih =>
    intro B _ hB
    cases t with
    | nil =>
      cases B with
      | nil => exact absurd rfl hB
      | cons b bt =>
        show joinWith [' '] (w :: b :: bt) = joinWith [' '] [w] ++ ' ' :: joinWith [' '] (b :: bt)
        rw [joinWith]
        simp [joinWith]
    | cons x t2 =>
      show joinWith [' '] (w :: ((x :: t2) ++ B)) = _
      rw [joinWith_cons _ _ _ (by simp), joinWith_cons _ _ _ (by simp)]
      rw [ih B (by simp) hB]
      simp

theorem join_ne_nil_of_groups {gss : List (List (List Char))} (hne : gss ≠ [])
    (hg : ∀ g ∈ gss, g ≠ []) : gss.flatten ≠ [] := by
  cases gss with
  | nil => exact absurd rfl hne
  | cons g t =>
    have := hg g (by simp)
    cases g with
    | nil => exact absurd rfl this
    | cons w gt => simp

theorem joinWith_map_join : ∀ (gss : List (List (List Char))),
    (∀ g ∈ gss, g ≠ []) →
    joinWith [' '] (gss.map (joinWith [' '])) = joinWith [' '] gss.flatten := by
  intro gss
  induction gss with
  | nil => intro _; rfl
  | cons g t ih =>
    intro hg
    cases t with
    | nil => simp [joinWith]
    | cons g2 t2 =>
      have hgne := hg g (by simp)
      have htg : ∀ v ∈ g2 :: t2, v ≠ [] := fun v hv => hg v (List.mem_cons_of_mem g hv)
      show joinWith [' '] (joinWith [' '] g :: (g2 :: t2).map (joinWith [' '])) = _
      rw [joinWith_cons _ _ _ (by simp), ih htg]
      show _ = joinWith [' '] (g ++ (g2 :: t2).flatten)
      rw [joinWith_append g _ hgne (join_ne_nil_of_groups (by simp) htg)]
      simp

/-! ## `groupSents` facts -/

theorem groupSents_ne_nil : ∀ (ws : List (List Char)), ws ≠ [] → groupSents ws ≠ [] := by
  intro ws h
  cases ws with
  | nil => exact absurd rfl h
  | cons w t =>
    cases t with
    | nil => simp [groupSents]
    | cons x t2 =>
      rw [groupSents]
      cases hg : groupSents (x :: t2) with
      | nil => simp
      | cons g gs =>
        by_cases hp : endsPunct w
        · simp [hp]
        · simp [hp]

theorem groupSents_cons_cons (w x : List Char) (t2 : List (List Char))
    {g0 : List (List Char)} {gs : List (List (List Char))}
    (h : groupSents (x :: t2) = g0 :: gs) :
    groupSents (w :: x :: t2) =
      if endsPunct w then [w] :: g0 :: gs else (w :: g0) :: gs := by
  rw [groupSents, h]

theorem groupSents_flatten : ∀ (ws : List (List Char)), (groupSents ws).flatten = ws := by
  intro ws
  induction ws with
  | nil => rfl
  | cons w t ih =>
    cases t with
    | nil => simp [groupSents]
    | cons x t2 =>
      rw [groupSents]
      cases hg : groupSents (x :: t2) with
      | nil => exact absurd hg (groupSents_ne_nil _ (by simp))
      | cons g gs =>
        rw [hg] at ih
        by_cases hp : endsPunct w
        · simp only [hp, if_true]
          simp only [List.flatten_cons] at ih ⊢
          simp [ih]
        · simp only [hp, Bool.false_eq_true, if_false]
          simp only [List.flatten_cons] at ih ⊢
          simp [ih]

theorem groupSents_mem {ws : List (List Char)} :
    ∀ g ∈ groupSents ws, ∀ w ∈ g, w ∈ ws := by
  intro g hg w hw
  have : w ∈ (groupSents ws).flatten := List.mem_flatten.mpr ⟨g, hg, hw⟩
  rwa [groupSents_flatten] at this

theorem groupSents_groups_ne_nil : ∀ (ws : List (List Char)),
    ∀ g ∈ groupSents ws, g ≠ [] := by
  intro ws
  induction ws with
  | nil => intro g hg; simp [groupSents] at hg
  | cons w t ih =>
    cases t with
    | nil => intro g hg; simp [groupSents] at hg; simp [hg]
    | cons x t2 =>
      intro g hg
      cases hgx : groupSents (x :: t2) with
      | nil => exact absurd hgx (groupSents_ne_nil _ (by simp))
      | cons g0 gs =>
        rw [groupSents_cons_cons w x t2 hgx] at hg
        by_cases hp : endsPunct w
        · rw [if_pos hp] at hg
          rcases List.mem_cons.mp hg with h | h
          · simp [h]
          · exact ih g (hgx ▸ h)
        · rw [if_neg hp] at hg
          rcases List.mem_cons.mp hg with h | h
          · simp [h]
          · exact ih g (hgx ▸ List.mem_cons_of_mem g0 h)

theorem endsPunct_cons {w : List Char} {c : Char} (h : w ≠ []) :
    endsPunct (c :: w) = endsPunct w := by
  unfold endsPunct
  cases w with
  | nil => exact absurd rfl h
  | cons a t => rw [List.getLast?_cons_cons]

theorem groupSents_internal : ∀ (ws : List (List Char)),
    ∀ g ∈ groupSents ws, ∀ w ∈ g.dropLast, endsPunct w = false := by
  intro ws
  induction ws with
  | nil => intro g hg; simp [groupSents] at hg
  | cons w t ih =>
    cases t with
    | nil =>
      intro g hg w' hw'
      simp [groupSents] at hg
      subst hg
      simp at hw'
    | cons x t2 =>
      intro g hg w' hw'
      cases hgx : groupSents (x :: t2) with
      | nil => exact absurd hgx (groupSents_ne_nil _ (by simp))
      | cons g0 gs =>
        rw [groupSents_cons_cons w x t2 hgx] at hg
        by_cases hp : endsPunct w
        · rw [if_pos hp] at hg
          rcases List.mem_cons.mp hg with h | h
          · subst h; simp at hw'
          · exact ih g (hgx ▸ h) w' hw'
        · rw [if_neg hp] at hg
          rcases List.mem_cons.mp hg with h | h
          · subst h
            have hg0 : g0 ≠ [] := groupSents_groups_ne_nil (x :: t2) g0 (by simp [hgx])
            rw [List.dropLast_cons_of_ne_nil hg0] at hw'
            rcases List.mem_cons.mp hw' with h' | h'
            · subst h'
              simpa using hp
            · exact ih g0 (by simp [hgx]) w' h'
          · exact ih g (hgx ▸ List.mem_cons_of_mem g0 h) w' hw'

theorem groupSents_sep : ∀ (ws : List (List Char)),
    ∀ g ∈ (groupSents ws).dropLast, ∃ lw, g.getLast? = some lw ∧ endsPunct lw = true := by
  intro ws
  induction ws with
  | nil => intro g hg; simp [groupSents] at hg
  | cons w t ih =>
    cases t with
    | nil => intro g hg; simp [groupSents] at hg
    | cons x t2 =>
      intro g hg
      cases hgx : groupSents (x :: t2) with
      | nil => exact absurd hgx (groupSents_ne_nil _ (by simp))
      | cons g0 gs =>
        rw [groupSents_cons_cons w x t2 hgx] at hg
        by_cases hp : endsPunct w
        · rw [if_pos hp] at hg
          rw [List.dropLast_cons_of_ne_nil (by simp)] at hg
          rcases List.mem_cons.mp hg with h | h
          · subst h
            refine ⟨w, rfl, hp⟩
          · exact ih g (by rw [hgx]; exact h)
        · rw [if_neg hp] at hg
          cases gs with
          | nil => simp at hg
          | cons g1 gs2 =>
            rw [List.dropLast_cons_of_ne_nil (by simp)] at hg
            rcases List.mem_cons.mp hg with h | h
            · subst h
              have hg0 : g0 ≠ [] := groupSents_groups_ne_nil (x :: t2) g0 (by simp [hgx])
              have hg0' : g0 ∈ (groupSents (x :: t2)).dropLast := by
                rw [hgx, List.dropLast_cons_of_ne_nil (by simp)]
                simp
              obtain ⟨lw, hlw, hep⟩ := ih g0 hg0'
              refine ⟨lw, ?_, hep⟩
              cases g0 with
              | nil => exact absurd rfl hg0
              | cons a tg => rw [List.getLast?_cons_cons]; exact hlw
            · refine ih g ?_
              rw [hgx, List.dropLast_cons_of_ne_nil (by simp)]
              exact List.mem_cons_of_mem g0 h

/-! ## Sentence splitting on collapsed text acts on words -/

theorem splitSentencesAux_word : ∀ (w : List Char), w ≠ [] →
    (∀ c ∈ w, isPyWs c = false) → ∀ (pp : Bool) (acc l : List Char),
    splitSentencesAux false pp acc (w ++ l) =
      splitSentencesAux false (endsPunct w) (w.reverse ++ acc) l := by
  intro w
  induction w with
  | nil => intro h; exact absurd rfl h
  | cons a t ih =>
    intro _ hnw pp acc l
    have ha : isPyWs a = false := hnw a (by simp)
    show splitSentencesAux false pp acc (a :: (t ++ l)) = _
    rw [splitSentencesAux, if_neg (by simp), if_neg (by simp [ha])]
    cases t with
    | nil =>
      simp only [List.nil_append]
      have : endsPunct [a] = isSentencePunct a := by
        unfold endsPunct
        simp
      rw [this]
      rfl
    | cons b tb =>
      rw [ih (by simp) (fun c hc => hnw c (List.mem_cons_of_mem a hc)) _ (a :: acc) l]
      rw [endsPunct_cons (by simp : (b :: tb) ≠ [])]
      congr 1
      simp

theorem splitSentencesAux_skip_exit : ∀ (l : List Char),
    (∀ a, l.head? = some a → isPyWs a = false) → ∀ (b : Bool),
    splitSentencesAux true b [] l = splitSentencesAux false false [] l := by
  intro l h b
  cases l with
  | nil => rfl
  | cons a t =>
    have ha : isPyWs a = false := h a rfl
    rw [splitSentencesAux, if_pos rfl, if_neg (by simp [ha])]
    rw [splitSentencesAux, if_neg (by simp), if_neg (by simp [ha])]

theorem splitSentences_joinWith_groups : ∀ (ws : List (List Char)), ws ≠ [] → wsWf ws →
    ∀ (g : List (List Char)) (gs : List (List (List Char))), groupSents ws = g :: gs →
    ∀ (pp : Bool) (acc : List Char),
    splitSentencesAux false pp acc (joinWith [' '] ws) =
      (acc.reverse ++ joinWith [' '] g) :: gs.map (joinWith [' ']) := by
  intro ws
  induction ws with
  | nil => intro h; exact absurd rfl h
  | cons w t ih =>
    intro _ hwf g gs hg pp acc
    obtain ⟨hw_ne, hw_nw⟩ := hwf w (by simp)
    cases t with
    | nil =>
      simp only [groupSents, List.cons.injEq] at hg
      obtain ⟨hg1, hg2⟩ := hg
      subst hg1
      subst hg2
      have h1 : joinWith [' '] [w] = w ++ [] := by simp [joinWith]
      rw [h1, splitSentencesAux_word w hw_ne hw_nw pp acc []]
      show [(w.reverse ++ acc).reverse] = _
      simp [joinWith]
    | cons x t2 =>
      have htwf : wsWf (x :: t2) := fun v hv => hwf v (List.mem_cons_of_mem w hv)
      cases hgx : groupSents (x :: t2) with
      | nil => exact absurd hgx (groupSents_ne_nil _ (by simp))
      | cons g0 gs0 =>
        rw [groupSents_cons_cons w x t2 hgx] at hg
        have hJhead : ∀ a, (joinWith [' '] (x :: t2)).head? = some a → isPyWs a = false :=
          joinWith_head_nonws htwf
        have hsplit : joinWith [' '] (w :: x :: t2) = w ++ (' ' :: joinWith [' '] (x :: t2)) := by
          rw [joinWith_cons _ _ _ (by simp)]
          simp
        rw [hsplit, splitSentencesAux_word w hw_ne hw_nw pp acc _]
        by_cases hp : endsPunct w
        · rw [if_pos hp] at hg
          rw [splitSentencesAux, if_neg (by simp),
            if_pos (by simp [hp, show isPyWs ' ' = true from rfl])]
          rw [splitSentencesAux_skip_exit _ hJhead false]
          rw [ih (by simp) htwf g0 gs0 hgx false []]
          injection hg with hg1 hg2
          subst hg1
          subst hg2
          simp [joinWith]
        · rw [if_neg hp] at hg
          rw [splitSentencesAux, if_neg (by simp),
            if_neg (by simp [hp, show isPyWs ' ' = true from rfl])]
          rw [ih (by simp) htwf g0 gs0 hgx (isSentencePunct ' ') (' ' :: (w.reverse ++ acc))]
          injection hg with hg1 hg2
          subst hg1
          subst hg2
          have hg0ne : g0 ≠ [] := groupSents_groups_ne_nil (x :: t2) g0 (by simp [hgx])
          rw [joinWith_cons _ _ _ hg0ne]
          simp

/-! ## `groupSents` recovers the groups from their flattening -/

theorem groupSents_single_group : ∀ (g : List (List Char)), g ≠ [] →
    (∀ w ∈ g.dropLast, endsPunct w = false) → groupSents g = [g] := by
  intro g
  induction g with
  | nil => intro h; exact absurd rfl h
  | cons w t ih =>
    intro _ hint
    cases t with
    | nil => rfl
    | cons x t2 =>
      have hw : endsPunct w = false := by
        refine hint w ?_
        rw [List.dropLast_cons_of_ne_nil (by simp)]
        simp
      have hint' : ∀ v ∈ (x :: t2).dropLast, endsPunct v = false := by
        intro v hv
        refine hint v ?_
        rw [List.dropLast_cons_of_ne_nil (by simp)]
        exact List.mem_cons_of_mem w hv
      have hx := ih (by simp) hint'
      rw [groupSents_cons_cons w x t2 hx, if_neg (by simp [hw])]

theorem groupSents_prepend_group : ∀ (g : List (List Char)),
    g ≠ [] → (∀ w ∈ g.dropLast, endsPunct w = false) →
    (∃ lw, g.getLast? = some lw ∧ endsPunct lw = true) →
    ∀ (R : List (List Char)) (gss : List (List (List Char))), R ≠ [] →
    groupSents R = gss → groupSents (g ++ R) = g :: gss := by
  intro g
  induction g with
  | nil => intro h; exact absurd rfl h
  | cons w t ih =>
    intro _ hint hlast R gss hR hgR
    cases t with
    | nil =>
      obtain ⟨lw, hlw, hep⟩ := hlast
      simp only [List.getLast?_singleton, Option.some_inj] at hlw
      subst hlw
      cases R with
      | nil => exact absurd rfl hR
      | cons r R2 =>
        cases hcons : gss with
        | nil => exact absurd (hcons ▸ hgR) (groupSents_ne_nil _ (by simp))
        | cons g0 gs0 =>
          subst hcons
          show groupSents (w :: r :: R2) = _
          rw [groupSents_cons_cons w r R2 hgR, if_pos hep]
    | cons x t2 =>
      have hw : endsPunct w = false := by
        refine hint w ?_
        rw [List.dropLast_cons_of_ne_nil (by simp)]
        simp
      have hint' : ∀ v ∈ (x :: t2).dropLast, endsPunct v = false := by
        intro v hv
        refine hint v ?_
        rw [List.dropLast_cons_of_ne_nil (by simp)]
        exact List.mem_cons_of_mem w hv
      have hlast' : ∃ lw, (x :: t2).getLast? = some lw ∧ endsPunct lw = true := by
        obtain ⟨lw, hlw, hep⟩ := hlast
        rw [List.getLast?_cons_cons] at hlw
        exact ⟨lw, hlw, hep⟩
      have hIH := ih (by simp) hint' hlast' R gss hR hgR
      show groupSents (w :: ((x :: t2) ++ R)) = _
      have hshape : (x :: t2) ++ R = x :: (t2 ++ R) := by simp
      rw [hshape] at hIH ⊢
      rw [groupSents_cons_cons w x (t2 ++ R) hIH, if_neg (by simp [hw])]

theorem groupSents_flatten_of_groups : ∀ (gss : List (List (List Char))), gss ≠ [] →
    (∀ g ∈ gss, g ≠ []) →
    (∀ g ∈ gss, ∀ w ∈ g.dropLast, endsPunct w = false) →
    (∀ g ∈ gss.dropLast, ∃ lw, g.getLast? = some lw ∧ endsPunct lw = true) →
    groupSents gss.flatten = gss := by
  intro gss
  induction gss with
  | nil => intro h; exact absurd rfl h
  | cons g t ih =>
    intro _ hne hint hsep
    cases t with
    | nil =>
      simp only [List.flatten_cons, List.flatten_nil, List.append_nil]
      exact groupSents_single_group g (hne g (by simp)) (hint g (by simp))
    | cons g2 t2 =>
      have htne : ∀ v ∈ g2 :: t2, v ≠ [] := fun v hv => hne v (List.mem_cons_of_mem g hv)
      have htint : ∀ v ∈ g2 :: t2, ∀ w ∈ v.dropLast, endsPunct w = false :=
        fun v hv => hint v (List.mem_cons_of_mem g hv)
      have htsep : ∀ v ∈ (g2 :: t2).dropLast, ∃ lw, v.getLast? = some lw ∧ endsPunct lw = true := by
        intro v hv
        refine hsep v ?_
        rw [List.dropLast_cons_of_ne_nil (by simp)]
        exact List.mem_cons_of_mem g hv
      have hIH := ih (by simp) htne htint htsep
      show groupSents (g ++ (g2 :: t2).flatten) = _
      refine groupSents_prepend_group g (hne g (by simp)) (hint g (by simp)) ?_ _ _
        (join_ne_nil_of_groups (by simp) htne) hIH
      refine hsep g ?_
      rw [List.dropLast_cons_of_ne_nil (by simp)]
      simp

theorem mem_dropLast_take {α : Type} :
    ∀ (n : Nat) (l : List α) (x : α), x ∈ (l.take n).dropLast → x ∈ l.dropLast := by
  intro n
  induction n with
  | zero => intro l x h; simp at h
  | succ m ih =>
    intro l x h
    cases l with
    | nil => simp at h
    | cons a t =>
      rw [List.take_succ_cons] at h
      cases htk : t.take m with
      | nil => rw [htk] at h; simp at h
      | cons b tb =>
        rw [htk, List.dropLast_cons_of_ne_nil (by simp)] at h
        have htne : t ≠ [] := by
          intro hcontra
          rw [hcontra] at htk
          simp at htk
        rw [List.dropLast_cons_of_ne_nil htne]
        rcases List.mem_cons.mp h with h' | h'
        · simp [h']
        · exact List.mem_cons_of_mem a (ih t x (htk ▸ h'))

/-! ## `_clean_text` fixes joined well-formed sentence groups -/

theorem clean_text_fixed (limit : Nat) (tk : List (List (List Char)))
    (htk : tk ≠ [])
    (hgne : ∀ g ∈ tk, g ≠ [])
    (hwf : wsWf tk.flatten)
    (hsafe : ∀ w ∈ tk.flatten, ∀ c ∈ w, ¬(c = backtickChar) ∧ isBulletChar c = false)
    (hint : ∀ g ∈ tk, ∀ w ∈ g.dropLast, endsPunct w = false)
    (hsep : ∀ g ∈ tk.dropLast, ∃ lw, g.getLast? = some lw ∧ endsPunct lw = true)
    (hlen : tk.length ≤ limit)
    (hhead : (joinWith [' '] tk.flatten).head? ≠ some '#') :
    _clean_text (joinWith [' '] tk.flatten) limit = joinWith [' '] tk.flatten := by
  have hfne : tk.flatten ≠ [] := join_ne_nil_of_groups htk hgne
  have hwords_ne : ∀ w ∈ tk.flatten, w ≠ [] := fun w hw => (hwf w hw).1
  have hs_ne : joinWith [' '] tk.flatten ≠ [] := joinWith_ne_nil hfne hwords_ne
  have hnl : '\n' ∉ joinWith [' '] tk.flatten := by
    intro h
    rcases mem_joinWith _ ' ' '\n' h with h' | ⟨w, hw, hcw⟩
    · simp at h'
    · have := (hwf w hw).2 '\n' hcw
      simp [isPyWs] at this
  have hh : ∀ a, (joinWith [' '] tk.flatten).head? = some a →
      isPyWs a = false ∧ ¬(a = '#') := by
    intro a ha
    refine ⟨joinWith_head_nonws hwf a ha, ?_⟩
    intro hc
    exact hhead (by rw [ha, hc])
  have ht1 : (joinWith [' '] tk.flatten).filter (fun c => !(c = backtickChar))
      = joinWith [' '] tk.flatten := by
    rw [List.filter_eq_self]
    intro c hc
    rcases mem_joinWith _ ' ' c hc with h' | ⟨w, hw, hcw⟩
    · subst h'; decide
    · simp [(hsafe w hw c hcw).1]
  have ht2 : subHeadings (joinWith [' '] tk.flatten) = joinWith [' '] tk.flatten :=
    subHeadings_id hh hnl
  have ht3 : (joinWith [' '] tk.flatten).filter (fun c => !(isBulletChar c))
      = joinWith [' '] tk.flatten := by
    rw [List.filter_eq_self]
    intro c hc
    rcases mem_joinWith _ ' ' c hc with h' | ⟨w, hw, hcw⟩
    · subst h'; decide
    · simp [(hsafe w hw c hcw).2]
  have hcol : collapseWs (joinWith [' '] tk.flatten) = joinWith [' '] tk.flatten :=
    collapseWs_joinWith hwf
  have hkey : collapseWs (((subHeadings ((joinWith [' '] tk.flatten).filter
      (fun c => !(c = backtickChar)))).filter (fun c => !(isBulletChar c))))
      = joinWith [' '] tk.flatten := by
    rw [ht1, ht2, ht3, hcol]
  have hGS : groupSents tk.flatten = tk :=
    groupSents_flatten_of_groups tk htk hgne hint hsep
  obtain ⟨g, gs, htk_eq⟩ : ∃ g gs, tk = g :: gs := by
    cases tk with
    | nil => exact absurd rfl htk
    | cons a b => exact ⟨a, b, rfl⟩
  have hsents : splitSentences (joinWith [' '] tk.flatten)
      = tk.map (joinWith [' ']) := by
    show splitSentencesAux false false [] _ = _
    rw [splitSentences_joinWith_groups tk.flatten hfne hwf g gs (htk_eq ▸ hGS) false []]
    rw [htk_eq]
    simp
  have htake : (tk.map (joinWith [' '])).take limit = tk.map (joinWith [' ']) :=
    List.take_of_length_le (by simpa using hlen)
  have hjm : joinWith [' '] (tk.map (joinWith [' '])) = joinWith [' '] tk.flatten :=
    joinWith_map_join tk hgne
  have hstrip : pyStrip (joinWith [' '] tk.flatten) = joinWith [' '] tk.flatten :=
    pyStrip_eq_self (fun a ha => (hh a ha).1)
      (fun b hb => joinWith_getLast_nonws tk.flatten hwf b hb)
  have hempty : (joinWith [' '] tk.flatten).isEmpty = false := by
    simpa [List.isEmpty_iff] using hs_ne
  simp only [_clean_text]
  rw [hkey, hempty]
  simp only [Bool.false_eq_true, if_false]
  rw [hsents, htake, hjm, hstrip, hempty]
  simp

/-! ## The cleaning placeholder is itself clean -/

theorem clean_insufficientData (limit : Nat) :
    _clean_text insufficientData limit = insufficientData := by
  cases limit with
  | zero => decide
  | succ n =>
    have h := clean_text_fixed (n + 1)
      [["데이터가".data, "충분하지".data, "않습니다.".data]]
      (by simp) (by decide)
      (by simp only [wsWf]; decide)
      (by decide)
      (by decide)
      (by intro g hg; simp at hg)
      (by simp)
      (by decide)
    exact h

/-! ## Idempotence of `_clean_text` away from leading `#` -/

theorem clean_text_idem (value : List Char) (limit : Nat)
    (hhead : (_clean_text value limit).head? ≠ some '#') :
    _clean_text (_clean_text value limit) limit = _clean_text value limit := by
  by_cases h1 : (collapseWs ((subHeadings (value.filter fun c => !(c = backtickChar))).filter
      fun c => !(isBulletChar c))).isEmpty = true
  · have hval : _clean_text value limit = insufficientData := by
      simp only [_clean_text]
      rw [if_pos h1]
    rw [hval, clean_insufficientData]
  · by_cases h2 : (pyStrip (joinWith [' ']
        ((splitSentences (collapseWs ((subHeadings (value.filter
          fun c => !(c = backtickChar))).filter
          fun c => !(isBulletChar c)))).take limit))).isEmpty = true
    · have hval : _clean_text value limit = insufficientData := by
        simp only [_clean_text]
        rw [if_neg h1, if_pos h2]
      rw [hval, clean_insufficientData]
    · -- the interesting case: the cleaned text is the trimmed sentence join
      have hws_wf : wsWf (pyWords ((subHeadings (value.filter
          fun c => !(c = backtickChar))).filter fun c => !(isBulletChar c))) :=
        pyWords_wf _
      have hws_ne : pyWords ((subHeadings (value.filter
          fun c => !(c = backtickChar))).filter fun c => !(isBulletChar c)) ≠ [] := by
        intro hcontra
        refine h1 ?_
        show (collapseWs _).isEmpty = true
        unfold collapseWs
        rw [hcontra]
        rfl
      obtain ⟨g, gs', hgs⟩ : ∃ g gs', groupSents (pyWords ((subHeadings (value.filter
          fun c => !(c = backtickChar))).filter fun c => !(isBulletChar c))) = g :: gs' := by
        cases hg : groupSents (pyWords _) with
        | nil => exact absurd hg (groupSents_ne_nil _ hws_ne)
        | cons a b => exact ⟨a, b, rfl⟩
      have hsents : splitSentences (collapseWs ((subHeadings (value.filter
          fun c => !(c = backtickChar))).filter fun c => !(isBulletChar c)))
          = (g :: gs').map (joinWith [' ']) := by
        show splitSentencesAux false false [] _ = _
        unfold collapseWs
        rw [splitSentences_joinWith_groups _ hws_ne hws_wf g gs' hgs false []]
        simp
      have hgroups_ne : ∀ v ∈ (g :: gs').take limit, v ≠ [] := by
        intro v hv
        have hvmem : v ∈ groupSents (pyWords ((subHeadings (value.filter
            fun c => !(c = backtickChar))).filter fun c => !(isBulletChar c))) := by
          rw [hgs]
          exact mem_take_of_mem hv
        exact groupSents_groups_ne_nil _ v hvmem
      have hpre : joinWith [' '] (((g :: gs').map (joinWith [' '])).take limit)
          = joinWith [' '] ((g :: gs').take limit).flatten := by
        rw [← List.map_take]
        exact joinWith_map_join _ hgroups_ne
      have hval : _clean_text value limit
          = pyStrip (joinWith [' '] ((g :: gs').take limit).flatten) := by
        simp only [_clean_text]
        rw [if_neg h1, if_neg h2, hsents, hpre]
      have htk_ne : (g :: gs').take limit ≠ [] := by
        intro hcontra
        refine h2 ?_
        rw [hsents, hpre, hcontra]
        rfl
      have hflat_wf : wsWf ((g :: gs').take limit).flatten := by
        intro w hw
        obtain ⟨grp, hgrp, hwgrp⟩ := List.mem_flatten.mp hw
        have hgmem : grp ∈ g :: gs' := mem_take_of_mem hgrp
        have hgmem2 : grp ∈ groupSents (pyWords ((subHeadings (value.filter
            fun c => !(c = backtickChar))).filter fun c => !(isBulletChar c))) := by
          rw [hgs]
          exact hgmem
        exact hws_wf w (groupSents_mem grp hgmem2 w hwgrp)
      have hflat_ne : ((g :: gs').take limit).flatten ≠ [] :=
        join_ne_nil_of_groups htk_ne hgroups_ne
      have hstrip : pyStrip (joinWith [' '] ((g :: gs').take limit).flatten)
          = joinWith [' '] ((g :: gs').take limit).flatten :=
        pyStrip_eq_self (joinWith_head_nonws hflat_wf)
          (fun b hb => joinWith_getLast_nonws _ hflat_wf b hb)
      rw [hval, hstrip]
      refine clean_text_fixed limit ((g :: gs').take limit) htk_ne hgroups_ne hflat_wf
        ?_ ?_ ?_ (List.length_take_le _ _) ?_
      · -- characters of the words carry no backtick and no bullet
        intro w hw c hc
        obtain ⟨grp, hgrp, hwgrp⟩ := List.mem_flatten.mp hw
        have hgmem : grp ∈ g :: gs' := mem_take_of_mem hgrp
        have hgmem2 : grp ∈ groupSents (pyWords ((subHeadings (value.filter
            fun c => !(c = backtickChar))).filter fun c => !(isBulletChar c))) := by
          rw [hgs]
          exact hgmem
        have hwmem := groupSents_mem grp hgmem2 w hwgrp
        have hct3 := (pyWords_facts w hwmem).2 c hc
        have hmem2 := List.mem_filter.mp hct3.1
        have hmem3 := subHeadings_chars hmem2.1
        have hmem4 := List.mem_filter.mp hmem3
        constructor
        · simpa using hmem4.2
        · simpa using hmem2.2
      · intro grp hgrp w hwd
        have hgmem2 : grp ∈ groupSents (pyWords ((subHeadings (value.filter
            fun c => !(c = backtickChar))).filter fun c => !(isBulletChar c))) := by
          rw [hgs]
          exact mem_take_of_mem hgrp
        exact groupSents_internal _ grp hgmem2 w hwd
      · intro grp hgrp
        have hgmem2 : grp ∈ (groupSents (pyWords ((subHeadings (value.filter
            fun c => !(c = backtickChar))).filter fun c => !(isBulletChar c)))).dropLast := by
          rw [hgs]
          exact mem_dropLast_take limit _ grp hgrp
        exact groupSents_sep _ grp hgmem2
      · rw [← hstrip, ← hval]
        exact hhead

/-! ## Newline-freedom of report content -/

theorem _clean_text_no_newline (value : List Char) (limit : Nat) :
    '\n' ∉ _clean_text value limit := by
  intro h
  rcases _clean_text_chars value limit '\n' h with h' | ⟨hws, _⟩ | h'
  · revert h'
    decide
  · simp [isPyWs] at hws
  · simp at h'

theorem _clean_text_ne_nil (value : List Char) (limit : Nat) :
    _clean_text value limit ≠ [] := by
  unfold _clean_text
  by_cases h1 : (collapseWs ((subHeadings (value.filter fun c => !(c = backtickChar))).filter
      fun c => !(isBulletChar c))).isEmpty = true
  · rw [if_pos h1]; decide
  · rw [if_neg h1]
    by_cases h2 : (pyStrip (joinWith [' ']
        ((splitSentences (collapseWs ((subHeadings (value.filter
          fun c => !(c = backtickChar))).filter
          fun c => !(isBulletChar c)))).take limit))).isEmpty = true
    · rw [if_pos h2]; decide
    · rw [if_neg h2]
      simpa [List.isEmpty_iff] using h2

theorem _latest_no_newline (state : SupervisorState) (agent : List Char) :
    '\n' ∉ _latest state agent := by
  unfold _latest
  cases (notesGet state.notes agent).getLast? with
  | none => decide
  | some lastNote => exact _clean_text_no_newline lastNote 4

theorem _latest_ne_nil (state : SupervisorState) (agent : List Char) :
    _latest state agent ≠ [] := by
  unfold _latest
  cases (notesGet state.notes agent).getLast? with
  | none => decide
  | some lastNote => exact _clean_text_ne_nil lastNote 4

theorem mem_dedupFirstAux : ∀ (l seen : List (List Char)) (x : List Char),
    x ∈ dedupFirstAux seen l → x ∈ l := by
  intro l
  induction l with
  | nil => intro seen x h; simp [dedupFirstAux] at h
  | cons a t ih =>
    intro seen x h
    rw [dedupFirstAux] at h
    by_cases hmem : a ∈ seen
    · rw [if_pos hmem] at h
      exact List.mem_cons_of_mem a (ih seen x h)
    · rw [if_neg hmem] at h
      rcases List.mem_cons.mp h with h' | h'
      · simp [h']
      · exact List.mem_cons_of_mem a (ih (a :: seen) x h')

theorem _combine_agents_no_newline (state : SupervisorState) (agents : List (List Char)) :
    '\n' ∉ _combine_agents state agents := by
  unfold _combine_agents
  by_cases hu : (dedupFirstAux [] ((agents.filter
      fun a => !(notesGet state.notes a).isEmpty).map fun a => _latest state a)).isEmpty = true
  · rw [if_pos hu]; decide
  · rw [if_neg hu]
    intro h
    rcases mem_joinWith _ ' ' '\n' h with h' | ⟨w, hw, hcw⟩
    · simp at h'
    · have hw2 := mem_dedupFirstAux _ [] w hw
      obtain ⟨a, _, ha⟩ := List.mem_map.mp hw2
      exact _latest_no_newline state a (ha ▸ hcw)

theorem mem_rstripPunct {c : Char} {l : List Char} (h : c ∈ rstripPunct l) : c ∈ l := by
  unfold rstripPunct at h
  rw [List.mem_reverse] at h
  have := (List.dropWhile_sublist (l := l.reverse)
    (p := fun c => c = '.' || c = ',' || c = ';')).mem h
  rwa [List.mem_reverse] at this

theorem matchUrlAt_no_newline : ∀ (l u rest : List Char),
    matchUrlAt l = some (u, rest) → '\n' ∉ u := by
  intro l u rest h
  unfold matchUrlAt at h
  cases hs : matchScheme l with
  | none => rw [hs] at h; simp at h
  | some p =>
    obtain ⟨scheme, r⟩ := p
    rw [hs] at h
    simp only at h
    by_cases hrun : (r.takeWhile isUrlChar).isEmpty = true
    · rw [if_pos hrun] at h; simp at h
    · rw [if_neg hrun] at h
      simp only [Option.some_inj, Prod.mk.injEq] at h
      obtain ⟨hu, _⟩ := h
      intro hmem
      rw [← hu] at hmem
      rcases List.mem_append.mp hmem with h' | h'
      · unfold matchScheme at hs
        by_cases h8 : "https://".data.isPrefixOf l
        · rw [if_pos h8] at hs
          simp only [Option.some_inj, Prod.mk.injEq] at hs
          rw [← hs.1] at h'
          revert h'
          decide
        · rw [if_neg h8] at hs
          by_cases h7 : "http://".data.isPrefixOf l
          · rw [if_pos h7] at hs
            simp only [Option.some_inj, Prod.mk.injEq] at hs
            rw [← hs.1] at h'
            revert h'
            decide
          · rw [if_neg h7] at hs; simp at hs
      · have := List.mem_takeWhile_imp h'
        revert this
        decide

theorem findUrlsAux_no_newline : ∀ (fuel : Nat) (l : List Char),
    ∀ u ∈ findUrlsAux fuel l, '\n' ∉ u := by
  intro fuel
  induction fuel with
  | zero => intro l u h; simp [findUrlsAux] at h
  | succ n ih =>
    intro l u h
    cases l with
    | nil => simp [findUrlsAux] at h
    | cons c cs =>
      rw [findUrlsAux] at h
      cases hm : matchUrlAt (c :: cs) with
      | none => rw [hm] at h; exact ih cs u h
      | some p =>
        rw [hm] at h
        rcases List.mem_cons.mp h with h' | h'
        · exact h' ▸ matchUrlAt_no_newline (c :: cs) p.1 p.2 (by rw [hm])
        · exact ih p.2 u h'

theorem findUrls_no_newline {l : List Char} : ∀ u ∈ findUrls l, '\n' ∉ u :=
  findUrlsAux_no_newline l.length l

mutual
theorem visitVal_no_newline : ∀ (v : PyVal), ∀ u ∈ visitVal v, '\n' ∉ u
  | .vstr s => by
    intro u hu
    simp only [visitVal] at hu
    obtain ⟨m, hm, hm2⟩ := List.mem_map.mp hu
    intro hmem
    exact findUrls_no_newline m hm (mem_rstripPunct (hm2 ▸ hmem))
  | .vdict kvs => by
    intro u hu
    simp only [visitVal] at hu
    exact visitKVs_no_newline kvs u hu
  | .vlist l => by
    intro u hu
    simp only [visitVal] at hu
    exact visitList_no_newline l u hu
  | .vint _ => by intro u hu; simp [visitVal] at hu
  | .vbool _ => by intro u hu; simp [visitVal] at hu
  | .vnone => by intro u hu; simp [visitVal] at hu
  | .vset _ => by intro u hu; simp [visitVal] at hu
  | .vmsg _ => by intro u hu; simp [visitVal] at hu
theorem visitList_no_newline : ∀ (l : PyList), ∀ u ∈ visitList l, '\n' ∉ u
  | .nil => by intro u hu; simp [visitList] at hu
  | .cons x xs => by
    intro u hu
    simp only [visitList] at hu
    rcases List.mem_append.mp hu with h | h
    · exact visitVal_no_newline x u h
    · exact visitList_no_newline xs u h
theorem visitKVs_no_newline : ∀ (kvs : PyKVs), ∀ u ∈ visitKVs kvs, '\n' ∉ u
  | .nil => by intro u hu; simp [visitKVs] at hu
  | .cons k v tl => by
    intro u hu
    simp only [visitKVs] at hu
    rcases List.mem_append.mp hu with h | h
    · exact visitVal_no_newline v u h
    · exact visitKVs_no_newline tl u h
end

theorem mem_extract_iff {state : SupervisorState} {u : List Char} :
    u ∈ _extract_references state ↔
      u ∈ (state.notes.flatMap fun kv =>
            kv.2.flatMap fun note => (findUrls note).map rstripPunct) ++
          (state.history.flatMap fun e =>
            match rawOfEntry e with
            | some raw => visitVal raw
            | none => []) := by
  unfold _extract_references
  rw [(List.perm_insertionSort _ _).mem_iff, List.mem_dedup]

theorem _extract_references_no_newline (state : SupervisorState) :
    ∀ u ∈ _extract_references state, '\n' ∉ u := by
  intro u hu
  rcases List.mem_append.mp (mem_extract_iff.mp hu) with h | h
  · obtain ⟨kv, _, hkv⟩ := List.mem_flatMap.mp h
    obtain ⟨note, _, hnote⟩ := List.mem_flatMap.mp hkv
    obtain ⟨m, hm, hm2⟩ := List.mem_map.mp hnote
    intro hmem
    exact findUrls_no_newline m hm (mem_rstripPunct (hm2 ▸ hmem))
  · obtain ⟨e, _, he⟩ := List.mem_flatMap.mp h
    cases hraw : rawOfEntry e with
    | none => rw [hraw] at he; simp at he
    | some raw =>
      rw [hraw] at he
      exact visitVal_no_newline raw u he

/-! ## Line structure of the compiled report -/

theorem joinWith_head?_sep (sep : List Char) {w : List Char} (hw : w ≠ [])
    (ws : List (List Char)) : (joinWith sep (w :: ws)).head? = w.head? := by
  cases ws with
  | nil => rfl
  | cons x t =>
    rw [joinWith_cons _ _ _ (by simp)]
    rw [List.append_assoc, List.head?_append_of_ne_nil _ hw]

theorem joinWith_nl_getLast? : ∀ (front : List (List Char)) (b : List Char), b ≠ [] →
    (joinWith ['\n'] (front ++ [b])).getLast? = b.getLast? := by
  intro front
  induction front with
  | nil => intro b _; rfl
  | cons w t ih =>
    intro b hb
    show (joinWith ['\n'] (w :: (t ++ [b]))).getLast? = _
    rw [joinWith_cons _ _ _ (by simp)]
    have hne : joinWith ['\n'] (t ++ [b]) ≠ [] := by
      cases t with
      | nil => simpa [joinWith] using hb
      | cons x t2 =>
        show joinWith ['\n'] (x :: ((t2 ++ [b]))) ≠ []
        rw [joinWith_cons _ _ _ (by simp)]
        simp
    rw [List.append_assoc, List.getLast?_append_of_ne_nil _ (by
      intro hcontra
      exact hne (List.append_eq_nil.mp hcontra).2)]
    rw [List.getLast?_append_of_ne_nil _ hne]
    exact ih b hb

theorem isMarkerLine_indent (x : List Char) :
    isMarkerLine ("   - ".data ++ x) = false := by
  simp [isMarkerLine, List.isPrefixOf]

theorem indent_filter_markers (xs : List (List Char)) :
    (_indent xs).filter isMarkerLine = [] := by
  rw [List.filter_eq_nil_iff]
  intro a ha
  obtain ⟨x, _, hx⟩ := List.mem_map.mp ha
  rw [← hx, isMarkerLine_indent]
  simp

theorem indent_no_newline {xs : List (List Char)} (h : ∀ x ∈ xs, '\n' ∉ x) :
    ∀ l ∈ _indent xs, '\n' ∉ l := by
  intro l hl
  obtain ⟨x, hx, hlx⟩ := List.mem_map.mp hl
  rw [← hlx]
  intro hmem
  rcases List.mem_append.mp hmem with h' | h'
  · revert h'
    decide
  · exact h x (List.mem_filter.mp hx).1 h'

theorem reportLines_no_newline (state : SupervisorState) (vo : List (List Char)) :
    ∀ l ∈ reportLines state vo, '\n' ∉ l := by
  intro l hl
  simp only [reportLines, List.append_assoc, List.mem_append, List.mem_cons,
    List.mem_singleton, List.not_mem_nil, or_false, false_or] at hl
  rcases hl with h | h | h | h | h | h | h | h | h | h | h | h | h | h | h | h | h | h |
      h | h | h | h | h | h | h
  · subst h; decide
  · refine indent_no_newline ?_ l h
    intro x hx
    rcases List.mem_cons.mp hx with h' | hx
    · subst h'
      intro hmem
      rcases List.mem_append.mp hmem with h'' | h''
      · revert h''; decide
      · exact _clean_text_no_newline state.task_input 1 h''
    rcases List.mem_cons.mp hx with h' | hx
    · subst h'
      intro hmem
      rcases List.mem_append.mp hmem with h'' | h''
      · revert h''; decide
      · exact _latest_no_newline state "market".data h''
    rcases List.mem_cons.mp hx with h' | hx
    · subst h'
      intro hmem
      rcases List.mem_append.mp hmem with h'' | h''
      · revert h''; decide
      · exact _latest_no_newline state "finance".data h''
    rcases List.mem_cons.mp hx with h' | hx
    · subst h'; decide
    · simp at hx
  · subst h; decide
  · subst h; decide
  · refine indent_no_newline ?_ l h
    intro x hx
    rcases List.mem_cons.mp hx with h' | hx
    · subst h'; decide
    rcases List.mem_cons.mp hx with h' | hx
    · subst h'; exact _combine_agents_no_newline state _
    · simp at hx
  · subst h; decide
  · subst h; decide
  · refine indent_no_newline ?_ l h
    intro x hx
    rcases List.mem_cons.mp hx with h' | hx
    · subst h'; exact _latest_no_newline state "policy".data
    · simp at hx
  · subst h; decide
  · subst h; decide
  · refine indent_no_newline ?_ l h
    intro x hx
    rcases List.mem_cons.mp hx with h' | hx
    · subst h'; exact _latest_no_newline state "oem".data
    · simp at hx
  · subst h; decide
  · subst h; decide
  · refine indent_no_newline ?_ l h
    intro x hx
    rcases List.mem_cons.mp hx with h' | hx
    · subst h'; exact _latest_no_newline state "supply_chain".data
    · simp at hx
  · subst h; decide
  · subst h; decide
  · refine indent_no_newline ?_ l h
    intro x hx
    rcases List.mem_cons.mp hx with h' | hx
    · subst h'; exact _latest_no_newline state "finance".data
    · simp at hx
  · subst h; decide
  · subst h; decide
  · refine indent_no_newline ?_ l h
    intro x hx
    rcases List.mem_cons.mp hx with h' | hx
    · subst h'; exact _combine_agents_no_newline state vo
    · simp at hx
  · subst h; decide
  · subst h; decide
  · refine indent_no_newline ?_ l h
    intro x hx
    by_cases hre : (_extract_references state).isEmpty = true
    · rw [if_pos hre] at hx
      rcases List.mem_cons.mp hx with h' | hx
      · subst h'; decide
      · simp at hx
    · rw [if_neg hre] at hx
      exact _extract_references_no_newline state x hx
  · subst h; decide
  · subst h; decide

theorem reportLines_markers (state : SupervisorState) (vo : List (List Char)) :
    (reportLines state vo).filter isMarkerLine = sectionHeaders := by
  simp only [reportLines]
  simp only [List.filter_append, indent_filter_markers]
  decide

theorem reportLines_ne_nil (state : SupervisorState) (vo : List (List Char)) :
    reportLines state vo ≠ [] := by
  simp only [reportLines]
  simp

theorem splitLines_compile (state : SupervisorState) (ao vo : List (List Char)) :
    splitLines (_compile_final_report state ao vo) = reportLines state vo := by
  have hh : (reportLines state vo).head? = some "1. EXECUTIVE SUMMARY".data := by
    simp only [reportLines, List.head?_append, List.head?_cons, Option.or_some]
  have hl : (reportLines state vo).getLast? = some attributionLine := by
    simp only [reportLines, List.getLast?_append, List.getLast?_singleton, Option.or_some]
  obtain ⟨rest, hrest⟩ := List.head?_eq_some_iff.mp hh
  obtain ⟨front, hfront⟩ := List.getLast?_eq_some_iff.mp hl
  have hstrip : pyStrip (joinWith ['\n'] (reportLines state vo))
      = joinWith ['\n'] (reportLines state vo) := by
    refine pyStrip_eq_self ?_ ?_
    · intro a ha
      rw [hrest, joinWith_head?_sep _ (by decide)] at ha
      have h0 : ("1. EXECUTIVE SUMMARY".data).head? = some '1' := by decide
      rw [h0] at ha
      have h2 : a = '1' := (Option.some.inj ha).symm
      rw [h2]
      decide
    · intro b hb
      rw [hfront] at hb
      have hne : attributionLine ≠ [] := by decide
      rw [joinWith_nl_getLast? front attributionLine hne] at hb
      have h5 : attributionLine.getLast? = some '.' := by decide
      rw [h5] at hb
      have h4 : b = '.' := (Option.some.inj hb).symm
      rw [h4]
      decide
  unfold _compile_final_report
  rw [hstrip]
  exact splitLines_joinWith _ (reportLines_ne_nil state vo) (reportLines_no_newline state vo)

/-! ## The state machine: basic equations -/

theorem step_eq (s : SupervisorState) (a : List Char) :
    s.step a =
      ({ s with current_agent := some a, total_steps := s.total_steps + 1 },
       if s.total_steps + 1 > s.max_steps then some .maxSteps
       else if s.retry_count > s.max_retries then some .maxRetries else none) := by
  simp only [SupervisorState.step]
  by_cases h1 : s.total_steps + 1 > s.max_steps
  · simp [h1]
  · simp only [h1]
    by_cases h2 : s.retry_count > s.max_retries
    · simp [h2]
    · simp [h1, h2]

theorem notesGet_setdefaultAppend (notes : List (List Char × List (List Char)))
    (k a m : List Char) :
    notesGet (notesSetdefaultAppend notes k m) a =
      if a = k then notesGet notes a ++ [m] else notesGet notes a := by
  induction notes with
  | nil =>
    by_cases h : a = k
    · subst h; simp [notesSetdefaultAppend, notesGet]
    · rw [if_neg h]
      simp only [notesSetdefaultAppend, notesGet]
      rw [if_neg (fun hk => h hk.symm)]
  | cons kv tl ih =>
    obtain ⟨k', v⟩ := kv
    simp only [notesSetdefaultAppend]
    by_cases hk' : k' = k
    · rw [if_pos hk']
      by_cases hka : k' = a
      · have hak : a = k := by rw [← hka, hk']
        rw [if_pos hak]
        simp [notesGet, hka]
      · have hak : ¬(a = k) := fun h => hka (by rw [hk', ← h])
        rw [if_neg hak]
        simp [notesGet, hka]
    · rw [if_neg hk']
      by_cases hka : k' = a
      · have hak : ¬(a = k) := fun h => hk' (by rw [hka, h])
        rw [if_neg hak]
        simp [notesGet, hka]
      · simp only [notesGet, if_neg hka]
        exact ih

theorem runAgents_cons {E : Type} (p : List Char × AgentRef E)
    (rest : List (List Char × AgentRef E)) (task : List Char)
    (clock : Nat → List Char) (s : SupervisorState) :
    runAgents (p :: rest) task clock s =
      match _invoke_agent p.1 p.2 task s (clock s.total_steps) with
      | (s1, none) => runAgents rest task clock s1
      | (s1, some e) => (s1, some e) := by
  obtain ⟨n, ag⟩ := p
  rfl

theorem wfRunAgents_cons {E : Type} (p : List Char × AgentRef E)
    (rest : List (List Char × AgentRef E)) (task : List Char)
    (clock : Nat → List Char) (s : SupervisorState) :
    wfRunAgents (p :: rest) task clock s =
      match wfInvokeAgent p.1 p.2 task s (clock s.total_steps) with
      | (s1, none) => wfRunAgents rest task clock s1
      | (s1, some e) => (s1, some e) := by
  obtain ⟨n, ag⟩ := p
  rfl

/-- A stubbed collaborator behaves whenever its fixed result survives
the serializer. -/
theorem agentBehaves_stub (task n : List Char) (r : PyVal)
    (h : isOkE (_serialise (wrapResult (_summarise_agent_result r) r)) = true) :
    agentBehaves task (n, unitStub r) :=
  h

/-! ## Claim C8: idempotence of the text cleaner -/

/-- Claim C8 (corrected): `_clean_text` is not idempotent on every
input, but it is on every input whose cleaned form does not begin with
a heading marker, so that the heading-stripping pass cannot fire a
second time; the second application then returns the first pass's
output unchanged. -/
theorem claim8 (value : List Char) (limit : Nat)
    (hhead : (_clean_text value limit).head? ≠ some '#') :
    _clean_text (_clean_text value limit) limit = _clean_text value limit :=
  clean_text_idem value limit hhead

/-- Witness for C8: a concrete two-sentence input, cleaned and cleaned
again. -/
theorem claim8_witness :
    (_clean_text "Hello there. Second.".data 4).head? ≠ some '#' ∧
    _clean_text (_clean_text "Hello there. Second.".data 4) 4
      = _clean_text "Hello there. Second.".data 4 :=
  ⟨by decide, claim8 "Hello there. Second.".data 4 (by decide)⟩

/-- Counterexample for C8 as stated: stripping the bullet of
`"-#hello"` exposes a leading heading marker, so the second pass deletes
the whole line and falls back to the placeholder. -/
theorem claim8_counterexample :
    _clean_text (_clean_text "-#hello".data 4) 4 ≠ _clean_text "-#hello".data 4 := by
  decide

/-! ## Claims C2 and C7: shape and references of the compiled report -/

theorem infix_cons_right {α : Type} (s : List α) {m t : List α} (h : m <:+: t) :
    m <:+: s ++ t := by
  obtain ⟨u, v, huv⟩ := h
  exact ⟨s ++ u, v, by rw [← huv]; simp [List.append_assoc]⟩

theorem infix_append_right {α : Type} (t : List α) {m s : List α} (h : m <:+: s) :
    m <:+: s ++ t := by
  obtain ⟨u, v, huv⟩ := h
  exact ⟨u, v ++ t, by rw [← huv]; simp [List.append_assoc]⟩

theorem infix_last2 {α : Type} (s : List α) (a b : α) :
    [a, b] <:+: (s ++ [a]) ++ [b] :=
  ⟨s, [], by simp⟩

theorem reportLines_oem (state : SupervisorState) (vo : List (List Char))
    (h : notesGet state.notes "oem".data = []) :
    ["4. OEM ANALYSIS".data, "   - ".data ++ insufficientData] <:+:
      reportLines state vo := by
  have hlat : _latest state "oem".data = insufficientData := by
    unfold _latest
    rw [h]
    rfl
  have hind : _indent [insufficientData] = ["   - ".data ++ insufficientData] := by
    decide
  simp only [reportLines, hlat, hind]
  apply infix_append_right
  apply infix_append_right
  apply infix_append_right
  apply infix_append_right
  apply infix_append_right
  apply infix_append_right
  apply infix_append_right
  apply infix_append_right
  apply infix_append_right
  apply infix_append_right
  apply infix_append_right
  apply infix_append_right
  apply infix_append_right
  apply infix_append_right
  exact infix_last2 _ _ _

/-- Claim C2 (confirmed): on every state whose history entries store the
mapping-shaped results the pipeline itself produces, the compiled report
splits into lines whose top-level numbered markers are exactly the eight
fixed section headers in order, and an agent without notes (here `oem`)
degrades to the fixed placeholder line under its header rather than
losing the section. -/
theorem claim2 (state : SupervisorState) (ao vo : List (List Char))
    (_hwf : historyWF state = true) :
    (splitLines (_compile_final_report state ao vo)).filter isMarkerLine
        = sectionHeaders ∧
    (notesGet state.notes "oem".data = [] →
      ["4. OEM ANALYSIS".data, "   - ".data ++ insufficientData] <:+:
        splitLines (_compile_final_report state ao vo)) := by
  rw [splitLines_compile]
  exact ⟨reportLines_markers state vo, fun h => reportLines_oem state vo h⟩

/-- Witness for C2: the fresh state (no notes at all). -/
theorem claim2_witness :
    historyWF (initState "t".data) = true ∧
    ((splitLines (_compile_final_report (initState "t".data) [] [])).filter isMarkerLine
        = sectionHeaders ∧
     (notesGet (initState "t".data).notes "oem".data = [] →
      ["4. OEM ANALYSIS".data, "   - ".data ++ insufficientData] <:+:
        splitLines (_compile_final_report (initState "t".data) [] []))) :=
  ⟨by decide, claim2 (initState "t".data) [] [] (by decide)⟩

theorem mem_reportLines_refs (state : SupervisorState) (vo : List (List Char))
    {u : List Char} (hu : u ∈ _extract_references state) (hne : u ≠ []) :
    "   - ".data ++ u ∈ reportLines state vo := by
  have hie : (_extract_references state).isEmpty = false := by
    cases hrefs : _extract_references state with
    | nil => rw [hrefs] at hu; cases hu
    | cons x xs => rfl
  have hue : u.isEmpty = false := by
    cases u with
    | nil => cases hne rfl
    | cons c cs => rfl
  simp only [reportLines, hie, Bool.false_eq_true, if_false]
  apply List.mem_append_left
  apply List.mem_append_left
  apply List.mem_append_right
  exact List.mem_map.mpr ⟨u, List.mem_filter.mpr ⟨hu, by simp [hue]⟩, rfl⟩

theorem reportLines_noSources (state : SupervisorState) (vo : List (List Char))
    (h : (_extract_references state).isEmpty = true) :
    "   - ".data ++ noSourcesPlaceholder ∈ reportLines state vo := by
  have hind : _indent [noSourcesPlaceholder]
      = ["   - ".data ++ noSourcesPlaceholder] := by decide
  simp only [reportLines, h, if_true, hind]
  apply List.mem_append_left
  apply List.mem_append_left
  apply List.mem_append_right
  exact List.mem_singleton.mpr rfl

/-- Claim C7 (confirmed): a note holding the two example URLs puts both
(with trailing punctuation stripped) into `_extract_references` and into
the compiled report's reference lines; the reference list is always
sorted and duplicate-free; and a state with no URL anywhere gets the
fixed no-external-sources placeholder line instead. -/
theorem claim7 (state : SupervisorState) (ao vo : List (List Char))
    (hnote : ∃ kv ∈ state.notes, urlNote ∈ kv.2) :
    "https://example.com/a".data ∈ _extract_references state ∧
    "https://example.com/b".data ∈ _extract_references state ∧
    "   - ".data ++ "https://example.com/a".data
        ∈ splitLines (_compile_final_report state ao vo) ∧
    "   - ".data ++ "https://example.com/b".data
        ∈ splitLines (_compile_final_report state ao vo) ∧
    List.Sorted (fun x y => x ≤ y) (_extract_references state) ∧
    (_extract_references state).Nodup ∧
    ∀ state2 : SupervisorState, (_extract_references state2).isEmpty = true →
      "   - ".data ++ noSourcesPlaceholder
          ∈ splitLines (_compile_final_report state2 ao vo) := by
  have hmemA : "https://example.com/a".data ∈ _extract_references state := by
    obtain ⟨kv, hkv, hin⟩ := hnote
    refine mem_extract_iff.mpr (List.mem_append_left _ ?_)
    refine List.mem_flatMap.mpr ⟨kv, hkv, ?_⟩
    refine List.mem_flatMap.mpr ⟨urlNote, hin, ?_⟩
    decide
  have hmemB : "https://example.com/b".data ∈ _extract_references state := by
    obtain ⟨kv, hkv, hin⟩ := hnote
    refine mem_extract_iff.mpr (List.mem_append_left _ ?_)
    refine List.mem_flatMap.mpr ⟨kv, hkv, ?_⟩
    refine List.mem_flatMap.mpr ⟨urlNote, hin, ?_⟩
    decide
  refine ⟨hmemA, hmemB, ?_, ?_, ?_, ?_, ?_⟩
  · rw [splitLines_compile]
    exact mem_reportLines_refs state vo hmemA (by decide)
  · rw [splitLines_compile]
    exact mem_reportLines_refs state vo hmemB (by decide)
  · unfold _extract_references
    exact List.sorted_insertionSort _ _
  · unfold _extract_references
    exact (List.perm_insertionSort _ _).nodup_iff.mpr (List.nodup_dedup _)
  · intro state2 h2
    rw [splitLines_compile]
    exact reportLines_noSources state2 vo h2

/-- Witness for C7: the state holding the example note under the market
agent. -/
theorem claim7_witness :
    (∃ kv ∈ urlState.notes, urlNote ∈ kv.2) ∧
    ("https://example.com/a".data ∈ _extract_references urlState ∧
     "https://example.com/b".data ∈ _extract_references urlState ∧
     "   - ".data ++ "https://example.com/a".data
        ∈ splitLines (_compile_final_report urlState [] []) ∧
     "   - ".data ++ "https://example.com/b".data
        ∈ splitLines (_compile_final_report urlState [] []) ∧
     List.Sorted (fun x y => x ≤ y) (_extract_references urlState) ∧
     (_extract_references urlState).Nodup ∧
     ∀ state2 : SupervisorState, (_extract_references state2).isEmpty = true →
      "   - ".data ++ noSourcesPlaceholder
          ∈ splitLines (_compile_final_report state2 [] [])) :=
  ⟨⟨("market".data, [urlNote]), by decide, by decide⟩,
   claim7 urlState [] [] ⟨("market".data, [urlNote]), by decide, by decide⟩⟩

/-! ## Claim C4: collaborator exceptions propagate unchanged -/

/-- Claim C4 (confirmed): when the step guard passes and the
collaborator raises, `_invoke_agent` bumps `retry_count` by one,
re-raises the same exception, leaves notes, decisions and history
untouched, and the agent loop aborts with that exception. -/
theorem claim4 {E : Type} (agent_name : List Char) (agent : AgentRef E)
    (task now : List Char) (state : SupervisorState) (e : E)
    (hstep : (state.step agent_name).2 = none)
    (hcall : agent.ainvoke (_build_agent_message agent_name task) = .error e) :
    (_invoke_agent agent_name agent task state now).2 = some (.agentError e) ∧
    (_invoke_agent agent_name agent task state now).1.retry_count
        = state.retry_count + 1 ∧
    (_invoke_agent agent_name agent task state now).1.notes = state.notes ∧
    (_invoke_agent agent_name agent task state now).1.decisions = state.decisions ∧
    (_invoke_agent agent_name agent task state now).1.history = state.history ∧
    ∀ (rest : List (List Char × AgentRef E)) (clock : Nat → List Char),
      clock state.total_steps = now →
      runAgents ((agent_name, agent) :: rest) task clock state
        = ((_invoke_agent agent_name agent task state now).1,
           some (.agentError e)) := by
  have hkey : _invoke_agent agent_name agent task state now
      = ({ state with
            current_agent := some agent_name,
            total_steps := state.total_steps + 1,
            retry_count := state.retry_count + 1 },
         some (.agentError e)) := by
    unfold _invoke_agent
    split
    · rename_i s1 heq
      rw [heq] at hstep
      simp at hstep
    · rename_i s1 heq
      rw [heq] at hstep
      simp at hstep
    · rename_i s1 heq
      have hs1 : s1 = { state with
          current_agent := some agent_name,
          total_steps := state.total_steps + 1 } := by
        have h2 := congrArg Prod.fst heq
        rw [step_eq] at h2
        exact h2.symm
      rw [hcall, hs1]
  refine ⟨by rw [hkey], by rw [hkey], by rw [hkey], by rw [hkey], by rw [hkey], ?_⟩
  intro rest clock hclock
  rw [runAgents_cons]
  simp only [hclock, hkey]

/-- Witness for C4: a collaborator that always raises, on a fresh state. -/
theorem claim4_witness :
    ((initState "t".data).step "a".data).2 = none ∧
    (_invoke_agent "a".data unitFail "t".data (initState "t".data) []).2
        = some (.agentError ()) ∧
    (_invoke_agent "a".data unitFail "t".data (initState "t".data) []).1.retry_count
        = 1 :=
  ⟨by decide,
   (claim4 "a".data unitFail "t".data [] (initState "t".data) () (by decide) rfl).1,
   by decide⟩

/-! ## Successful invocations -/

theorem snapshot_ok (s : SupervisorState) (agent : List Char) (result : PyVal)
    (now : List Char) {ser : PyVal} (h : _serialise result = .ok ser) :
    s.snapshot agent result now =
      .ok ({ s with history := s.history ++
              [⟨s.total_steps, agent, ser, notesGet s.notes agent, now⟩] },
           ⟨s.total_steps, agent, ser, notesGet s.notes agent, now⟩) := by
  unfold SupervisorState.snapshot
  rw [h]

theorem snapshot_err (s : SupervisorState) (agent : List Char) (result : PyVal)
    (now : List Char) {u : Unit} (h : _serialise result = .error u) :
    s.snapshot agent result now = .error u := by
  unfold SupervisorState.snapshot
  rw [h]

/-- A fully successful `_invoke_agent` call: the step guard passes, the
collaborator returns, the serializer accepts the payload; the state
gains the counters, the note, the decision and the history entry. -/
theorem invoke_ok {E : Type} (p : List Char × AgentRef E) (task now : List Char)
    (s : SupervisorState)
    (hstep : s.total_steps + 1 ≤ s.max_steps)
    (hretry : s.retry_count ≤ s.max_retries)
    (hb : agentBehaves task p) :
    ∃ S1, _invoke_agent p.1 p.2 task s now = (S1, none) ∧
      S1.total_steps = s.total_steps + 1 ∧
      S1.retry_count = s.retry_count ∧
      S1.max_steps = s.max_steps ∧
      S1.max_retries = s.max_retries ∧
      S1.stage = s.stage ∧
      S1.final_report = s.final_report ∧
      S1.task_input = s.task_input ∧
      (∃ en : HistoryEntry, en.agent = p.1 ∧ S1.history = s.history ++ [en]) ∧
      (∃ msg : List Char, S1.notes = notesSetdefaultAppend s.notes p.1 msg) := by
  unfold agentBehaves at hb
  rcases hres : callResult task p with exc | r
  · rw [hres] at hb
    exact hb.elim
  · rw [hres] at hb
    have hb2 : isOkE (_serialise (wrapResult (_summarise_agent_result r) r)) = true := hb
    rcases hser : _serialise (wrapResult (_summarise_agent_result r) r) with u | ser
    · rw [hser] at hb2
      simp [isOkE] at hb2
    · have hkey : _invoke_agent p.1 p.2 task s now =
          ({ s with
              current_agent := some p.1,
              total_steps := s.total_steps + 1,
              notes := notesSetdefaultAppend s.notes p.1 (_summarise_agent_result r),
              decisions := s.decisions ++ [_summarise_agent_result r],
              history := s.history ++
                [⟨s.total_steps + 1, p.1, ser,
                  notesGet (notesSetdefaultAppend s.notes p.1
                    (_summarise_agent_result r)) p.1, now⟩] }, none) := by
        unfold _invoke_agent
        split
        · rename_i s1 heq
          rw [step_eq] at heq
          simp only [Prod.mk.injEq] at heq
          rw [if_neg (Nat.not_lt.mpr hstep), if_neg (Nat.not_lt.mpr hretry)] at heq
          cases heq.2
        · rename_i s1 heq
          rw [step_eq] at heq
          simp only [Prod.mk.injEq] at heq
          rw [if_neg (Nat.not_lt.mpr hstep), if_neg (Nat.not_lt.mpr hretry)] at heq
          cases heq.2
        · rename_i s1 heq
          have hs1 : s1 = { s with
              current_agent := some p.1,
              total_steps := s.total_steps + 1 } := by
            have h2 := congrArg Prod.fst heq
            rw [step_eq] at h2
            exact h2.symm
          subst hs1
          unfold callResult at hres
          simp only [hres]
          rw [snapshot_ok _ _ _ _ hser]
          rfl
      exact ⟨_, hkey, rfl, rfl, rfl, rfl, rfl, rfl, rfl, ⟨_, rfl, rfl⟩, ⟨_, rfl⟩⟩

/-- A step-guard failure: the agent's collaborator is never consulted,
the counters are still mutated. -/
theorem invoke_maxSteps {E : Type} (n : List Char) (ag : AgentRef E)
    (task now : List Char) (s : SupervisorState)
    (h : s.max_steps < s.total_steps + 1) :
    _invoke_agent n ag task s now =
      ({ s with current_agent := some n, total_steps := s.total_steps + 1 },
       some .stepMaxSteps) := by
  unfold _invoke_agent
  split
  · rename_i s1 heq
    rw [step_eq] at heq
    simp only [Prod.mk.injEq] at heq
    rw [← heq.1]
  · rename_i s1 heq
    rw [step_eq] at heq
    simp only [Prod.mk.injEq] at heq
    rw [if_pos h] at heq
    cases heq.2
  · rename_i s1 heq
    rw [step_eq] at heq
    simp only [Prod.mk.injEq] at heq
    rw [if_pos h] at heq
    cases heq.2

theorem runAgents_append {E : Type} : ∀ (A B : List (List Char × AgentRef E))
    (task : List Char) (clock : Nat → List Char) (s : SupervisorState),
    runAgents (A ++ B) task clock s =
      match runAgents A task clock s with
      | (s1, none) => runAgents B task clock s1
      | (s1, some e) => (s1, some e) := by
  intro A
  induction A with
  | nil =>
    intro B task clock s
    rfl
  | cons p rest ih =>
    intro B task clock s
    rw [List.cons_append, runAgents_cons, runAgents_cons]
    rcases hinv : _invoke_agent p.1 p.2 task s (clock s.total_steps) with ⟨s1, eopt⟩
    cases eopt with
    | none => exact ih B task clock s1
    | some e => rfl

theorem length_filter_eq_one {α : Type} [DecidableEq α] :
    ∀ {l : List α} {a : α}, l.Nodup → a ∈ l →
      (l.filter (fun x => x = a)).length = 1 := by
  intro l
  induction l with
  | nil =>
    intro a _ h
    cases h
  | cons x t ih =>
    intro a hnd hmem
    rw [List.nodup_cons] at hnd
    rw [List.filter_cons]
    rcases List.mem_cons.mp hmem with h | h
    · subst h
      rw [if_pos (by simp)]
      have hf : t.filter (fun y => decide (y = a)) = [] := by
        rw [List.filter_eq_nil_iff]
        intro b hb
        simp only [decide_eq_true_eq]
        intro hba
        exact hnd.1 (hba ▸ hb)
      simp [hf]
    · have hxa : ¬(x = a) := fun hx => hnd.1 (hx ▸ h)
      rw [if_neg (by simpa using hxa)]
      exact ih hnd.2 h

/-- The agent loop on a well-behaved configuration: every agent runs,
every counter and audit trail grows exactly as the spec describes. -/
theorem runAgents_ok {E : Type} : ∀ (agents : List (List Char × AgentRef E))
    (task : List Char) (clock : Nat → List Char) (s : SupervisorState),
    (∀ p ∈ agents, agentBehaves task p) →
    s.total_steps + agents.length ≤ s.max_steps →
    s.retry_count ≤ s.max_retries →
    ∃ s', runAgents agents task clock s = (s', none) ∧
      s'.total_steps = s.total_steps + agents.length ∧
      s'.retry_count = s.retry_count ∧
      s'.max_steps = s.max_steps ∧
      s'.max_retries = s.max_retries ∧
      s'.stage = s.stage ∧
      s'.final_report = s.final_report ∧
      s'.task_input = s.task_input ∧
      s'.history.map (fun en => en.agent)
        = s.history.map (fun en => en.agent) ++ agents.map (fun q => q.1) ∧
      ∀ a : List Char, ∃ extra : List (List Char),
        notesGet s'.notes a = notesGet s.notes a ++ extra ∧
        extra.length = ((agents.map (fun q => q.1)).filter (fun x => x = a)).length := by
  intro agents
  induction agents with
  | nil =>
    intro task clock s hb hlen hr
    refine ⟨s, rfl, by simp, rfl, rfl, rfl, rfl, rfl, rfl, by simp, ?_⟩
    intro a
    exact ⟨[], by simp, by simp⟩
  | cons p rest ih =>
    intro task clock s hb hlen hr
    have hbp : agentBehaves task p := hb p (List.mem_cons_self p rest)
    have hstep1 : s.total_steps + 1 ≤ s.max_steps := by
      simp only [List.length_cons] at hlen
      omega
    obtain ⟨S1, hinv, hts, hrc, hms, hmr, hst, hfr, hti, ⟨en, hena, hhist⟩, msg, hnotes⟩ :=
      invoke_ok p task (clock s.total_steps) s hstep1 hr hbp
    have hb' : ∀ q ∈ rest, agentBehaves task q :=
      fun q hq => hb q (List.mem_cons_of_mem p hq)
    have hlen' : S1.total_steps + rest.length ≤ S1.max_steps := by
      rw [hts, hms]
      simp only [List.length_cons] at hlen
      omega
    have hr' : S1.retry_count ≤ S1.max_retries := by
      rw [hrc, hmr]
      exact hr
    obtain ⟨s', hrun, ihts, ihrc, ihms, ihmr, ihst, ihfr, ihti, ihhist, ihnotes⟩ :=
      ih task clock S1 hb' hlen' hr'
    refine ⟨s', ?_, ?_, ?_, ?_, ?_, ?_, ?_, ?_, ?_, ?_⟩
    · rw [runAgents_cons, hinv]
      exact hrun
    · rw [ihts, hts, List.length_cons]
      omega
    · rw [ihrc, hrc]
    · rw [ihms, hms]
    · rw [ihmr, hmr]
    · rw [ihst, hst]
    · rw [ihfr, hfr]
    · rw [ihti, hti]
    · rw [ihhist, hhist]
      simp [hena, List.append_assoc]
    · intro a
      obtain ⟨extra2, hx2, hlen2⟩ := ihnotes a
      rw [hnotes, notesGet_setdefaultAppend] at hx2
      by_cases ha : a = p.1
      · refine ⟨msg :: extra2, ?_, ?_⟩
        · rw [if_pos ha] at hx2
          rw [hx2, List.append_assoc]
          rfl
        · subst ha
          simp only [List.map_cons, List.filter_cons]
          rw [if_pos (by simp)]
          simp [hlen2]
      · refine ⟨extra2, ?_, ?_⟩
        · rw [if_neg ha] at hx2
          exact hx2
        · have ha' : ¬(p.1 = a) := fun h => ha h.symm
          simp only [List.map_cons, List.filter_cons]
          rw [if_neg (by simpa using ha')]
          exact hlen2

/-- A fully successful run of builder.py's orchestrator from a fresh
state. -/
theorem run_supervisor_ok {E : Type} (A V : List (List Char × AgentRef E))
    (task : List Char) (clock : Nat → List Char)
    (hb : ∀ p ∈ A ++ V, agentBehaves task p)
    (hlen : (A ++ V).length ≤ 75) :
    ∃ s', run_supervisor A V task clock none = (s', none) ∧
      s'.total_steps = (A ++ V).length ∧
      s'.retry_count = 0 ∧
      s'.history.map (fun en => en.agent) = (A ++ V).map (fun q => q.1) ∧
      ∀ a : List Char, (notesGet s'.notes a).length
        = (((A ++ V).map (fun q => q.1)).filter (fun x => x = a)).length := by
  cases hA : A.isEmpty with
  | true =>
    have hAnil : A = [] := List.isEmpty_iff.mp hA
    subst hAnil
    cases hV : V.isEmpty with
    | true =>
      have hVnil : V = [] := List.isEmpty_iff.mp hV
      subst hVnil
      exact ⟨_, rfl, rfl, rfl, rfl, fun a => rfl⟩
    | false =>
      obtain ⟨s2, hrun2, h2ts, h2rc, h2ms, h2mr, h2st, h2fr, h2ti, h2hist, h2notes⟩ :=
        runAgents_ok V task clock (_update_stage (initState task) .validation)
          (fun p hp => hb p (List.mem_append_right [] hp))
          (by
            show 0 + V.length ≤ 75
            simpa using hlen)
          (by show (0 : Nat) ≤ 2; omega)
      have heq : run_supervisor ([] : List (List Char × AgentRef E)) V task clock none =
          (_update_stage { _update_stage s2 .final with
              final_report := some (_compile_final_report (_update_stage s2 .final)
                (([] : List (List Char × AgentRef E)).map (fun q => q.1))
                (V.map (fun q => q.1))) } .done, none) := by
        simp only [run_supervisor, List.isEmpty_nil, hV, Bool.false_eq_true, reduceIte, hrun2]
      refine ⟨_, heq, ?_, ?_, ?_, ?_⟩
      · exact h2ts.trans (by simp [_update_stage, initState])
      · exact h2rc
      · exact h2hist.trans (by simp [_update_stage, initState])
      · intro a
        obtain ⟨extra, hx, hl⟩ := h2notes a
        have hx' : notesGet s2.notes a = extra := hx
        calc (notesGet s2.notes a).length
            = extra.length := by rw [hx']
          _ = ((V.map (fun q => q.1)).filter (fun x => x = a)).length := hl
          _ = (((([] : List (List Char × AgentRef E)) ++ V).map
                (fun q => q.1)).filter (fun x => x = a)).length := by
              simp
  | false =>
    have hbA : ∀ p ∈ A, agentBehaves task p :=
      fun p hp => hb p (List.mem_append_left V hp)
    obtain ⟨s1, hrun1, h1ts, h1rc, h1ms, h1mr, h1st, h1fr, h1ti, h1hist, h1notes⟩ :=
      runAgents_ok A task clock (_update_stage (initState task) .analysis)
        hbA
        (by
          show 0 + A.length ≤ 75
          rw [List.length_append] at hlen
          omega)
        (by show (0 : Nat) ≤ 2; omega)
    have h1ts' : s1.total_steps = A.length := by
      have : s1.total_steps = 0 + A.length := h1ts
      simpa using this
    have h1rc' : s1.retry_count = 0 := h1rc
    have h1ms' : s1.max_steps = 75 := h1ms
    have h1mr' : s1.max_retries = 2 := h1mr
    have h1hist' : s1.history.map (fun en => en.agent) = A.map (fun q => q.1) := by
      have : s1.history.map (fun en => en.agent)
          = [] ++ A.map (fun q => q.1) := h1hist
      simpa using this
    cases hV : V.isEmpty with
    | true =>
      have hVnil : V = [] := List.isEmpty_iff.mp hV
      subst hVnil
      have heq : run_supervisor A ([] : List (List Char × AgentRef E)) task clock none =
          (_update_stage { _update_stage s1 .final with
              final_report := some (_compile_final_report (_update_stage s1 .final)
                (A.map (fun q => q.1))
                (([] : List (List Char × AgentRef E)).map (fun q => q.1))) } .done, none) := by
        simp only [run_supervisor, hA, List.isEmpty_nil, Bool.false_eq_true, reduceIte, hrun1]
      refine ⟨_, heq, ?_, ?_, ?_, ?_⟩
      · exact h1ts'.trans (by simp)
      · exact h1rc'
      · exact h1hist'.trans (by simp)
      · intro a
        obtain ⟨extra, hx, hl⟩ := h1notes a
        have hx' : notesGet s1.notes a = extra := hx
        calc (notesGet s1.notes a).length
            = extra.length := by rw [hx']
          _ = ((A.map (fun q => q.1)).filter (fun x => x = a)).length := hl
          _ = (((A ++ ([] : List (List Char × AgentRef E))).map
                (fun q => q.1)).filter (fun x => x = a)).length := by
              simp
    | false =>
      have hbV : ∀ p ∈ V, agentBehaves task p :=
        fun p hp => hb p (List.mem_append_right A hp)
      obtain ⟨s2, hrun2, h2ts, h2rc, h2ms, h2mr, h2st, h2fr, h2ti, h2hist, h2notes⟩ :=
        runAgents_ok V task clock (_update_stage s1 .validation)
          hbV
          (by
            show s1.total_steps + V.length ≤ s1.max_steps
            rw [h1ts', h1ms']
            rw [List.length_append] at hlen
            omega)
          (by
            show s1.retry_count ≤ s1.max_retries
            rw [h1rc', h1mr']
            omega)
      have heq : run_supervisor A V task clock none =
          (_update_stage { _update_stage s2 .final with
              final_report := some (_compile_final_report (_update_stage s2 .final)
                (A.map (fun q => q.1)) (V.map (fun q => q.1))) } .done, none) := by
        simp only [run_supervisor, hA, hV, Bool.false_eq_true, reduceIte, hrun1, hrun2]
      refine ⟨_, heq, ?_, ?_, ?_, ?_⟩
      · have h2ts' : s2.total_steps = s1.total_steps + V.length := h2ts
        calc s2.total_steps
            = s1.total_steps + V.length := h2ts'
          _ = (A ++ V).length := by rw [h1ts', List.length_append]
      · have h2rc' : s2.retry_count = s1.retry_count := h2rc
        exact h2rc'.trans h1rc'
      · have h2hist' : s2.history.map (fun en => en.agent)
            = s1.history.map (fun en => en.agent) ++ V.map (fun q => q.1) := h2hist
        calc s2.history.map (fun en => en.agent)
            = s1.history.map (fun en => en.agent) ++ V.map (fun q => q.1) := h2hist'
          _ = (A ++ V).map (fun q => q.1) := by rw [h1hist', List.map_append]
      · intro a
        obtain ⟨extra2, hx2, hl2⟩ := h2notes a
        obtain ⟨extra1, hx1, hl1⟩ := h1notes a
        have hx2' : notesGet s2.notes a = notesGet s1.notes a ++ extra2 := hx2
        have hx1' : notesGet s1.notes a = extra1 := hx1
        calc (notesGet s2.notes a).length
            = extra1.length + extra2.length := by
              rw [hx2', hx1', List.length_append]
          _ = (((A ++ V).map (fun q => q.1)).filter (fun x => x = a)).length := by
              rw [hl1, hl2]
              simp [List.map_append, List.filter_append]

/-- Claim C1 (corrected): the original claim only asks that the
collaborators return without raising, but a returned value can still
make the snapshot serializer raise; with the strengthened hypothesis
that every agent's returned result also survives the serializer (and
distinct agent identifiers), the orchestrator runs every configured
agent exactly once in insertion order, ends with `total_steps` equal to
the number of agents, and records exactly one note per agent. -/
theorem claim1 {E : Type} (A V : List (List Char × AgentRef E))
    (task : List Char) (clock : Nat → List Char)
    (hb : ∀ p ∈ A ++ V, agentBehaves task p)
    (hlen : (A ++ V).length ≤ 75)
    (hnames : ((A ++ V).map (fun q => q.1)).Nodup) :
    (run_supervisor A V task clock none).2 = none ∧
    (run_supervisor A V task clock none).1.total_steps = (A ++ V).length ∧
    (run_supervisor A V task clock none).1.history.map (fun en => en.agent)
        = (A ++ V).map (fun q => q.1) ∧
    ∀ p ∈ A ++ V,
      (notesGet (run_supervisor A V task clock none).1.notes p.1).length = 1 := by
  obtain ⟨s', heq, hts, hrc, hhist, hnotes⟩ := run_supervisor_ok A V task clock hb hlen
  rw [heq]
  refine ⟨rfl, hts, hhist, ?_⟩
  intro p hp
  rw [hnotes p.1]
  exact length_filter_eq_one hnames (List.mem_map.mpr ⟨p, hp, rfl⟩)

/-- Witness for C1: one analysis agent and one validation agent, both
returning plain strings. -/
theorem claim1_witness :
    (run_supervisor okAgentsA okAgentsV "t".data clock0 none).2 = none ∧
    (run_supervisor okAgentsA okAgentsV "t".data clock0 none).1.total_steps
        = (okAgentsA ++ okAgentsV).length ∧
    (run_supervisor okAgentsA okAgentsV "t".data clock0 none).1.history.map
        (fun en => en.agent) = (okAgentsA ++ okAgentsV).map (fun q => q.1) ∧
    ∀ p ∈ okAgentsA ++ okAgentsV,
      (notesGet (run_supervisor okAgentsA okAgentsV "t".data clock0 none).1.notes
        p.1).length = 1 :=
  claim1 okAgentsA okAgentsV "t".data clock0
    (by
      intro p hp
      simp only [okAgentsA, okAgentsV, List.cons_append, List.nil_append,
        List.mem_cons, List.not_mem_nil, or_false] at hp
      rcases hp with h | h
      · subst h
        exact agentBehaves_stub _ _ _ (by decide)
      · subst h
        exact agentBehaves_stub _ _ _ (by decide))
    (by decide)
    (by decide)

/-- Counterexample for C1 as stated: both collaborators return normally,
yet the run aborts in the first snapshot (the returned set defeats
`sorted`), so only one step runs and the second agent never gets a
note. -/
theorem claim1_counterexample :
    (∀ p ∈ cexAgents, agentReturns "t".data p) ∧
    cexAgents.length = 2 ∧
    (run_supervisor cexAgents [] "t".data clock0 none).1.total_steps = 1 ∧
    (run_supervisor cexAgents [] "t".data clock0 none).2
        = some PipelineError.serializeError ∧
    notesGet (run_supervisor cexAgents [] "t".data clock0 none).1.notes "beta".data
        = [] := by
  refine ⟨?_, rfl, by decide, by decide, by decide⟩
  intro p hp
  simp only [cexAgents, List.mem_cons, List.not_mem_nil, or_false] at hp
  rcases hp with h | h
  · subst h
    exact ⟨poisonSet, rfl⟩
  · subst h
    exact ⟨.vstr "ok".data, rfl⟩

/-- Claim C3 (confirmed): with `max_steps = 2` and three agents, the
first two invocations succeed, the third fails inside `step()` with the
step-ceiling error before the third collaborator can matter (the run's
outcome is the same for every third collaborator), and in general
`step()` raises exactly when the incremented counter exceeds
`max_steps` or `retry_count` exceeds `max_retries`. -/
theorem claim3 {E : Type} (a1 a2 a3 : List Char × AgentRef E) (task : List Char)
    (clock : Nat → List Char) (s0 : SupervisorState)
    (hts : s0.total_steps = 0) (hms : s0.max_steps = 2)
    (hr : s0.retry_count ≤ s0.max_retries)
    (h1 : agentBehaves task a1) (h2 : agentBehaves task a2) :
    ((run_supervisor [a1, a2, a3] [] task clock (some s0)).2
        = some PipelineError.stepMaxSteps ∧
     (run_supervisor [a1, a2, a3] [] task clock (some s0)).1.total_steps = 3 ∧
     (run_supervisor [a1, a2, a3] [] task clock (some s0)).1.history.map
        (fun en => en.agent)
        = s0.history.map (fun en => en.agent) ++ [a1.1, a2.1] ∧
     ∀ b : AgentRef E,
       run_supervisor [a1, a2, (a3.1, b)] [] task clock (some s0)
         = run_supervisor [a1, a2, a3] [] task clock (some s0)) ∧
    ∀ (s : SupervisorState) (a : List Char),
      (s.step a).2.isSome = true ↔
        (s.total_steps + 1 > s.max_steps ∨ s.retry_count > s.max_retries) := by
  have hb12 : ∀ p ∈ [a1, a2], agentBehaves task p := by
    intro p hp
    rcases List.mem_cons.mp hp with h | h
    · subst h; exact h1
    · rcases List.mem_cons.mp h with h' | h'
      · subst h'; exact h2
      · cases h'
  obtain ⟨s', hrun12, hpts, hprc, hpms, hpmr, hpst, hpfr, hpti, hphist, hpnotes⟩ :=
    runAgents_ok [a1, a2] task clock (_update_stage s0 .analysis) hb12
      (by
        show s0.total_steps + 2 ≤ s0.max_steps
        rw [hts, hms])
      (by
        show s0.retry_count ≤ s0.max_retries
        exact hr)
  have hpts2 : s'.total_steps = s0.total_steps + 2 := hpts
  have hpms2 : s'.max_steps = s0.max_steps := hpms
  have hphist2 : s'.history.map (fun en => en.agent)
      = s0.history.map (fun en => en.agent) ++ [a1.1, a2.1] := hphist
  have hlt : s'.max_steps < s'.total_steps + 1 := by
    rw [hpms2, hpts2, hts, hms]
    omega
  have hrun3 : ∀ ag : AgentRef E,
      runAgents [a1, a2, (a3.1, ag)] task clock (_update_stage s0 .analysis) =
        ({ s' with current_agent := some a3.1, total_steps := s'.total_steps + 1 },
         some PipelineError.stepMaxSteps) := by
    intro ag
    have hsplit : [a1, a2, (a3.1, ag)] = [a1, a2] ++ [(a3.1, ag)] := rfl
    rw [hsplit, runAgents_append, hrun12]
    show runAgents [(a3.1, ag)] task clock s' = _
    rw [runAgents_cons]
    have hinv3 := invoke_maxSteps a3.1 ag task (clock s'.total_steps) s' hlt
    simp only [hinv3]
  have hrun3' : runAgents [a1, a2, a3] task clock (_update_stage s0 .analysis) =
      ({ s' with current_agent := some a3.1, total_steps := s'.total_steps + 1 },
       some PipelineError.stepMaxSteps) := by
    have hsplit : [a1, a2, a3] = [a1, a2] ++ [a3] := rfl
    rw [hsplit, runAgents_append, hrun12]
    show runAgents [a3] task clock s' = _
    rw [runAgents_cons]
    have hinv3 := invoke_maxSteps a3.1 a3.2 task (clock s'.total_steps) s' hlt
    simp only [hinv3]
  have hmain : run_supervisor [a1, a2, a3] [] task clock (some s0) =
      ({ s' with current_agent := some a3.1, total_steps := s'.total_steps + 1 },
       some PipelineError.stepMaxSteps) := by
    simp only [run_supervisor, List.isEmpty_cons, Bool.false_eq_true, reduceIte, hrun3']
  have hmainb : ∀ b : AgentRef E,
      run_supervisor [a1, a2, (a3.1, b)] [] task clock (some s0) =
        ({ s' with current_agent := some a3.1, total_steps := s'.total_steps + 1 },
         some PipelineError.stepMaxSteps) := by
    intro b
    simp only [run_supervisor, List.isEmpty_cons, Bool.false_eq_true, reduceIte, hrun3 b]
  refine ⟨⟨by rw [hmain], ?_, ?_, ?_⟩, ?_⟩
  · rw [hmain]
    show s'.total_steps + 1 = 3
    rw [hpts2, hts]
  · rw [hmain]
    show s'.history.map (fun en => en.agent) = _
    exact hphist2
  · intro b
    exact (hmainb b).trans hmain.symm
  · intro s a
    rw [step_eq]
    by_cases c1 : s.total_steps + 1 > s.max_steps
    · simp [c1]
    · by_cases c2 : s.retry_count > s.max_retries
      · simp [c1, c2]
      · simp [c1, c2]

/-- Witness for C3: three stub agents against a fresh state capped at
two steps. -/
theorem claim3_witness :
    (run_supervisor threeAgents [] "t".data clock0 (some (capState "t".data))).2
        = some PipelineError.stepMaxSteps ∧
    (run_supervisor threeAgents [] "t".data clock0
        (some (capState "t".data))).1.total_steps = 3 :=
  ⟨(claim3 ("one".data, unitStub (PyVal.vstr "n1.".data))
      ("two".data, unitStub (PyVal.vstr "n2.".data))
      ("three".data, unitStub (PyVal.vstr "n3.".data)) "t".data clock0
      (capState "t".data) rfl rfl (by decide)
      (agentBehaves_stub _ _ _ (by decide))
      (agentBehaves_stub _ _ _ (by decide))).1.1,
   (claim3 ("one".data, unitStub (PyVal.vstr "n1.".data))
      ("two".data, unitStub (PyVal.vstr "n2.".data))
      ("three".data, unitStub (PyVal.vstr "n3.".data)) "t".data clock0
      (capState "t".data) rfl rfl (by decide)
      (agentBehaves_stub _ _ _ (by decide))
      (agentBehaves_stub _ _ _ (by decide))).1.2.1⟩

/-! ## Claim C10: the retry ceiling is unreachable on the deterministic path -/

theorem invoke_retry {E : Type} (n : List Char) (ag : AgentRef E)
    (task now : List Char) (s : SupervisorState)
    (hr : s.retry_count ≤ s.max_retries) :
    (_invoke_agent n ag task s now).2 ≠ some PipelineError.stepMaxRetries ∧
    (((_invoke_agent n ag task s now).1.retry_count = s.retry_count ∧
      (_invoke_agent n ag task s now).1.max_retries = s.max_retries) ∨
     ((_invoke_agent n ag task s now).1.retry_count = s.retry_count + 1 ∧
      ∃ e, (_invoke_agent n ag task s now).2 = some (PipelineError.agentError e))) := by
  by_cases hc : s.max_steps < s.total_steps + 1
  · rw [invoke_maxSteps n ag task now s hc]
    exact ⟨by simp, Or.inl ⟨rfl, rfl⟩⟩
  · have hstep : s.step n =
        ({ s with current_agent := some n, total_steps := s.total_steps + 1 }, none) := by
      rw [step_eq, if_neg hc, if_neg (Nat.not_lt.mpr hr)]
    rcases hres : ag.ainvoke (_build_agent_message n task) with exc | r
    · have hkey : _invoke_agent n ag task s now =
          ({ s with
              current_agent := some n,
              total_steps := s.total_steps + 1,
              retry_count := s.retry_count + 1 },
           some (PipelineError.agentError exc)) := by
        unfold _invoke_agent
        simp only [hstep, hres]
      rw [hkey]
      exact ⟨by simp, Or.inr ⟨rfl, exc, rfl⟩⟩
    · rcases hser : _serialise (wrapResult (_summarise_agent_result r) r) with u | ser
      · have hkey : _invoke_agent n ag task s now =
            ({ s with
                current_agent := some n,
                total_steps := s.total_steps + 1,
                notes := notesSetdefaultAppend s.notes n (_summarise_agent_result r),
                decisions := s.decisions ++ [_summarise_agent_result r] },
             some PipelineError.serializeError) := by
          unfold _invoke_agent
          simp only [hstep, hres]
          simp only [snapshot_err _ _ _ _ hser]
          rfl
        rw [hkey]
        exact ⟨by simp, Or.inl ⟨rfl, rfl⟩⟩
      · have hb : agentBehaves task (n, ag) := by
          unfold agentBehaves callResult
          simp only [hres]
          rw [hser]
          rfl
        obtain ⟨S1, hinv, hts1, hrc1, hms1, hmr1, hother⟩ :=
          invoke_ok (n, ag) task now s (Nat.not_lt.mp hc) hr hb
        have hinv' : _invoke_agent n ag task s now = (S1, none) := hinv
        rw [hinv']
        exact ⟨by simp, Or.inl ⟨hrc1, hmr1⟩⟩

theorem runAgents_retry {E : Type} : ∀ (agents : List (List Char × AgentRef E))
    (task : List Char) (clock : Nat → List Char) (s : SupervisorState),
    s.retry_count ≤ s.max_retries →
    (runAgents agents task clock s).2 ≠ some PipelineError.stepMaxRetries ∧
    (((runAgents agents task clock s).1.retry_count = s.retry_count ∧
      (runAgents agents task clock s).1.max_retries = s.max_retries) ∨
     ((runAgents agents task clock s).1.retry_count = s.retry_count + 1 ∧
      ∃ e, (runAgents agents task clock s).2 = some (PipelineError.agentError e))) := by
  intro agents
  induction agents with
  | nil =>
    intro task clock s hr
    exact ⟨by simp [runAgents], Or.inl ⟨rfl, rfl⟩⟩
  | cons p rest ih =>
    intro task clock s hr
    rw [runAgents_cons]
    obtain ⟨hne, hcase⟩ := invoke_retry p.1 p.2 task (clock s.total_steps) s hr
    rcases hinv : _invoke_agent p.1 p.2 task s (clock s.total_steps) with ⟨s1, eopt⟩
    rw [hinv] at hne hcase
    cases eopt with
    | none =>
      rcases hcase with ⟨hrc, hmr⟩ | ⟨hrc, e, habs⟩
      · have hrc' : s1.retry_count = s.retry_count := hrc
        have hmr' : s1.max_retries = s.max_retries := hmr
        obtain ⟨ihne, ihcase⟩ := ih task clock s1 (by rw [hrc', hmr']; exact hr)
        refine ⟨ihne, ?_⟩
        rcases ihcase with ⟨i1, i2⟩ | ⟨i1, e2, i2⟩
        · exact Or.inl ⟨i1.trans hrc', i2.trans hmr'⟩
        · exact Or.inr ⟨i1.trans (by rw [hrc']), e2, i2⟩
      · exact absurd habs (by simp)
    | some e =>
      refine ⟨hne, ?_⟩
      rcases hcase with ⟨h1, h2⟩ | ⟨h1, e2, h2⟩
      · exact Or.inl ⟨h1, h2⟩
      · exact Or.inr ⟨h1, e2, h2⟩

/-- Claim C10 (confirmed): a run from a fresh state can never trip the
"Too many retries" branch of `step()`; its retry counter stays 0, except
that a collaborator exception leaves it at exactly 1 while aborting the
run with that same exception. -/
theorem claim10 {E : Type} (A V : List (List Char × AgentRef E))
    (task : List Char) (clock : Nat → List Char) :
    (run_supervisor A V task clock none).2 ≠ some PipelineError.stepMaxRetries ∧
    ((run_supervisor A V task clock none).1.retry_count = 0 ∨
     ((run_supervisor A V task clock none).1.retry_count = 1 ∧
      ∃ e, (run_supervisor A V task clock none).2
        = some (PipelineError.agentError e))) := by
  rcases hfin : run_supervisor A V task clock none with ⟨sf, ef⟩
  cases hA : A.isEmpty with
  | true =>
    have hAnil := List.isEmpty_iff.mp hA
    subst hAnil
    cases hV : V.isEmpty with
    | true =>
      have hVnil := List.isEmpty_iff.mp hV
      subst hVnil
      simp only [run_supervisor, List.isEmpty_nil, reduceIte] at hfin
      injection hfin with h1 h2
      subst h1
      subst h2
      refine ⟨fun h => Option.noConfusion h, Or.inl ?_⟩
      show (initState task).retry_count = 0
      rfl
    | false =>
      obtain ⟨hne2, hcase2⟩ := runAgents_retry V task clock
        (_update_stage (initState task) .validation) (by show (0 : Nat) ≤ 2; omega)
      rcases hrv : runAgents V task clock (_update_stage (initState task) .validation)
        with ⟨s2, e2⟩
      rw [hrv] at hne2 hcase2
      simp only [run_supervisor, List.isEmpty_nil, hV, Bool.false_eq_true,
        reduceIte, hrv] at hfin
      cases e2 with
      | none =>
        injection hfin with h1 h2
        subst h1
        subst h2
        refine ⟨fun h => Option.noConfusion h, Or.inl ?_⟩
        show s2.retry_count = 0
        rcases hcase2 with ⟨h3, _⟩ | ⟨_, e, habs⟩
        · exact h3
        · exact absurd habs (by simp)
      | some e =>
        injection hfin with h1 h2
        subst h1
        subst h2
        refine ⟨hne2, ?_⟩
        rcases hcase2 with ⟨h3, _⟩ | ⟨h3, e4, h4⟩
        · exact Or.inl h3
        · exact Or.inr ⟨h3, e4, h4⟩
  | false =>
    obtain ⟨hne1, hcase1⟩ := runAgents_retry A task clock
      (_update_stage (initState task) .analysis) (by show (0 : Nat) ≤ 2; omega)
    rcases hra : runAgents A task clock (_update_stage (initState task) .analysis)
      with ⟨s1, e1⟩
    rw [hra] at hne1 hcase1
    cases e1 with
    | some e =>
      simp only [run_supervisor, hA, Bool.false_eq_true, reduceIte, hra] at hfin
      injection hfin with h1 h2
      subst h1
      subst h2
      refine ⟨hne1, ?_⟩
      rcases hcase1 with ⟨h3, _⟩ | ⟨h3, e4, h4⟩
      · exact Or.inl h3
      · exact Or.inr ⟨h3, e4, h4⟩
    | none =>
      rcases hcase1 with ⟨h3, h4⟩ | ⟨_, e4, habs⟩
      · have h3' : s1.retry_count = 0 := h3
        have h4' : s1.max_retries = 2 := h4
        cases hV : V.isEmpty with
        | true =>
          have hVnil := List.isEmpty_iff.mp hV
          subst hVnil
          simp only [run_supervisor, hA, Bool.false_eq_true, reduceIte,
            List.isEmpty_nil, hra] at hfin
          injection hfin with h1 h2
          subst h1
          subst h2
          exact ⟨fun h => Option.noConfusion h, Or.inl h3'⟩
        | false =>
          obtain ⟨hne2, hcase2⟩ := runAgents_retry V task clock
            (_update_stage s1 .validation)
            (by show s1.retry_count ≤ s1.max_retries; rw [h3', h4']; omega)
          rcases hrv : runAgents V task clock (_update_stage s1 .validation)
            with ⟨s2, e2⟩
          rw [hrv] at hne2 hcase2
          simp only [run_supervisor, hA, hV, Bool.false_eq_true, reduceIte,
            hra, hrv] at hfin
          cases e2 with
          | none =>
            injection hfin with h1 h2
            subst h1
            subst h2
            refine ⟨fun h => Option.noConfusion h, Or.inl ?_⟩
            show s2.retry_count = 0
            rcases hcase2 with ⟨h5, _⟩ | ⟨_, e6, habs⟩
            · exact h5.trans h3'
            · exact absurd habs (by simp)
          | some e =>
            injection hfin with h1 h2
            subst h1
            subst h2
            refine ⟨hne2, ?_⟩
            rcases hcase2 with ⟨h5, _⟩ | ⟨h5, e6, h6⟩
            · exact Or.inl (h5.trans h3')
            · refine Or.inr ⟨?_, e6, h6⟩
              rw [h5]
              show s1.retry_count + 1 = 1
              rw [h3']
      · exact absurd habs (by simp)

/-! ## Claim C6: what the counters actually count -/

theorem invoke_maxRetries {E : Type} (n : List Char) (ag : AgentRef E)
    (task now : List Char) (s : SupervisorState)
    (h1 : ¬(s.max_steps < s.total_steps + 1)) (h2 : s.max_retries < s.retry_count) :
    _invoke_agent n ag task s now =
      ({ s with current_agent := some n, total_steps := s.total_steps + 1 },
       some PipelineError.stepMaxRetries) := by
  unfold _invoke_agent
  split
  · rename_i s1 heq
    rw [step_eq] at heq
    simp only [Prod.mk.injEq] at heq
    rw [if_neg h1, if_pos h2] at heq
    cases heq.2
  · rename_i s1 heq
    rw [step_eq] at heq
    simp only [Prod.mk.injEq] at heq
    rw [← heq.1]
  · rename_i s1 heq
    rw [step_eq] at heq
    simp only [Prod.mk.injEq] at heq
    rw [if_neg h1, if_pos h2] at heq
    cases heq.2

theorem invoke_counts {E : Type} (n : List Char) (ag : AgentRef E)
    (task now : List Char) (s : SupervisorState) :
    (_invoke_agent n ag task s now).1.total_steps = s.total_steps + 1 ∧
    ∀ a : List Char,
      (notesGet (_invoke_agent n ag task s now).1.notes a).length
        = (notesGet s.notes a).length +
          (if a = n ∧ reachedLog (_invoke_agent n ag task s now).2 = true
           then 1 else 0) := by
  by_cases hc : s.max_steps < s.total_steps + 1
  · rw [invoke_maxSteps n ag task now s hc]
    exact ⟨rfl, fun a => by simp [reachedLog]⟩
  · by_cases hc2 : s.max_retries < s.retry_count
    · rw [invoke_maxRetries n ag task now s hc hc2]
      exact ⟨rfl, fun a => by simp [reachedLog]⟩
    · have hstep : s.step n =
          ({ s with current_agent := some n, total_steps := s.total_steps + 1 },
           none) := by
        rw [step_eq, if_neg hc, if_neg hc2]
      rcases hres : ag.ainvoke (_build_agent_message n task) with exc | r
      · have hkey : _invoke_agent n ag task s now =
            ({ s with
                current_agent := some n,
                total_steps := s.total_steps + 1,
                retry_count := s.retry_count + 1 },
             some (PipelineError.agentError exc)) := by
          unfold _invoke_agent
          simp only [hstep, hres]
        rw [hkey]
        exact ⟨rfl, fun a => by simp [reachedLog]⟩
      · rcases hser : _serialise (wrapResult (_summarise_agent_result r) r) with u | ser
        · have hkey : _invoke_agent n ag task s now =
              ({ s with
                  current_agent := some n,
                  total_steps := s.total_steps + 1,
                  notes := notesSetdefaultAppend s.notes n (_summarise_agent_result r),
                  decisions := s.decisions ++ [_summarise_agent_result r] },
               some PipelineError.serializeError) := by
            unfold _invoke_agent
            simp only [hstep, hres]
            simp only [snapshot_err _ _ _ _ hser]
            rfl
          rw [hkey]
          refine ⟨rfl, fun a => ?_⟩
          show (notesGet (notesSetdefaultAppend s.notes n (_summarise_agent_result r))
              a).length = _
          rw [notesGet_setdefaultAppend]
          by_cases ha : a = n
          · simp [ha, reachedLog]
          · simp [ha, reachedLog]
        · have hb : agentBehaves task (n, ag) := by
            unfold agentBehaves callResult
            simp only [hres]
            rw [hser]
            rfl
          obtain ⟨S1, hinv, hts1, _, _, _, _, _, _, ⟨en, hena, hhist⟩, msg, hnotes1⟩ :=
            invoke_ok (n, ag) task now s (Nat.not_lt.mp hc) (Nat.not_lt.mp hc2) hb
          have hinv' : _invoke_agent n ag task s now = (S1, none) := hinv
          rw [hinv']
          refine ⟨hts1, fun a => ?_⟩
          show (notesGet S1.notes a).length = _
          rw [hnotes1, notesGet_setdefaultAppend]
          by_cases ha : a = n
          · simp [ha, reachedLog]
          · simp [ha, reachedLog]

/-- Claim C6 (corrected): `total_steps` counts every `step()` call, also
the failing ones, and `notes[agent]` counts the invocations of that
agent that got past the collaborator call (including those whose
snapshot serialization then raised), not only the fully successful
ones. -/
theorem claim6 {E : Type} (s : SupervisorState) (trace : List (TraceCall E)) :
    (runTrace s trace).1.total_steps = s.total_steps + trace.length ∧
    ∀ a : List Char,
      (notesGet (runTrace s trace).1.notes a).length
        = (notesGet s.notes a).length +
          ((runTrace s trace).2.filter
            (fun o => o.1 == a && reachedLog o.2)).length := by
  induction trace generalizing s with
  | nil =>
    exact ⟨by simp [runTrace], fun a => by simp [runTrace]⟩
  | cons c cs ih =>
    obtain ⟨hts, hnotes⟩ := invoke_counts c.agent_name c.agent c.task_input c.now s
    rcases hinv : _invoke_agent c.agent_name c.agent c.task_input s c.now with ⟨s1, e⟩
    rw [hinv] at hts hnotes
    obtain ⟨ihts, ihnotes⟩ := ih s1
    rcases hrec : runTrace s1 cs with ⟨s2, outs⟩
    rw [hrec] at ihts ihnotes
    have hkey : runTrace s (c :: cs) = (s2, (c.agent_name, e) :: outs) := by
      simp only [runTrace, hinv, hrec]
    rw [hkey]
    constructor
    · show s2.total_steps = _
      have ihts' : s2.total_steps = s1.total_steps + cs.length := ihts
      have hts' : s1.total_steps = s.total_steps + 1 := hts
      rw [ihts', hts', List.length_cons]
      omega
    · intro a
      have ihn' : (notesGet s2.notes a).length
          = (notesGet s1.notes a).length +
            (outs.filter (fun o => o.1 == a && reachedLog o.2)).length := ihnotes a
      have hn' : (notesGet s1.notes a).length
          = (notesGet s.notes a).length +
            (if a = c.agent_name ∧ reachedLog e = true then 1 else 0) := hnotes a
      show (notesGet s2.notes a).length = _
      rw [ihn', hn', List.filter_cons]
      by_cases hcond : ((c.agent_name, e).1 == a && reachedLog (c.agent_name, e).2) = true
      · rw [if_pos hcond]
        have hpair : a = c.agent_name ∧ reachedLog e = true := by
          simp only [Bool.and_eq_true, beq_iff_eq] at hcond
          exact ⟨hcond.1.symm, hcond.2⟩
        rw [if_pos hpair, List.length_cons]
        omega
      · rw [if_neg hcond]
        have hpair : ¬(a = c.agent_name ∧ reachedLog e = true) := by
          intro hand
          exact hcond (by simp [hand.1, hand.2])
        rw [if_neg hpair]
        omega

/-- Counterexample for C6 as stated: against a state capped at one step,
a serializer-failing first call and a step-failing second call leave
`total_steps` at 2 with only one successful `step()`, and one `alpha`
note with zero fully-successful `alpha` invocations. -/
theorem claim6_counterexample :
    (runTrace (oneStepState "t".data) c6trace).1.total_steps = 2 ∧
    ((runTrace (oneStepState "t".data) c6trace).2.filter
        (fun o => stepSucceeded o.2)).length = 1 ∧
    (notesGet (runTrace (oneStepState "t".data) c6trace).1.notes
        "alpha".data).length = 1 ∧
    ((runTrace (oneStepState "t".data) c6trace).2.filter
        (fun o => o.1 == "alpha".data && o.2 == none)).length = 0 :=
  ⟨by decide, by decide, by decide, by decide⟩

/-! ## Claim C9: the workflow.py variant always dies after the snapshot -/

theorem wfInvoke_never_none {E : Type} (n : List Char) (ag : AgentRef E)
    (task now : List Char) (s : SupervisorState) :
    (wfInvokeAgent n ag task s now).2 ≠ none ∧
    (wfInvokeAgent n ag task s now).1.final_report = s.final_report := by
  unfold wfInvokeAgent
  split
  · rename_i s1 heq
    have hs1 : s1 = { s with
        current_agent := some n,
        total_steps := s.total_steps + 1 } := by
      have h2 := congrArg Prod.fst heq
      rw [step_eq] at h2
      exact h2.symm
    refine ⟨fun h => Option.noConfusion h, ?_⟩
    show s1.final_report = s.final_report
    rw [hs1]
  · rename_i s1 heq
    have hs1 : s1 = { s with
        current_agent := some n,
        total_steps := s.total_steps + 1 } := by
      have h2 := congrArg Prod.fst heq
      rw [step_eq] at h2
      exact h2.symm
    refine ⟨fun h => Option.noConfusion h, ?_⟩
    show s1.final_report = s.final_report
    rw [hs1]
  · rename_i s1 heq
    have hs1 : s1 = { s with
        current_agent := some n,
        total_steps := s.total_steps + 1 } := by
      have h2 := congrArg Prod.fst heq
      rw [step_eq] at h2
      exact h2.symm
    rcases hres : ag.ainvoke (wfBuildAgentMessage n task) with exc | r
    · simp only [hres]
      refine ⟨fun h => Option.noConfusion h, ?_⟩
      show s1.final_report = s.final_report
      rw [hs1]
    · simp only [hres]
      rcases hser : _serialise (wrapResult (_summarise_agent_result r) r) with u | ser
      · simp only [snapshot_err _ _ _ _ hser]
        refine ⟨fun h => Option.noConfusion h, ?_⟩
        show s1.final_report = s.final_report
        rw [hs1]
      · simp only [snapshot_ok _ _ _ _ hser]
        refine ⟨fun h => Option.noConfusion h, ?_⟩
        show s1.final_report = s.final_report
        rw [hs1]

theorem wfRunAgents_err {E : Type} : ∀ (agents : List (List Char × AgentRef E))
    (task : List Char) (clock : Nat → List Char) (s : SupervisorState),
    agents ≠ [] →
    (wfRunAgents agents task clock s).2 ≠ none ∧
    (wfRunAgents agents task clock s).1.final_report = s.final_report := by
  intro agents
  cases agents with
  | nil =>
    intro task clock s h
    cases h rfl
  | cons p rest =>
    intro task clock s hne0
    rw [wfRunAgents_cons]
    obtain ⟨hne, hfr⟩ := wfInvoke_never_none p.1 p.2 task (clock s.total_steps) s
    rcases hinv : wfInvokeAgent p.1 p.2 task s (clock s.total_steps) with ⟨s1, eopt⟩
    rw [hinv] at hne hfr
    cases eopt with
    | none => exact absurd rfl hne
    | some e => exact ⟨fun h => Option.noConfusion h, hfr⟩

/-- Claim C9 (corrected): in the workflow.py variant a successful
collaborator call raises `AttributeError` at `state.add_to_history` only
when the snapshot serialization also succeeds (a serializer `TypeError`
fires first and skips the history entry); with that extra hypothesis the
invocation ends in `AttributeError` after recording the note, decision
and history entry, and any configuration with at least one agent aborts
with an error and never populates `final_report`. -/
theorem claim9 {E : Type} (agent_name : List Char) (agent : AgentRef E)
    (task now : List Char) (state : SupervisorState) (r : PyVal)
    (hstep : (state.step agent_name).2 = none)
    (hcall : agent.ainvoke (wfBuildAgentMessage agent_name task) = Except.ok r)
    (hser : isOkE (_serialise (wrapResult (_summarise_agent_result r) r)) = true) :
    (wfInvokeAgent agent_name agent task state now).2
        = some PipelineError.attributeError ∧
    notesGet (wfInvokeAgent agent_name agent task state now).1.notes agent_name
        = notesGet state.notes agent_name ++ [_summarise_agent_result r] ∧
    (wfInvokeAgent agent_name agent task state now).1.decisions
        = state.decisions ++ [_summarise_agent_result r] ∧
    (wfInvokeAgent agent_name agent task state now).1.history.length
        = state.history.length + 1 ∧
    ∀ (A V : List (List Char × AgentRef E)) (task2 : List Char)
      (clock : Nat → List Char),
      A ≠ [] ∨ V ≠ [] →
      (wfRunSupervisor A V task2 clock none).2 ≠ none ∧
      (wfRunSupervisor A V task2 clock none).1.final_report = none := by
  rcases hser2 : _serialise (wrapResult (_summarise_agent_result r) r) with u | ser
  · rw [hser2] at hser
    simp [isOkE] at hser
  · have hkey : wfInvokeAgent agent_name agent task state now =
        ({ state with
            current_agent := some agent_name,
            total_steps := state.total_steps + 1,
            notes := notesSetdefaultAppend state.notes agent_name
              (_summarise_agent_result r),
            decisions := state.decisions ++ [_summarise_agent_result r],
            history := state.history ++
              [⟨state.total_steps + 1, agent_name, ser,
                notesGet (notesSetdefaultAppend state.notes agent_name
                  (_summarise_agent_result r)) agent_name, now⟩] },
         some PipelineError.attributeError) := by
      unfold wfInvokeAgent
      split
      · rename_i s1 heq
        rw [heq] at hstep
        simp at hstep
      · rename_i s1 heq
        rw [heq] at hstep
        simp at hstep
      · rename_i s1 heq
        have hs1 : s1 = { state with
            current_agent := some agent_name,
            total_steps := state.total_steps + 1 } := by
          have h2 := congrArg Prod.fst heq
          rw [step_eq] at h2
          exact h2.symm
        subst hs1
        simp only [hcall]
        rw [snapshot_ok _ _ _ _ hser2]
        rfl
    refine ⟨by rw [hkey], ?_, by rw [hkey], ?_, ?_⟩
    · rw [hkey]
      show notesGet (notesSetdefaultAppend state.notes agent_name
          (_summarise_agent_result r)) agent_name = _
      rw [notesGet_setdefaultAppend, if_pos rfl]
    · rw [hkey]
      show (state.history ++ [_]).length = _
      rw [List.length_append]
      rfl
    · intro A V task2 clock hAV
      cases hA : A.isEmpty with
      | false =>
        have hAne : A ≠ [] := List.isEmpty_eq_false.mp hA
        obtain ⟨hne1, hfr1⟩ := wfRunAgents_err A task2 clock
          (_update_stage (initState task2) .analysis) hAne
        rcases hra : wfRunAgents A task2 clock (_update_stage (initState task2) .analysis)
          with ⟨s1, e1⟩
        rw [hra] at hne1 hfr1
        cases e1 with
        | none => exact absurd rfl hne1
        | some e =>
          have hmain : wfRunSupervisor A V task2 clock none = (s1, some e) := by
            simp only [wfRunSupervisor, hA, Bool.false_eq_true, reduceIte, hra]
          rw [hmain]
          exact ⟨fun h => Option.noConfusion h, hfr1⟩
      | true =>
        have hAnil := List.isEmpty_iff.mp hA
        subst hAnil
        have hVne : V ≠ [] := by
          rcases hAV with h | h
          · cases h rfl
          · exact h
        have hV : V.isEmpty = false := by
          cases hvv : V.isEmpty
          · rfl
          · exact absurd (List.isEmpty_iff.mp hvv) hVne
        obtain ⟨hne2, hfr2⟩ := wfRunAgents_err V task2 clock
          (_update_stage (initState task2) .validation) hVne
        rcases hrv : wfRunAgents V task2 clock
          (_update_stage (initState task2) .validation) with ⟨s2, e2⟩
        rw [hrv] at hne2 hfr2
        cases e2 with
        | none => exact absurd rfl hne2
        | some e =>
          have hmain : wfRunSupervisor ([] : List (List Char × AgentRef E)) V task2
              clock none = (s2, some e) := by
            simp only [wfRunSupervisor, List.isEmpty_nil, reduceIte, hV,
              Bool.false_eq_true, hrv]
          rw [hmain]
          exact ⟨fun h => Option.noConfusion h, hfr2⟩

/-- Witness for C9: one stub agent returning a plain string under the
workflow.py variant. -/
theorem claim9_witness :
    ((initState "t".data).step "alpha".data).2 = none ∧
    (wfInvokeAgent "alpha".data (unitStub (PyVal.vstr "ok".data)) "t".data
        (initState "t".data) []).2 = some PipelineError.attributeError ∧
    (wfRunSupervisor [("alpha".data, unitStub (PyVal.vstr "ok".data))]
        ([] : List (List Char × AgentRef Unit)) "t".data clock0 none).1.final_report
        = none :=
  ⟨by decide,
   (claim9 "alpha".data (unitStub (PyVal.vstr "ok".data)) "t".data []
      (initState "t".data) (PyVal.vstr "ok".data) (by decide) rfl (by decide)).1,
   ((claim9 "alpha".data (unitStub (PyVal.vstr "ok".data)) "t".data []
      (initState "t".data) (PyVal.vstr "ok".data) (by decide) rfl (by decide)).2.2.2.2
      [("alpha".data, unitStub (PyVal.vstr "ok".data))] [] "t".data clock0
      (Or.inl (by simp))).2⟩

/-- Counterexample for C9 as stated: a collaborator that returns the
heterogeneous set makes the invocation die in the serializer with
`TypeError`, not `AttributeError`, and no history entry is recorded. -/
theorem claim9_counterexample :
    (unitStub poisonSet).ainvoke (wfBuildAgentMessage "alpha".data "t".data)
        = Except.ok poisonSet ∧
    (wfInvokeAgent "alpha".data (unitStub poisonSet) "t".data (initState "t".data)
        []).2 = some PipelineError.serializeError ∧
    (PipelineError.serializeError : PipelineError Unit) ≠ PipelineError.attributeError ∧
    (wfInvokeAgent "alpha".data (unitStub poisonSet) "t".data (initState "t".data)
        []).1.history = [] :=
  ⟨rfl, by decide, by decide, by decide⟩

/-! ## Claim C5: the snapshot serializer -/

theorem pvSize_pos : ∀ v : PyVal, 1 ≤ pvSize v := by
  intro v
  cases v <;> simp [pvSize]

theorem pvlSize_pos : ∀ l : PyList, 1 ≤ pvlSize l := by
  intro l
  cases l with
  | nil => simp [pvlSize]
  | cons x xs =>
    simp [pvlSize]
    omega

theorem pvkSize_pos : ∀ kvs : PyKVs, 1 ≤ pvkSize kvs := by
  intro kvs
  cases kvs with
  | nil => simp [pvkSize]
  | cons k v tl =>
    simp [pvkSize]
    omega

theorem exc_bind_ok {ε α β : Type} (a : α) (f : α → Except ε β) :
    (Except.ok (ε := ε) a >>= f) = f a := rfl

theorem pvAll_imp {P Q : PyVal → Bool} (h : ∀ a, P a = true → Q a = true) :
    ∀ l : PyList, pvAll P l = true → pvAll Q l = true
  | .nil, _ => rfl
  | .cons x xs, hl => by
    rw [pvAll] at hl ⊢
    rw [Bool.and_eq_true] at hl ⊢
    exact ⟨h x hl.1, pvAll_imp h xs hl.2⟩

theorem allNumeric_iff : ∀ l : PyList,
    allNumeric l = pvAll (fun v => (numVal v).isSome) l
  | .nil => rfl
  | .cons x xs => by rw [allNumeric, pvAll, allNumeric_iff xs]

theorem allStrings_iff : ∀ l : PyList, allStrings l = pvAll isStrPrim l
  | .nil => rfl
  | .cons x xs => by rw [allStrings, pvAll, allStrings_iff xs]

theorem goodList_iff : ∀ l : PyList, goodList l = pvAll goodVal l
  | .nil => rfl
  | .cons x xs => by rw [goodList, pvAll, goodList_iff xs]

theorem pyLt_num_ok {a b : PyVal} (ha : (numVal a).isSome = true)
    (hb : (numVal b).isSome = true) : isOkE (pyLt a b) = true := by
  cases hna : numVal a with
  | none => rw [hna] at ha; cases ha
  | some x =>
    cases hnb : numVal b with
    | none => rw [hnb] at hb; cases hb
    | some y =>
      unfold pyLt
      simp only [hna, hnb]
      rfl

theorem pyLt_str_ok {a b : PyVal} (ha : isStrPrim a = true)
    (hb : isStrPrim b = true) : isOkE (pyLt a b) = true := by
  cases a <;> cases b <;> first | rfl | simp [isStrPrim] at ha hb

theorem num_good : ∀ a : PyVal, (numVal a).isSome = true → goodVal a = true := by
  intro a h
  cases a <;> first | rfl | simp [numVal] at h

theorem str_good : ∀ a : PyVal, isStrPrim a = true → goodVal a = true := by
  intro a h
  cases a <;> first | rfl | simp [isStrPrim] at h

theorem pyInsert_ok (P : PyVal → Bool)
    (hP : ∀ a b, P a = true → P b = true → isOkE (pyLt a b) = true) :
    ∀ (l : PyList) (x : PyVal), P x = true → pvAll P l = true →
    ∃ l', pyInsert x l = .ok l' ∧ pvAll P l' = true ∧
      pvlSize l' = 1 + pvSize x + pvlSize l
  | .nil, x, hx, _ =>
    ⟨.cons x .nil, rfl, by simp [pvAll, hx], rfl⟩
  | .cons y ys, x, hx, hl => by
    have hl' : (P y && pvAll P ys) = true := hl
    rw [Bool.and_eq_true] at hl'
    have hlt := hP x y hx hl'.1
    cases hpy : pyLt x y with
    | error u => rw [hpy] at hlt; cases hlt
    | ok c =>
      cases c with
      | true =>
        refine ⟨.cons x (.cons y ys), ?_, ?_, rfl⟩
        · simp only [pyInsert, hpy, exc_bind_ok]
          rfl
        · simp [pvAll, hx, hl'.1, hl'.2]
      | false =>
        obtain ⟨l', hins, hall, hsize⟩ := pyInsert_ok P hP ys x hx hl'.2
        refine ⟨.cons y l', ?_, ?_, ?_⟩
        · simp only [pyInsert, hpy, hins, exc_bind_ok]
          rfl
        · simp [pvAll, hl'.1, hall]
        · rw [pvlSize, hsize, pvlSize]
          omega

theorem pySorted_ok (P : PyVal → Bool)
    (hP : ∀ a b, P a = true → P b = true → isOkE (pyLt a b) = true) :
    ∀ l : PyList, pvAll P l = true →
    ∃ l', pySorted l = .ok l' ∧ pvAll P l' = true ∧ pvlSize l' = pvlSize l
  | .nil, _ => ⟨.nil, rfl, rfl, rfl⟩
  | .cons x xs, hl => by
    have hl' : (P x && pvAll P xs) = true := hl
    rw [Bool.and_eq_true] at hl'
    obtain ⟨m, hm, hmall, hmsize⟩ := pySorted_ok P hP xs hl'.2
    obtain ⟨l', hins, hall, hsize⟩ := pyInsert_ok P hP m x hl'.1 hmall
    refine ⟨l', ?_, hall, ?_⟩
    · simp only [pySorted, hm, hins, exc_bind_ok]
    · rw [hsize, hmsize]
      rfl

theorem pySorted_small : ∀ l : PyList, atMostOne l = true → pySorted l = .ok l
  | .nil, _ => rfl
  | .cons x .nil, _ => rfl
  | .cons x (.cons y ys), h => by simp [atMostOne] at h

theorem pySorted_sortable {l : PyList} (hs : sortableElems l = true)
    (hg : goodList l = true) :
    ∃ l', pySorted l = .ok l' ∧ goodList l' = true ∧ pvlSize l' = pvlSize l := by
  unfold sortableElems at hs
  rcases Bool.or_eq_true_iff.mp hs with hs1 | hstr
  · rcases Bool.or_eq_true_iff.mp hs1 with hone | hnum
    · exact ⟨l, pySorted_small l hone, hg, rfl⟩
    · have hnum' : pvAll (fun v => (numVal v).isSome) l = true := by
        rw [← allNumeric_iff]
        exact hnum
      obtain ⟨l', h1, h2, h3⟩ :=
        pySorted_ok _ (fun a b ha hb => pyLt_num_ok ha hb) l hnum'
      refine ⟨l', h1, ?_, h3⟩
      rw [goodList_iff]
      exact pvAll_imp num_good l' h2
  · have hstr' : pvAll isStrPrim l = true := by
      rw [← allStrings_iff]
      exact hstr
    obtain ⟨l', h1, h2, h3⟩ :=
      pySorted_ok _ (fun a b ha hb => pyLt_str_ok ha hb) l hstr'
    refine ⟨l', h1, ?_, h3⟩
    rw [goodList_iff]
    exact pvAll_imp str_good l' h2

theorem serialiseFuel_ok : ∀ fuel : Nat,
    (∀ v : PyVal, goodVal v = true → pvSize v ≤ fuel →
        ∃ r, serialiseFuel fuel v = .ok r ∧ composedVal r = true) ∧
    (∀ l : PyList, goodList l = true → pvlSize l ≤ fuel →
        ∃ r, serialiseListFuel fuel l = .ok r ∧ composedList r = true) ∧
    (∀ kvs : PyKVs, goodKVs kvs = true → pvkSize kvs ≤ fuel →
        ∃ r, serialiseKVsFuel fuel kvs = .ok r ∧ composedKVs r = true) := by
  intro fuel
  induction fuel with
  | zero =>
    refine ⟨?_, ?_, ?_⟩
    · intro v _ hsz
      exact absurd hsz (by have := pvSize_pos v; omega)
    · intro l _ hsz
      exact absurd hsz (by have := pvlSize_pos l; omega)
    · intro kvs _ hsz
      exact absurd hsz (by have := pvkSize_pos kvs; omega)
  | succ f ih =>
    obtain ⟨ihv, ihl, ihk⟩ := ih
    refine ⟨?_, ?_, ?_⟩
    · intro v hg hsz
      cases v with
      | vstr s => exact ⟨.vstr s, rfl, rfl⟩
      | vint n => exact ⟨.vint n, rfl, rfl⟩
      | vbool b => exact ⟨.vbool b, rfl, rfl⟩
      | vnone => exact ⟨.vnone, rfl, rfl⟩
      | vmsg c => exact ⟨.vstr (pyStr (.vmsg c)), rfl, rfl⟩
      | vlist l =>
        have hg' : goodList l = true := hg
        have hsz0 : pvSize (PyVal.vlist l) = 1 + pvlSize l := rfl
        have hsz' : pvlSize l ≤ f := by omega
        obtain ⟨r, h1, h2⟩ := ihl l hg' hsz'
        refine ⟨.vlist r, ?_, h2⟩
        show serialiseFuel (f + 1) (.vlist l) = Except.ok (PyVal.vlist r)
        simp only [serialiseFuel, h1, exc_bind_ok]
        rfl
      | vdict kvs =>
        have hg' : goodKVs kvs = true := hg
        have hsz0 : pvSize (PyVal.vdict kvs) = 1 + pvkSize kvs := rfl
        have hsz' : pvkSize kvs ≤ f := by omega
        obtain ⟨r, h1, h2⟩ := ihk kvs hg' hsz'
        refine ⟨.vdict r, ?_, h2⟩
        show serialiseFuel (f + 1) (.vdict kvs) = Except.ok (PyVal.vdict r)
        simp only [serialiseFuel, h1, exc_bind_ok]
        rfl
      | vset l =>
        have hg' : (sortableElems l && goodList l) = true := hg
        rw [Bool.and_eq_true] at hg'
        obtain ⟨m, hm, hmg, hmsize⟩ := pySorted_sortable hg'.1 hg'.2
        have hsz0 : pvSize (PyVal.vset l) = 1 + pvlSize l := rfl
        have hsz' : pvlSize m ≤ f := by omega
        obtain ⟨r, h1, h2⟩ := ihl m hmg hsz'
        refine ⟨.vlist r, ?_, h2⟩
        show serialiseFuel (f + 1) (.vset l) = Except.ok (PyVal.vlist r)
        simp only [serialiseFuel, hm, h1, exc_bind_ok]
        rfl
    · intro l hgl hsz
      cases l with
      | nil => exact ⟨.nil, rfl, rfl⟩
      | cons x xs =>
        have hgl' : (goodVal x && goodList xs) = true := hgl
        rw [Bool.and_eq_true] at hgl'
        have hsz0 : pvlSize (PyList.cons x xs) = 1 + pvSize x + pvlSize xs := rfl
        have hx1 := pvSize_pos x
        have hx2 := pvlSize_pos xs
        obtain ⟨rx, h1, h2⟩ := ihv x hgl'.1 (by omega)
        obtain ⟨rxs, h3, h4⟩ := ihl xs hgl'.2 (by omega)
        refine ⟨.cons rx rxs, ?_, ?_⟩
        · show serialiseListFuel (f + 1) (.cons x xs) = Except.ok (PyList.cons rx rxs)
          simp only [serialiseListFuel, h1, h3, exc_bind_ok]
          rfl
        · show (composedVal rx && composedList rxs) = true
          rw [h2, h4]
          rfl
    · intro kvs hgk hsz
      cases kvs with
      | nil => exact ⟨.nil, rfl, rfl⟩
      | cons k v tl =>
        have hgk' : (isPrimitive k && goodVal v && goodKVs tl) = true := hgk
        rw [Bool.and_eq_true, Bool.and_eq_true] at hgk'
        have hsz0 : pvkSize (PyKVs.cons k v tl) = 1 + pvSize k + pvSize v + pvkSize tl := rfl
        have hk1 := pvSize_pos k
        have hk2 := pvSize_pos v
        have hk3 := pvkSize_pos tl
        obtain ⟨rv, h1, h2⟩ := ihv v hgk'.1.2 (by omega)
        obtain ⟨rtl, h3, h4⟩ := ihk tl hgk'.2 (by omega)
        refine ⟨.cons k rv rtl, ?_, ?_⟩
        · show serialiseKVsFuel (f + 1) (.cons k v tl) = Except.ok (PyKVs.cons k rv rtl)
          simp only [serialiseKVsFuel, h1, h3, exc_bind_ok]
          rfl
        · show (isPrimitive k && composedVal rv && composedKVs rtl) = true
          rw [hgk'.1.1, h2, h4]
          rfl

/-- Claim C5 (corrected): the serializer can raise after all — `sorted`
dies with `TypeError` on a heterogeneous set — but on every value whose
sets are homogeneous (numeric or string elements, or at most one
element) it succeeds and returns a structure composed only of
primitives, lists and dicts. -/
theorem claim5 (v : PyVal) (h : goodVal v = true) :
    ∃ r, _serialise v = .ok r ∧ composedVal r = true := by
  obtain ⟨r, h1, h2⟩ := (serialiseFuel_ok (pvSize v + 1)).1 v h (Nat.le_succ _)
  exact ⟨r, h1, h2⟩

/-- Witness for C5: a mapping holding a numeric set. -/
theorem claim5_witness :
    goodVal (PyVal.vdict (.cons (.vstr "k".data)
      (.vset (.cons (.vint 2) (.cons (.vint 1) .nil))) .nil)) = true ∧
    ∃ r, _serialise (PyVal.vdict (.cons (.vstr "k".data)
        (.vset (.cons (.vint 2) (.cons (.vint 1) .nil))) .nil)) = .ok r ∧
      composedVal r = true :=
  ⟨by decide, claim5 _ (by decide)⟩

/-- Counterexample for C5 as stated: the heterogeneous set `{1, "a"}`
is built from primitives and a set, yet the serializer raises. -/
theorem claim5_counterexample :
    poisonSet = PyVal.vset (.cons (.vint 1) (.cons (.vstr "a".data) .nil)) ∧
    isOkE (_serialise poisonSet) = false :=
  ⟨rfl, by decide⟩
